import Mathlib

/-!
# Lock-free ring queue (`odp_queue_lf.c`): single-threaded semantics

Shallow embedding of `platform/linux-generic/odp_queue_lf.c`.

* Machine integers are natural numbers; `uint64_t` arithmetic is taken
  modulo `2 ^ 64`, the 63-bit bit-field `ptr` modulo `2 ^ 63`.
* A `ring_lf_node_t` is the record of its three bit-fields, which together
  cover all 128 bits of the union, so comparing two records is comparing the
  two `u128` values.
* A pointer is the natural number of its address; `NULL` is `0`.
* The node array is a list; a well-formed ring has exactly `RING_LF_SIZE`
  nodes.
* Memory is sequential: a load returns the stored value and a compare and swap
  succeeds exactly when the stored value equals the expected one.
-/

namespace OdpQueueLf

/-! ## Constants -/

def RING_LF_SIZE : Nat := 32
def QUEUE_LF_NUM : Nat := 128
def ENQ_RETRIES : Nat := RING_LF_SIZE / 4
def DEQ_RETRIES : Nat := RING_LF_SIZE / 8

/-- Largest `uint64_t` value plus one. -/
def U64 : Nat := 2 ^ 64

/-- Number of values of the 63-bit `ptr` bit-field. -/
def U63 : Nat := 2 ^ 63

/-! ## Data model -/

/-- Node in the lock-free ring: `mark` (1 bit), `ptr` (63 bits), `count` (64 bits). -/
structure ring_lf_node_t where
  mark : Nat
  ptr : Nat
  count : Nat
deriving DecidableEq, Repr

/-- The all-zero 128-bit value. -/
def zero_node : ring_lf_node_t := ⟨0, 0, 0⟩

/-- Lock-free ring. -/
structure queue_lf_t where
  node : List ring_lf_node_t
  used : Int
  enq_counter : Nat
deriving DecidableEq, Repr

/-- The fields of a node fit their bit widths. -/
def ring_lf_node_t.WF (n : ring_lf_node_t) : Prop :=
  n.mark < 2 ∧ n.ptr < U63 ∧ n.count < U64

instance (n : ring_lf_node_t) : Decidable n.WF := by
  unfold ring_lf_node_t.WF; exact inferInstance

/-- A ring value of the C type: `RING_LF_SIZE` nodes, all fields within their widths. -/
def queue_lf_t.WF (q : queue_lf_t) : Prop :=
  q.node.length = RING_LF_SIZE ∧ (∀ n ∈ q.node, n.WF) ∧ q.enq_counter < U64

instance (q : queue_lf_t) : Decidable q.WF := by
  unfold queue_lf_t.WF; exact inferInstance

/-! ## Atomic primitives (sequential memory) -/

/-- Relaxed load of `node[i].u128`. -/
def atomic_load_u128 (mem : List ring_lf_node_t) (i : Nat) : ring_lf_node_t :=
  mem.getD i zero_node

/-- Relaxed store of zero to `node[i].u128`. -/
def atomic_zero_u128 (mem : List ring_lf_node_t) (i : Nat) : List ring_lf_node_t :=
  mem.set i zero_node

/-- Strong compare and swap on `node[i].u128`, release ordering on success. -/
def atomic_cas_rel_u128 (mem : List ring_lf_node_t) (i : Nat)
    (old_val new_val : ring_lf_node_t) : Bool × List ring_lf_node_t :=
  if mem.getD i zero_node = old_val then (true, mem.set i new_val) else (false, mem)

/-- Strong compare and swap on `node[i].u128`, acquire ordering on success. -/
def atomic_cas_acq_u128 (mem : List ring_lf_node_t) (i : Nat)
    (old_val new_val : ring_lf_node_t) : Bool × List ring_lf_node_t :=
  if mem.getD i zero_node = old_val then (true, mem.set i new_val) else (false, mem)

/-- Modelled from the spec: `odp_atomic_fetch_inc_u64` of the ODP atomic API, which is
not part of this source file. It returns the value of the 64-bit counter before the
increment together with the incremented counter, which wraps modulo `2 ^ 64`. -/
def odp_atomic_fetch_inc_u64 (atom : Nat) : Nat × Nat :=
  (atom, (atom + 1) % U64)

/-- Modelled from the spec: `odp_atomic_init_u64` of the ODP atomic API, which is not
part of this source file. It stores the given value in the 64-bit counter. -/
def odp_atomic_init_u64 (val : Nat) : Nat :=
  val % U64

/-! ## Ring operations -/

def next_idx (idx : Nat) : Nat :=
  let next := idx + 1
  if next = RING_LF_SIZE then 0 else next

/-- Inner loop of `queue_lf_enq` ("find empty node"), with `n` iterations left.
Returns `found`, `i_node` and the sampled `node_val`. -/
def enq_find (mem : List ring_lf_node_t) :
    Nat → Nat → ring_lf_node_t → Bool × Nat × ring_lf_node_t
  | 0, i_node, node_val => (false, i_node, node_val)
  | n + 1, i_node, _ =>
    let i_node := next_idx i_node
    let node_val := atomic_load_u128 mem i_node
    if node_val.mark = 0 then (true, i_node, node_val)
    else enq_find mem n i_node node_val

/-- The value `new_val` that `queue_lf_enq` tries to insert. -/
def enq_new_val (buf_hdr counter : Nat) : ring_lf_node_t :=
  { mark := 1, count := counter, ptr := ((buf_hdr % U64) >>> 1) % U63 }

/-- Outer retry loop of `queue_lf_enq`, with `n` retries left. -/
def enq_retry (buf_hdr counter : Nat) :
    Nat → List ring_lf_node_t → Nat → ring_lf_node_t → Int × List ring_lf_node_t
  | 0, mem, _, _ => (-1, mem)
  | n + 1, mem, i_node, node_val =>
    match enq_find mem RING_LF_SIZE i_node node_val with
    | (false, _, _) => (-1, mem)
    | (true, i_node, node_val) =>
      match atomic_cas_rel_u128 mem i_node node_val (enq_new_val buf_hdr counter) with
      | (true, mem) => (0, mem)
      | (false, mem) => enq_retry buf_hdr counter n mem i_node node_val

/-- `queue_lf_enq`: returns `0` on success and `-1` when the ring is full. -/
def queue_lf_enq (queue_lf : queue_lf_t) (buf_hdr : Nat) : Int × queue_lf_t :=
  let (counter, enq_counter) := odp_atomic_fetch_inc_u64 queue_lf.enq_counter
  let (ret, mem) := enq_retry buf_hdr counter ENQ_RETRIES queue_lf.node 0 zero_node
  (ret, { queue_lf with node := mem, enq_counter := enq_counter })

/-- Local variables of the head search in `queue_lf_deq`. -/
structure deq_locals where
  i_node : Nat
  found : Bool
  lowest : Nat
  old : Nat
  old_val : ring_lf_node_t
deriving DecidableEq, Repr

/-- Inner loop of `queue_lf_deq` ("find the head node"), with `n` iterations left. -/
def deq_find (mem : List ring_lf_node_t) : Nat → deq_locals → deq_locals
  | 0, s => s
  | n + 1, s =>
    let i_node := next_idx s.i_node
    let node_val := atomic_load_u128 mem i_node
    if node_val.mark = 1 ∧ node_val.count < s.lowest then
      deq_find mem n
        { i_node := i_node, found := true, lowest := node_val.count,
          old := i_node, old_val := node_val }
    else
      deq_find mem n { s with i_node := i_node }

/-- Outer retry loop of `queue_lf_deq`, with `n` retries left. -/
def deq_retry : Nat → List ring_lf_node_t → deq_locals → Nat × List ring_lf_node_t
  | 0, mem, _ => (0, mem)
  | n + 1, mem, s =>
    let s := deq_find mem RING_LF_SIZE { s with found := false, lowest := U64 - 1 }
    if s.found = false then (0, mem)
    else
      let new_val := { s.old_val with mark := 0 }
      match atomic_cas_acq_u128 mem s.old s.old_val new_val with
      | (true, mem) => ((s.old_val.ptr <<< 1) % U64, mem)
      | (false, mem) => deq_retry n mem s

/-- `queue_lf_deq`: returns the dequeued pointer, or `0` (`NULL`) when the ring is empty. -/
def queue_lf_deq (queue_lf : queue_lf_t) : Nat × queue_lf_t :=
  let (buf, mem) :=
    deq_retry DEQ_RETRIES queue_lf.node
      { i_node := 0, found := false, lowest := 0, old := 0, old_val := zero_node }
  (buf, { queue_lf with node := mem })

/-- Loop of `init_queue` that zeroes `node[i]` for `i = k, ..., k + n - 1`. -/
def init_nodes (mem : List ring_lf_node_t) : Nat → Nat → List ring_lf_node_t
  | 0, _ => mem
  | n + 1, i => init_nodes (atomic_zero_u128 mem i) n (i + 1)

def init_queue (queue_lf : queue_lf_t) : queue_lf_t :=
  { queue_lf with
    enq_counter := odp_atomic_init_u64 0
    node := init_nodes queue_lf.node RING_LF_SIZE 0 }

/-! ## Specification vocabulary -/

/-- Indices sampled by a scan of `n` iterations that starts after `i_node`. -/
def scan_order : Nat → Nat → List Nat
  | 0, _ => []
  | n + 1, i_node => next_idx i_node :: scan_order n (next_idx i_node)

/-- First index with `mark = 0` in the order in which `queue_lf_enq` samples the nodes. -/
def first_empty (mem : List ring_lf_node_t) : Option Nat :=
  (scan_order RING_LF_SIZE 0).find? (fun j => decide ((atomic_load_u128 mem j).mark = 0))

/-- Pointer value that `queue_lf_deq` returns for a node: `ptr << 1` as `uintptr_t`. -/
def node_buf (n : ring_lf_node_t) : Nat := (n.ptr <<< 1) % U64

/-- The ring holds exactly the payloads `fifo`, oldest first: `idxs` lists the marked
nodes in increasing order of `count`, and every count is below the enqueue counter. -/
def Sim (q : queue_lf_t) (fifo : List Nat) : Prop :=
  ∃ idxs : List Nat,
    idxs.Nodup ∧ (∀ i ∈ idxs, i < 32) ∧
    (∀ i, i < 32 → i ∉ idxs → (q.node.getD i zero_node).mark = 0) ∧
    (∀ i ∈ idxs, (q.node.getD i zero_node).mark = 1 ∧
      (q.node.getD i zero_node).count < q.enq_counter) ∧
    idxs.Pairwise
      (fun i j => (q.node.getD i zero_node).count < (q.node.getD j zero_node).count) ∧
    idxs.map (fun i => node_buf (q.node.getD i zero_node)) = fifo

/-! ## Callers and the abstract queue -/

/-- One call of the ring API. -/
inductive Call where
  | enq (buf_hdr : Nat)
  | deq
deriving DecidableEq, Repr

/-- What the caller observes: the `int` returned by an enqueue, or the payload returned
by a dequeue, where `none` stands for `NULL` (empty). -/
inductive Result where
  | enq (ret : Int)
  | deq (buf : Option Nat)
deriving DecidableEq, Repr

/-- How the caller of `queue_lf_deq` reads the returned pointer: `NULL` means empty. -/
def deq_result (buf : Nat) : Option Nat :=
  if buf = 0 then none else some buf

/-- Results of a single-threaded sequence of calls on a ring. -/
def run_ring : queue_lf_t → List Call → List Result
  | _, [] => []
  | q, Call.enq buf_hdr :: cs =>
    Result.enq (queue_lf_enq q buf_hdr).1 :: run_ring (queue_lf_enq q buf_hdr).2 cs
  | q, Call.deq :: cs =>
    Result.deq (deq_result (queue_lf_deq q).1) :: run_ring (queue_lf_deq q).2 cs

/-- Ring state after a single-threaded sequence of calls. -/
def run_state : queue_lf_t → List Call → queue_lf_t
  | q, [] => q
  | q, Call.enq buf_hdr :: cs => run_state (queue_lf_enq q buf_hdr).2 cs
  | q, Call.deq :: cs => run_state (queue_lf_deq q).2 cs

/-- Number of enqueue attempts in a sequence of calls. -/
def enq_attempts : List Call → Nat
  | [] => 0
  | Call.enq _ :: cs => enq_attempts cs + 1
  | Call.deq :: cs => enq_attempts cs

/-- Abstract bounded FIFO queue of the specification, enqueue: `0` (ok) and append when
fewer than `RING_LF_SIZE` items are held, `-1` (full) otherwise. -/
def fifo_enq (fifo : List Nat) (p : Nat) : Int × List Nat :=
  if fifo.length < RING_LF_SIZE then (0, fifo ++ [p]) else (-1, fifo)

/-- Abstract bounded FIFO queue of the specification, dequeue: the head, or empty. -/
def fifo_deq : List Nat → Option Nat × List Nat
  | [] => (none, [])
  | h :: t => (some h, t)

/-- Results of a sequence of calls on the abstract FIFO queue. -/
def run_fifo : List Nat → List Call → List Result
  | _, [] => []
  | fifo, Call.enq p :: cs => Result.enq (fifo_enq fifo p).1 :: run_fifo (fifo_enq fifo p).2 cs
  | fifo, Call.deq :: cs => Result.deq (fifo_deq fifo).1 :: run_fifo (fifo_deq fifo).2 cs

/-- Consecutive `queue_lf_enq` calls, one per payload; returns the return values. -/
def enq_list : queue_lf_t → List Nat → List Int × queue_lf_t
  | q, [] => ([], q)
  | q, p :: ps =>
    ((queue_lf_enq q p).1 :: (enq_list (queue_lf_enq q p).2 ps).1,
      (enq_list (queue_lf_enq q p).2 ps).2)

/-- The next `n` consecutive `queue_lf_deq` calls; returns the returned pointers. -/
def deq_n : queue_lf_t → Nat → List Nat × queue_lf_t
  | q, 0 => ([], q)
  | q, n + 1 =>
    ((queue_lf_deq q).1 :: (deq_n (queue_lf_deq q).2 n).1, (deq_n (queue_lf_deq q).2 n).2)

/-- Caller loop that dequeues until `queue_lf_deq` returns `NULL`, giving up (`none`)
after `n` calls. -/
def drain : Nat → queue_lf_t → Option (List Nat × queue_lf_t)
  | 0, _ => none
  | n + 1, q =>
    if (queue_lf_deq q).1 = 0 then some ([], (queue_lf_deq q).2)
    else
      match drain n (queue_lf_deq q).2 with
      | none => none
      | some (out, q1) => some ((queue_lf_deq q).1 :: out, q1)

/-- The `count` field of the first node in which two node arrays differ. -/
def changed_count (before after : List ring_lf_node_t) : Option Nat :=
  ((before.zip after).find? (fun x => decide (x.1 ≠ x.2))).map (fun x => x.2.count)

/-- Counts installed by the successful enqueues of a call sequence, in call order: for
each `queue_lf_enq` that returns `0`, the `count` of the node it changed. -/
def installed_counts : queue_lf_t → List Call → List Nat
  | _, [] => []
  | q, Call.enq buf_hdr :: cs =>
    if (queue_lf_enq q buf_hdr).1 = 0 then
      (changed_count q.node (queue_lf_enq q buf_hdr).2.node).toList ++
        installed_counts (queue_lf_enq q buf_hdr).2 cs
    else installed_counts (queue_lf_enq q buf_hdr).2 cs
  | q, Call.deq :: cs => installed_counts (queue_lf_deq q).2 cs

/-- A ring with all nodes zero, as a concrete input. -/
def ring0 : queue_lf_t :=
  { node := List.replicate RING_LF_SIZE zero_node, used := 1, enq_counter := 0 }

/-- Ring reached from a zeroed ring whose counter is `2 ^ 64 - 1` by enqueuing `0x2`. -/
def ring_max_count : queue_lf_t :=
  (queue_lf_enq { ring0 with enq_counter := U64 - 1 } 0x2).2

/-- Ring reached from a zeroed ring by enqueuing the pointer `0` (`NULL`). -/
def ring_null_payload : queue_lf_t :=
  (queue_lf_enq ring0 0).2

/-- Ring reached from a zeroed ring by enqueuing `0x10, 0x20, 0x30`. -/
def ring_three : queue_lf_t :=
  (enq_list ring0 [0x10, 0x20, 0x30]).2

/-! ## Batch operations -/

/-- `queue_lf_enq_multi`. The vector `buf_hdr` is given as the map from index to element,
so `buf_hdr 0` is `buf_hdr[0]`; `num` is not used by the code. Returns the number of
payloads accepted. -/
def queue_lf_enq_multi (queue_lf : queue_lf_t) (buf_hdr : Nat → Nat) (_num : Int) :
    Int × queue_lf_t :=
  if (queue_lf_enq queue_lf (buf_hdr 0)).1 = 0 then (1, (queue_lf_enq queue_lf (buf_hdr 0)).2)
  else (0, (queue_lf_enq queue_lf (buf_hdr 0)).2)

/-- `queue_lf_deq_multi`. The output vector `buf_hdr` is given as the map from index to
element. Returns the number of payloads written, the output vector and the ring. -/
def queue_lf_deq_multi (queue_lf : queue_lf_t) (buf_hdr : Nat → Nat) (_num : Int) :
    Int × (Nat → Nat) × queue_lf_t :=
  let buf := (queue_lf_deq queue_lf).1
  if buf = 0 then (0, buf_hdr, (queue_lf_deq queue_lf).2)
  else (1, Function.update buf_hdr 0 buf, (queue_lf_deq queue_lf).2)

/-! ## Global pool -/

/-- Lock-free queue globals: the table of rings and the handle of its shared memory. -/
structure queue_lf_global_t where
  queue_lf : List queue_lf_t
  shm : Nat
deriving DecidableEq, Repr

/-- Modelled from the spec: the queue-kind tag `odp_queue_type_t` of the ODP queue API,
declared outside this source file. Only the plain kind is served by the lock-free ring. -/
inductive odp_queue_type_t where
  | ODP_QUEUE_TYPE_PLAIN
  | ODP_QUEUE_TYPE_SCHED
deriving DecidableEq, Repr

/-- A `queue_lf_t` after `memset(queue_lf, 0, sizeof(queue_lf_t))`. -/
def zero_queue : queue_lf_t :=
  { node := List.replicate RING_LF_SIZE zero_node, used := 0, enq_counter := 0 }

/-- Loop of `queue_lf_create` over the table, at index `i` with `n` iterations left.
Returns the index of the entry taken (`none` for `NULL`) and the table. -/
def create_loop (pool : List queue_lf_t) : Nat → Nat → Option Nat × List queue_lf_t
  | 0, _ => (none, pool)
  | n + 1, i =>
    if (pool.getD i zero_queue).used = 0 then
      let queue_lf := init_queue zero_queue
      (some i, pool.set i { queue_lf with used := 1 })
    else create_loop pool n (i + 1)

/-- `queue_lf_create`: the handle returned is the index of the pool entry, `none` is
`NULL`. -/
def queue_lf_create (glb : queue_lf_global_t) (type : odp_queue_type_t) :
    Option Nat × queue_lf_global_t :=
  if type ≠ odp_queue_type_t.ODP_QUEUE_TYPE_PLAIN then (none, glb)
  else
    ((create_loop glb.queue_lf QUEUE_LF_NUM 0).1,
      { glb with queue_lf := (create_loop glb.queue_lf QUEUE_LF_NUM 0).2 })

/-- `queue_lf_destroy` of the pool entry with index `queue_lf_ptr`. -/
def queue_lf_destroy (glb : queue_lf_global_t) (queue_lf_ptr : Nat) : queue_lf_global_t :=
  { glb with
    queue_lf := glb.queue_lf.set queue_lf_ptr
      { glb.queue_lf.getD queue_lf_ptr zero_queue with used := 0 } }

/-- Consecutive `queue_lf_create` calls for plain queues; returns the handles. -/
def create_n : queue_lf_global_t → Nat → List (Option Nat) × queue_lf_global_t
  | glb, 0 => ([], glb)
  | glb, n + 1 =>
    ((queue_lf_create glb odp_queue_type_t.ODP_QUEUE_TYPE_PLAIN).1 ::
        (create_n (queue_lf_create glb odp_queue_type_t.ODP_QUEUE_TYPE_PLAIN).2 n).1,
      (create_n (queue_lf_create glb odp_queue_type_t.ODP_QUEUE_TYPE_PLAIN).2 n).2)

/-- The first `k` pool entries are taken and the others are free. -/
def Filled (glb : queue_lf_global_t) (k : Nat) : Prop :=
  glb.queue_lf.length = QUEUE_LF_NUM ∧
  (∀ j, j < k → (glb.queue_lf.getD j zero_queue).used ≠ 0) ∧
  (∀ j, k ≤ j → j < QUEUE_LF_NUM → (glb.queue_lf.getD j zero_queue).used = 0)

/-! ## Initialisation -/

/-- Modelled from the spec: the shared-memory service behind `odp_shm_reserve`,
`odp_shm_addr` and `odp_shm_free`, which is not part of this source file. It keeps the
handles of the reserved regions and counts the calls made to it. -/
structure odp_shm_state where
  live : List Nat
  next : Nat
  reserve_calls : Nat
  free_calls : Nat
deriving DecidableEq, Repr

/-- Modelled from the spec: `odp_shm_reserve`, not part of this source file. It reserves
a region and returns its handle. -/
def odp_shm_reserve (s : odp_shm_state) : Nat × odp_shm_state :=
  (s.next, { s with live := s.next :: s.live, next := s.next + 1,
                    reserve_calls := s.reserve_calls + 1 })

/-- Modelled from the spec: function table `queue_lf_func_t` of `odp_queue_lf.h`, which
is not part of this source file. It has one entry per ring operation; `none` is a null
function pointer. -/
structure queue_lf_func_t where
  enq : Option (queue_lf_t → Nat → Int × queue_lf_t)
  enq_multi : Option (queue_lf_t → (Nat → Nat) → Int → Int × queue_lf_t)
  deq : Option (queue_lf_t → Nat × queue_lf_t)
  deq_multi : Option (queue_lf_t → (Nat → Nat) → Int → Int × (Nat → Nat) × queue_lf_t)

/-- Process-wide state used by the pool: the static pointer `queue_lf_glb` (`none` is
`NULL`) together with the memory it points to, and the shared-memory service. -/
structure lf_process_t where
  queue_lf_glb : Option queue_lf_global_t
  shm_state : odp_shm_state
deriving DecidableEq, Repr

/-- What `queue_lf_init_global` returns and writes: the return value, the process state,
`*queue_lf_size` and `*lf_func`. -/
structure init_global_result where
  ret : Nat
  process : lf_process_t
  queue_lf_size : Nat
  lf_func : queue_lf_func_t

/-- `queue_lf_init_global`. `sizeof_int128` tells whether `__SIZEOF_INT128__` is defined
and `is_lock_free` is the value of `__atomic_is_lock_free(16, NULL)`; `queue_lf_size` and
`lf_func` are the values behind the two pointer arguments before the call. -/
def queue_lf_init_global (sizeof_int128 is_lock_free : Bool) (process : lf_process_t)
    (queue_lf_size : Nat) (lf_func : queue_lf_func_t) : init_global_result :=
  let lockfree := if sizeof_int128 then is_lock_free else false
  if !lockfree then
    { ret := 0, process := process, queue_lf_size := queue_lf_size, lf_func := lf_func }
  else
    let (shm, shm_state) := odp_shm_reserve process.shm_state
    let glb : queue_lf_global_t :=
      { queue_lf := List.replicate QUEUE_LF_NUM zero_queue, shm := 0 }
    let glb := { glb with shm := shm }
    let lf_func : queue_lf_func_t :=
      { enq := none, enq_multi := none, deq := none, deq_multi := none }
    let lf_func := { lf_func with enq := some queue_lf_enq }
    let lf_func := { lf_func with enq_multi := some queue_lf_enq_multi }
    let lf_func := { lf_func with deq := some queue_lf_deq }
    let lf_func := { lf_func with deq_multi := some queue_lf_deq_multi }
    { ret := QUEUE_LF_NUM,
      process := { queue_lf_glb := some glb, shm_state := shm_state },
      queue_lf_size := RING_LF_SIZE,
      lf_func := lf_func }

/-- A pool as `queue_lf_init_global` leaves it, as a concrete input. -/
def pool0 : queue_lf_global_t :=
  { queue_lf := List.replicate QUEUE_LF_NUM zero_queue, shm := 0 }

/-- A process before `queue_lf_init_global`, as a concrete input. -/
def process0 : lf_process_t :=
  { queue_lf_glb := none,
    shm_state := { live := [], next := 1, reserve_calls := 0, free_calls := 0 } }

/-- An empty function table, as a concrete input. -/
def lf_func0 : queue_lf_func_t :=
  { enq := none, enq_multi := none, deq := none, deq_multi := none }

/-! ## Teardown -/

/-- Modelled from the spec: `odp_shm_free`, not part of this source file. It releases the
region with the given handle and returns 0, or returns -1 when no such region is
reserved; every call is counted. -/
def odp_shm_free (s : odp_shm_state) (shm : Nat) : Int × odp_shm_state :=
  if shm ∈ s.live then
    (0, { s with live := s.live.erase shm, free_calls := s.free_calls + 1 })
  else (-1, { s with free_calls := s.free_calls + 1 })

/-- `queue_lf_term_global`. The code does not assign `queue_lf_glb`, so the pointer and
what it pointed to stay in the process state. -/
def queue_lf_term_global (process : lf_process_t) : lf_process_t :=
  match process.queue_lf_glb with
  | none => process
  | some glb =>
    let shm := glb.shm
    { process with shm_state := (odp_shm_free process.shm_state shm).2 }

/-- Process state after a successful `queue_lf_init_global` on `process0`. -/
def process_up : lf_process_t :=
  (queue_lf_init_global true true process0 0 lf_func0).process

/-! ## Ring calls as sequences of atomic operations

The same two functions, `queue_lf_enq` and `queue_lf_deq`, cut at their atomic memory
operations: one step performs the next fetch-and-increment, load or compare and swap of the
call on the current memory, together with the local computation up to the operation after
it. Between two steps of a call other threads may change the ring. -/

/-- The atomic memory operation performed by a step; `ret` is the step of a call that has
returned and touches nothing. -/
inductive atomic_op where
  | fetch_inc
  | load (idx : Nat)
  | cas (idx : Nat) (ok : Bool)
  | ret
deriving DecidableEq, Repr

/-- Control point of a `queue_lf_enq` call, named after the atomic operation it is about
to perform, with the values of the locals `j`, `i`, `i_node`, `node_val`, `counter`. -/
inductive enq_pc where
  | fetch_inc
  | load (j i i_node counter : Nat)
  | cas (j i_node : Nat) (node_val : ring_lf_node_t) (counter : Nat)
  | done (ret : Int)
deriving DecidableEq, Repr

/-- Head of the inner loop of `queue_lf_enq`: test `i < RING_LF_SIZE`; when the loop ends
without `break`, `found` is 0 and the call returns -1. -/
def enq_inner (j i i_node counter : Nat) : enq_pc :=
  if i < RING_LF_SIZE then enq_pc.load j i i_node counter else enq_pc.done (-1)

/-- Head of the outer loop of `queue_lf_enq`: test `j < ENQ_RETRIES`; after the loop the
call returns -1. -/
def enq_outer (j i_node counter : Nat) : enq_pc :=
  if j < ENQ_RETRIES then enq_inner j 0 i_node counter else enq_pc.done (-1)

/-- One atomic step of a `queue_lf_enq` call on the current ring. -/
def enq_step (buf_hdr : Nat) (pc : enq_pc) (q : queue_lf_t) :
    enq_pc × queue_lf_t × atomic_op :=
  match pc with
  | enq_pc.fetch_inc =>
    (enq_outer 0 0 (odp_atomic_fetch_inc_u64 q.enq_counter).1,
      { q with enq_counter := (odp_atomic_fetch_inc_u64 q.enq_counter).2 },
      atomic_op.fetch_inc)
  | enq_pc.load j i i_node counter =>
    let i_node := next_idx i_node
    let node_val := atomic_load_u128 q.node i_node
    if node_val.mark = 0 then (enq_pc.cas j i_node node_val counter, q, atomic_op.load i_node)
    else (enq_inner j (i + 1) i_node counter, q, atomic_op.load i_node)
  | enq_pc.cas j i_node node_val counter =>
    match atomic_cas_rel_u128 q.node i_node node_val (enq_new_val buf_hdr counter) with
    | (true, mem) => (enq_pc.done 0, { q with node := mem }, atomic_op.cas i_node true)
    | (false, mem) =>
      (enq_outer (j + 1) i_node counter, { q with node := mem }, atomic_op.cas i_node false)
  | enq_pc.done r => (enq_pc.done r, q, atomic_op.ret)

/-- Control point of a `queue_lf_deq` call, with the values of the locals. -/
inductive deq_pc where
  | load (j i : Nat) (s : deq_locals)
  | cas (j : Nat) (s : deq_locals)
  | done (buf : Nat)
deriving DecidableEq, Repr

/-- Head of the inner loop of `queue_lf_deq`: test `i < RING_LF_SIZE`; after the loop the
call returns `NULL` when `found` is 0 and goes on to the compare and swap otherwise. -/
def deq_inner (j i : Nat) (s : deq_locals) : deq_pc :=
  if i < RING_LF_SIZE then deq_pc.load j i s
  else if s.found = false then deq_pc.done 0
  else deq_pc.cas j s

/-- Head of the outer loop of `queue_lf_deq`: test `j < DEQ_RETRIES`, then reset `found`
and `lowest`; after the loop the call returns `NULL`. -/
def deq_outer (j : Nat) (s : deq_locals) : deq_pc :=
  if j < DEQ_RETRIES then deq_inner j 0 { s with found := false, lowest := U64 - 1 }
  else deq_pc.done 0

/-- Control point at the entry of `queue_lf_deq`. -/
def deq_start : deq_pc :=
  deq_outer 0 { i_node := 0, found := false, lowest := 0, old := 0, old_val := zero_node }

/-- One atomic step of a `queue_lf_deq` call on the current ring. -/
def deq_step (pc : deq_pc) (q : queue_lf_t) : deq_pc × queue_lf_t × atomic_op :=
  match pc with
  | deq_pc.load j i s =>
    let i_node := next_idx s.i_node
    let node_val := atomic_load_u128 q.node i_node
    if node_val.mark = 1 ∧ node_val.count < s.lowest then
      (deq_inner j (i + 1)
          { i_node := i_node, found := true, lowest := node_val.count,
            old := i_node, old_val := node_val },
        q, atomic_op.load i_node)
    else (deq_inner j (i + 1) { s with i_node := i_node }, q, atomic_op.load i_node)
  | deq_pc.cas j s =>
    match atomic_cas_acq_u128 q.node s.old s.old_val { s.old_val with mark := 0 } with
    | (true, mem) =>
      (deq_pc.done ((s.old_val.ptr <<< 1) % U64), { q with node := mem },
        atomic_op.cas s.old true)
    | (false, mem) => (deq_outer (j + 1) s, { q with node := mem }, atomic_op.cas s.old false)
  | deq_pc.done buf => (deq_pc.done buf, q, atomic_op.ret)

/-- Record of one executed step: the ring right before and right after it, and the
atomic operation performed. -/
structure step_rec where
  before : queue_lf_t
  after : queue_lf_t
  op : atomic_op
deriving DecidableEq, Repr

/-- A `queue_lf_enq` call under interference, for at most `n` steps from control point
`pc`: before the `k`-th atomic operation of the call the other threads turn the ring `q`
into `env k q`. Returns the control point and ring reached and the steps executed. -/
def enq_run_env (buf_hdr : Nat) (env : Nat → queue_lf_t → queue_lf_t) :
    Nat → Nat → enq_pc → queue_lf_t → enq_pc × queue_lf_t × List step_rec
  | 0, _, pc, q => (pc, q, [])
  | _ + 1, _, enq_pc.done r, q => (enq_pc.done r, q, [])
  | n + 1, k, pc, q =>
    let r := enq_step buf_hdr pc (env k q)
    let rest := enq_run_env buf_hdr env n (k + 1) r.1 r.2.1
    (rest.1, rest.2.1, { before := env k q, after := r.2.1, op := r.2.2 } :: rest.2.2)

/-- A `queue_lf_deq` call under interference, as `enq_run_env`. -/
def deq_run_env (env : Nat → queue_lf_t → queue_lf_t) :
    Nat → Nat → deq_pc → queue_lf_t → deq_pc × queue_lf_t × List step_rec
  | 0, _, pc, q => (pc, q, [])
  | _ + 1, _, deq_pc.done buf, q => (deq_pc.done buf, q, [])
  | n + 1, k, pc, q =>
    let r := deq_step pc (env k q)
    let rest := deq_run_env env n (k + 1) r.1 r.2.1
    (rest.1, rest.2.1, { before := env k q, after := r.2.1, op := r.2.2 } :: rest.2.2)

/-- Number of steps that suffices for a `queue_lf_enq` call: one fetch-and-increment,
`ENQ_RETRIES * RING_LF_SIZE` loads and `ENQ_RETRIES` compare and swaps. -/
def ENQ_STEPS : Nat := 1 + ENQ_RETRIES * RING_LF_SIZE + ENQ_RETRIES

/-- Number of steps that suffices for a `queue_lf_deq` call. -/
def DEQ_STEPS : Nat := DEQ_RETRIES * RING_LF_SIZE + DEQ_RETRIES

/-- No interference: the call runs alone. -/
def no_env : Nat → queue_lf_t → queue_lf_t := fun _ q => q

/-- Invariant of the control points of a `queue_lf_enq` call: the loop variables are
within their bounds and the value sampled for the compare and swap has `mark = 0`. -/
def enq_pc_ok : enq_pc → Prop
  | enq_pc.load j i i_node _ => j < ENQ_RETRIES ∧ i < RING_LF_SIZE ∧ i_node < RING_LF_SIZE
  | enq_pc.cas j i_node node_val _ =>
    j < ENQ_RETRIES ∧ i_node < RING_LF_SIZE ∧ node_val.mark = 0
  | _ => True

/-- Invariant of the locals of a `queue_lf_deq` call: once `found` is set, `old_val` is a
sampled value with `mark = 1` and `old` is a node index. -/
def deq_locals_ok (s : deq_locals) : Prop :=
  s.i_node < RING_LF_SIZE ∧ (s.found = true → s.old_val.mark = 1 ∧ s.old < RING_LF_SIZE)

/-- Invariant of the control points of a `queue_lf_deq` call. -/
def deq_pc_ok : deq_pc → Prop
  | deq_pc.load j i s => j < DEQ_RETRIES ∧ i < RING_LF_SIZE ∧ deq_locals_ok s
  | deq_pc.cas j s => j < DEQ_RETRIES ∧ deq_locals_ok s ∧ s.found = true
  | deq_pc.done _ => True

/-- Every node keeps its value or goes from `mark = 0` to `mark = 1`. -/
def fills_only (before after : queue_lf_t) : Prop :=
  ∀ i, after.node.getD i zero_node = before.node.getD i zero_node ∨
    ((before.node.getD i zero_node).mark = 0 ∧ (after.node.getD i zero_node).mark = 1)

/-- Every node keeps its value or goes from `mark = 1` to `mark = 0`. -/
def drains_only (before after : queue_lf_t) : Prop :=
  ∀ i, after.node.getD i zero_node = before.node.getD i zero_node ∨
    ((before.node.getD i zero_node).mark = 1 ∧ (after.node.getD i zero_node).mark = 0)

/-- Loads that a `queue_lf_enq` call can still make from a control point. -/
def enq_loads_left : enq_pc → Nat
  | enq_pc.fetch_inc => ENQ_RETRIES * RING_LF_SIZE
  | enq_pc.load j i _ _ => (ENQ_RETRIES - j) * RING_LF_SIZE - i
  | enq_pc.cas j _ _ _ => (ENQ_RETRIES - (j + 1)) * RING_LF_SIZE
  | enq_pc.done _ => 0

/-- Compare and swaps that a `queue_lf_enq` call can still make from a control point. -/
def enq_cas_left : enq_pc → Nat
  | enq_pc.fetch_inc => ENQ_RETRIES
  | enq_pc.load j _ _ _ => ENQ_RETRIES - j
  | enq_pc.cas j _ _ _ => ENQ_RETRIES - j
  | enq_pc.done _ => 0

/-- Fetch-and-increments that a `queue_lf_enq` call can still make from a control point. -/
def enq_fetch_left : enq_pc → Nat
  | enq_pc.fetch_inc => 1
  | _ => 0

/-- Loads that a `queue_lf_deq` call can still make from a control point. -/
def deq_loads_left : deq_pc → Nat
  | deq_pc.load j i _ => (DEQ_RETRIES - j) * RING_LF_SIZE - i
  | deq_pc.cas j _ => (DEQ_RETRIES - (j + 1)) * RING_LF_SIZE
  | deq_pc.done _ => 0

/-- Compare and swaps that a `queue_lf_deq` call can still make from a control point. -/
def deq_cas_left : deq_pc → Nat
  | deq_pc.load j _ _ => DEQ_RETRIES - j
  | deq_pc.cas j _ => DEQ_RETRIES - j
  | deq_pc.done _ => 0

def is_load : atomic_op → Bool
  | atomic_op.load _ => true
  | _ => false

def is_cas : atomic_op → Bool
  | atomic_op.cas _ _ => true
  | _ => false

def is_fetch_inc : atomic_op → Bool
  | atomic_op.fetch_inc => true
  | _ => false

/-- Number of steps of the given kind in a list of step records. -/
def count_ops (kind : atomic_op → Bool) (recs : List step_rec) : Nat :=
  recs.countP (fun r => kind r.op)

/-- The loads of a trace follow the rolling scan index. `i_node` is the index sampled
last (0 at the start of a call) and `seen` holds the indices sampled so far in the
current scan. Every load samples `next_idx i_node`, a node not yet sampled in this scan,
and is at most the `RING_LF_SIZE`-th load of the scan; a compare and swap is made on the
node sampled last and the next scan starts from there. -/
def rolling_scan : Nat → List Nat → List atomic_op → Prop
  | _, _, [] => True
  | i_node, seen, atomic_op.load idx :: ops =>
    idx = next_idx i_node ∧ idx ∉ seen ∧ seen.length < RING_LF_SIZE ∧
      rolling_scan idx (idx :: seen) ops
  | i_node, _, atomic_op.cas idx _ :: ops => idx = i_node ∧ rolling_scan i_node [] ops
  | i_node, seen, _ :: ops => rolling_scan i_node seen ops

/-- Relation between a control point of `queue_lf_enq`, the index sampled last and the
indices sampled in the current scan. -/
def enq_scan_inv : enq_pc → Nat → List Nat → Prop
  | enq_pc.fetch_inc, i_node, seen => i_node = 0 ∧ seen = []
  | enq_pc.load _ i i_node _, cur, seen =>
    cur = i_node ∧ i < RING_LF_SIZE ∧ seen.length = i ∧
      ∃ s, s < RING_LF_SIZE ∧ i_node = (s + i) % RING_LF_SIZE ∧
        ∀ x ∈ seen, ∃ m, m < i ∧ x = (s + m + 1) % RING_LF_SIZE
  | enq_pc.cas _ i_node _ _, cur, _ => cur = i_node ∧ i_node < RING_LF_SIZE
  | enq_pc.done _, _, _ => True

/-! ## Concurrent calls on one ring

Calls in progress on one ring, interleaved at their atomic operations by a schedule. A
thread that makes several calls contributes them in program order, so every interleaving
of threads is an interleaving of their calls. -/

/-- A call in progress: `queue_lf_enq` of a payload, or `queue_lf_deq`, at a control
point. -/
inductive op_t where
  | enq (buf_hdr : Nat) (pc : enq_pc)
  | deq (pc : deq_pc)
deriving DecidableEq, Repr

/-- One atomic step of a call in progress. -/
def op_step (o : op_t) (q : queue_lf_t) : op_t × queue_lf_t × atomic_op :=
  match o with
  | op_t.enq buf_hdr pc =>
    (op_t.enq buf_hdr (enq_step buf_hdr pc q).1, (enq_step buf_hdr pc q).2.1,
      (enq_step buf_hdr pc q).2.2)
  | op_t.deq pc => (op_t.deq (deq_step pc q).1, (deq_step pc q).2.1, (deq_step pc q).2.2)

/-- The shared ring and the calls in progress on it. -/
structure sys_t where
  ring : queue_lf_t
  ops : List op_t
deriving DecidableEq, Repr

/-- The call with index `t` makes one atomic step; an index without a call does nothing. -/
def sys_step (s : sys_t) (t : Nat) : sys_t × step_rec :=
  match s.ops[t]? with
  | none => (s, { before := s.ring, after := s.ring, op := atomic_op.ret })
  | some o =>
    ({ ring := (op_step o s.ring).2.1, ops := s.ops.set t (op_step o s.ring).1 },
      { before := s.ring, after := (op_step o s.ring).2.1, op := (op_step o s.ring).2.2 })

/-- State after the interleaving given by a schedule, the list of the indices of the calls
that step. -/
def sys_run : sys_t → List Nat → sys_t
  | s, [] => s
  | s, t :: ts => sys_run (sys_step s t).1 ts

/-- The steps made along a schedule, each with the index of the call that made it. -/
def sys_trace : sys_t → List Nat → List (Nat × step_rec)
  | _, [] => []
  | s, t :: ts => (t, (sys_step s t).2) :: sys_trace (sys_step s t).1 ts

/-- The steps of the call with index `t` in a trace. -/
def steps_of (t : Nat) (trace : List (Nat × step_rec)) : List step_rec :=
  (trace.filter (fun x => x.1 = t)).map (fun x => x.2)

/-- Number of `queue_lf_enq` calls of payload `x` that have returned 0. -/
def enq_ok_count (x : Nat) (ops : List op_t) : Nat :=
  ops.countP (fun o => decide (o = op_t.enq x (enq_pc.done 0)))

/-- Number of `queue_lf_deq` calls that have returned the pointer `x`. -/
def deq_got_count (x : Nat) (ops : List op_t) : Nat :=
  ops.countP (fun o => decide (o = op_t.deq (deq_pc.done x)))

/-- Number of nodes with `mark = 1` that hold the payload `x`. -/
def marked_count (x : Nat) (nodes : List ring_lf_node_t) : Nat :=
  nodes.countP (fun n => decide (n.mark = 1 ∧ node_buf n = x))

/-- Payload of a `queue_lf_enq` call. -/
def is_enq_of (x : Nat) : op_t → Bool
  | op_t.enq buf_hdr _ => decide (buf_hdr = x)
  | op_t.deq _ => false

/-- A call in progress satisfies the invariant of its control points; the payload of an
enqueue is a 64-bit value with low bit 0. -/
def op_ok : op_t → Prop
  | op_t.enq buf_hdr pc => buf_hdr % 2 = 0 ∧ buf_hdr < U64 ∧ enq_pc_ok pc
  | op_t.deq pc => deq_pc_ok pc

/-- A call that has not made a step yet. -/
def op_fresh : op_t → Prop
  | op_t.enq buf_hdr pc => buf_hdr % 2 = 0 ∧ buf_hdr < U64 ∧ pc = enq_pc.fetch_inc
  | op_t.deq pc => pc = deq_start

instance (o : op_t) : Decidable (op_fresh o) := by
  cases o <;> unfold op_fresh <;> exact inferInstance

/-- Schedule of the spurious full: call 0 increments the counter; then, eight times, call
0 samples the free node `m`, call `m` runs from entry to return and fills that node, and
the compare and swap of call 0 fails. -/
def spurious_sched : List Nat :=
  0 :: ((List.range 8).map (fun m => 0 :: (List.replicate (m + 3) (m + 1) ++ [0]))).flatten

/-- Nine `queue_lf_enq` calls on an empty ring: call 0 with payload `0x100`, calls 1 to 8
with payloads `0x10, ..., 0x80`. -/
def spurious_sys : sys_t :=
  { ring := ring0,
    ops := op_t.enq 0x100 enq_pc.fetch_inc ::
      (List.range 8).map (fun m => op_t.enq (0x10 * (m + 1)) enq_pc.fetch_inc) }

/-- One `queue_lf_enq` call of payload `p` and one `queue_lf_deq` call on a freshly
initialised ring. -/
def sys_enq_deq (p : Nat) : sys_t :=
  { ring := init_queue ring0,
    ops := [op_t.enq p enq_pc.fetch_inc, op_t.deq deq_start] }

/-- Schedule in which call 0, an enqueue on an empty ring, runs from entry to return and
then call 1, a dequeue, runs from entry to return. -/
def sched_enq_deq : List Nat :=
  [0, 0, 0] ++ List.replicate 33 1

/-- Two `queue_lf_enq` calls of the same payload `p` and two `queue_lf_deq` calls on a
freshly initialised ring. -/
def sys_enq2_deq2 (p : Nat) : sys_t :=
  { ring := init_queue ring0,
    ops := [op_t.enq p enq_pc.fetch_inc, op_t.enq p enq_pc.fetch_inc,
      op_t.deq deq_start, op_t.deq deq_start] }

/-- Schedule in which the calls 0, 1, 2, 3 of `sys_enq2_deq2` run one after the other. -/
def sched_enq2_deq2 : List Nat :=
  [0, 0, 0] ++ [1, 1, 1, 1] ++ List.replicate 33 2 ++ List.replicate 33 3

/-- Two `queue_lf_enq` calls and two `queue_lf_deq` calls that overlap: both enqueues
sample node 1 as free before either compare and swap, and both dequeues sample the same
head before either compare and swap. -/
def sys_overlap : sys_t :=
  { ring := init_queue ring0,
    ops := [op_t.enq 0x10 enq_pc.fetch_inc, op_t.enq 0x20 enq_pc.fetch_inc,
      op_t.deq deq_start, op_t.deq deq_start] }

/-- Schedule for `sys_overlap`. -/
def sched_overlap : List Nat :=
  [0, 1, 0, 1, 0, 1, 1, 1] ++ (List.replicate 32 [2, 3]).flatten ++ [2, 3] ++
    List.replicate 33 3

/-! ## Two callers of `queue_lf_create`

`queue_lf_create` cut at its accesses to the pool: the test of `used` of an entry is one
step; `memset`, `init_queue` and the assignment `used = 1` of the entry taken are
another. The code uses no atomic operation and no lock for them. -/

/-- Control point of a `queue_lf_create` call: about to test `queue_lf[i].used`, about to
overwrite entry `i` after its `used` was read as 0, or returned. -/
inductive create_pc where
  | test (i : Nat)
  | take (i : Nat)
  | done (ret : Option Nat)
deriving DecidableEq, Repr

/-- Head of the loop of `queue_lf_create`: test `i < QUEUE_LF_NUM`; after the loop the
call returns `queue_lf`, still `NULL`. -/
def create_head (i : Nat) : create_pc :=
  if i < QUEUE_LF_NUM then create_pc.test i else create_pc.done none

/-- Control point at the entry of `queue_lf_create`, after the test of the queue type. -/
def create_entry (type : odp_queue_type_t) : create_pc :=
  if type ≠ odp_queue_type_t.ODP_QUEUE_TYPE_PLAIN then create_pc.done none
  else create_head 0

/-- One step of a `queue_lf_create` call on the current pool. -/
def create_step (pc : create_pc) (glb : queue_lf_global_t) :
    create_pc × queue_lf_global_t :=
  match pc with
  | create_pc.test i =>
    if (glb.queue_lf.getD i zero_queue).used = 0 then (create_pc.take i, glb)
    else (create_head (i + 1), glb)
  | create_pc.take i =>
    let queue_lf := init_queue zero_queue
    (create_pc.done (some i),
      { glb with queue_lf := glb.queue_lf.set i { queue_lf with used := 1 } })
  | create_pc.done r => (create_pc.done r, glb)

/-- A `queue_lf_create` call that runs alone for `n` steps. -/
def create_run : Nat → create_pc → queue_lf_global_t → create_pc × queue_lf_global_t
  | 0, pc, glb => (pc, glb)
  | n + 1, pc, glb => create_run n (create_step pc glb).1 (create_step pc glb).2

/-- Two `queue_lf_create` calls interleaved by a schedule: `false` lets the first caller
make a step, `true` the second. Returns the pool and the two control points. -/
def create_run2 : queue_lf_global_t → create_pc → create_pc → List Bool →
    queue_lf_global_t × create_pc × create_pc
  | glb, pc0, pc1, [] => (glb, pc0, pc1)
  | glb, pc0, pc1, false :: sched =>
    create_run2 (create_step pc0 glb).2 (create_step pc0 glb).1 pc1 sched
  | glb, pc0, pc1, true :: sched =>
    create_run2 (create_step pc1 glb).2 pc0 (create_step pc1 glb).1 sched

/-- Number of steps that suffices for a `queue_lf_create` call. -/
def CREATE_STEPS : Nat := QUEUE_LF_NUM + 1

/-- Interference that spoils every compare and swap of a `queue_lf_enq` call on an empty
ring: right before the `k`-th atomic operation, for even `k ≥ 2`, another thread has
filled node `k / 2`, the node the call sampled last. -/
def env_spoil : Nat → queue_lf_t → queue_lf_t :=
  fun k q =>
    if k % 2 = 0 ∧ 2 ≤ k then
      { q with node := q.node.set (k / 2) { mark := 1, ptr := k, count := k } }
    else q

/-! ## Sequences of pool calls -/

/-- A call on the pool made by the queue layer: `queue_lf_create` for a queue of the
given kind, or `queue_lf_destroy` of a handle. -/
inductive pool_call where
  | create (type : odp_queue_type_t)
  | destroy (queue_lf_ptr : Nat)
deriving DecidableEq, Repr

/-- The pool together with the handles the callers hold: those returned by
`queue_lf_create` and not yet passed to `queue_lf_destroy`. -/
structure pool_state where
  glb : queue_lf_global_t
  outstanding : List Nat
deriving DecidableEq, Repr

/-- One pool call: the pool is changed by `queue_lf_create` or `queue_lf_destroy`, and
the caller records the handle returned or gives up the handle destroyed. -/
def pool_step (s : pool_state) : pool_call → pool_state
  | pool_call.create type =>
    match (queue_lf_create s.glb type).1 with
    | some k => { glb := (queue_lf_create s.glb type).2, outstanding := k :: s.outstanding }
    | none => { glb := (queue_lf_create s.glb type).2, outstanding := s.outstanding }
  | pool_call.destroy queue_lf_ptr =>
    { glb := queue_lf_destroy s.glb queue_lf_ptr,
      outstanding := s.outstanding.erase queue_lf_ptr }

/-- A sequence of pool calls, one after the other. -/
def pool_run : pool_state → List pool_call → pool_state
  | s, [] => s
  | s, c :: cs => pool_run (pool_step s c) cs

/-- Every `queue_lf_destroy` of the sequence is given a handle that is outstanding when
the call is made. -/
def pool_valid : pool_state → List pool_call → Prop
  | _, [] => True
  | s, pool_call.create type :: cs => pool_valid (pool_step s (pool_call.create type)) cs
  | s, pool_call.destroy queue_lf_ptr :: cs =>
    queue_lf_ptr ∈ s.outstanding ∧
      pool_valid (pool_step s (pool_call.destroy queue_lf_ptr)) cs

instance pool_valid_decidable : (s : pool_state) → (cs : List pool_call) →
    Decidable (pool_valid s cs)
  | _, [] => isTrue trivial
  | s, pool_call.create type :: cs =>
    pool_valid_decidable (pool_step s (pool_call.create type)) cs
  | s, pool_call.destroy queue_lf_ptr :: cs =>
    @instDecidableAnd _ _ _
      (pool_valid_decidable (pool_step s (pool_call.destroy queue_lf_ptr)) cs)

/-- Invariant of the pool and the handles held by the callers: the table has
`QUEUE_LF_NUM` entries, no handle is held twice, and the entries with `used = 1` are
exactly the handles held. -/
def pool_inv (s : pool_state) : Prop :=
  s.glb.queue_lf.length = QUEUE_LF_NUM ∧ s.outstanding.Nodup ∧
  ∀ i, (s.glb.queue_lf.getD i zero_queue).used = 1 ↔ i ∈ s.outstanding

/-- A sequence of pool calls, as a concrete input: two plain queues are created, a
scheduled queue is refused, the first handle is destroyed and two more plain queues are
created. -/
def pool_calls_six : List pool_call :=
  [pool_call.create odp_queue_type_t.ODP_QUEUE_TYPE_PLAIN,
    pool_call.create odp_queue_type_t.ODP_QUEUE_TYPE_PLAIN,
    pool_call.create odp_queue_type_t.ODP_QUEUE_TYPE_SCHED,
    pool_call.destroy 0,
    pool_call.create odp_queue_type_t.ODP_QUEUE_TYPE_PLAIN,
    pool_call.create odp_queue_type_t.ODP_QUEUE_TYPE_PLAIN]

/-- The node index of an atomic operation is an index of `node[]`. -/
def op_in_bounds : atomic_op → Prop
  | atomic_op.load idx => idx < RING_LF_SIZE
  | atomic_op.cas idx _ => idx < RING_LF_SIZE
  | _ => True

/-- The node indices sampled by `n` iterations of the scan loop `i_node =
next_idx(i_node)` that starts from `i_node`, with the final value of `i_node`. -/
def next_idx_iter : Nat → Nat → Nat
  | 0, i_node => i_node
  | n + 1, i_node => next_idx_iter n (next_idx i_node)

/-- A ring with all 32 nodes taken: 32 payloads enqueued on a zeroed ring. -/
def ring_full : queue_lf_t :=
  (enq_list ring0 ((List.range 32).map (fun i => 0x100 + 2 * i))).2

/-! ## Scan order and the atomic primitives -/

theorem scan_order_full : scan_order RING_LF_SIZE 0 =
    [1, 2, 3, 4, 5, 6, 7, 8, 9, 10, 11, 12, 13, 14, 15, 16, 17, 18, 19, 20, 21, 22, 23,
      24, 25, 26, 27, 28, 29, 30, 31, 0] := by decide

theorem mem_scan_order_full (i : Nat) : i ∈ scan_order RING_LF_SIZE 0 ↔ i < 32 := by
  rw [scan_order_full]
  constructor
  · intro h
    simp only [List.mem_cons, List.mem_singleton, List.not_mem_nil, or_false] at h
    omega
  · intro h
    interval_cases i <;> simp

theorem getD_set_self {α : Type} (l : List α) (i : Nat) (v d : α) (h : i < l.length) :
    (l.set i v).getD i d = v := by
  simp [List.getD_eq_getElem?_getD, List.getElem?_set, h]

theorem getD_set_other {α : Type} (l : List α) (i j : Nat) (v d : α) (h : i ≠ j) :
    (l.set i v).getD j d = l.getD j d := by
  simp [List.getD_eq_getElem?_getD, List.getElem?_set, h]

theorem enq_find_spec (mem : List ring_lf_node_t) (n i : Nat) (v : ring_lf_node_t) :
    match (scan_order n i).find? (fun j => decide ((atomic_load_u128 mem j).mark = 0)) with
    | none => (enq_find mem n i v).1 = false
    | some k => enq_find mem n i v = (true, k, atomic_load_u128 mem k) := by
  induction n generalizing i v with
  | zero => simp [scan_order, enq_find]
  | succ n ih =>
    simp only [scan_order, enq_find, List.find?_cons]
    by_cases h : (atomic_load_u128 mem (next_idx i)).mark = 0
    · simp [h]
    · simp only [h, decide_False, if_false]
      exact ih _ _

theorem enq_find_of_none (mem : List ring_lf_node_t) (n i : Nat) (v : ring_lf_node_t)
    (h : (scan_order n i).find? (fun j => decide ((atomic_load_u128 mem j).mark = 0)) = none) :
    ∃ i1 v1, enq_find mem n i v = (false, i1, v1) := by
  have := enq_find_spec mem n i v
  rw [h] at this
  exact ⟨(enq_find mem n i v).2.1, (enq_find mem n i v).2.2, by
    rw [← this]⟩

theorem enq_find_of_some (mem : List ring_lf_node_t) (n i k : Nat) (v : ring_lf_node_t)
    (h : (scan_order n i).find? (fun j => decide ((atomic_load_u128 mem j).mark = 0)) = some k) :
    enq_find mem n i v = (true, k, atomic_load_u128 mem k) := by
  have := enq_find_spec mem n i v
  rw [h] at this
  exact this

theorem enq_retry_of_none (mem : List ring_lf_node_t) (p c n : Nat) (v : ring_lf_node_t)
    (h : first_empty mem = none) :
    enq_retry p c (n + 1) mem 0 v = (-1, mem) := by
  obtain ⟨i1, v1, e⟩ := enq_find_of_none mem RING_LF_SIZE 0 v h
  simp only [enq_retry, e]

theorem enq_retry_of_some (mem : List ring_lf_node_t) (p c n k : Nat) (v : ring_lf_node_t)
    (h : first_empty mem = some k) :
    enq_retry p c (n + 1) mem 0 v = (0, mem.set k (enq_new_val p c)) := by
  have e := enq_find_of_some mem RING_LF_SIZE 0 k v h
  simp only [enq_retry, e, atomic_cas_rel_u128, atomic_load_u128, if_true]

theorem queue_lf_enq_of_none (q : queue_lf_t) (p : Nat) (h : first_empty q.node = none) :
    queue_lf_enq q p = (-1, { q with enq_counter := (q.enq_counter + 1) % U64 }) := by
  simp only [queue_lf_enq, odp_atomic_fetch_inc_u64, ENQ_RETRIES, RING_LF_SIZE]
  have := enq_retry_of_none q.node p q.enq_counter 7 zero_node h
  simp only [RING_LF_SIZE] at this
  rw [this]

theorem queue_lf_enq_of_some (q : queue_lf_t) (p k : Nat) (h : first_empty q.node = some k) :
    queue_lf_enq q p =
      (0, { q with node := q.node.set k (enq_new_val p q.enq_counter),
                   enq_counter := (q.enq_counter + 1) % U64 }) := by
  simp only [queue_lf_enq, odp_atomic_fetch_inc_u64, ENQ_RETRIES, RING_LF_SIZE]
  have := enq_retry_of_some q.node p q.enq_counter 7 k zero_node h
  simp only [RING_LF_SIZE] at this
  rw [this]

theorem first_empty_none_iff (mem : List ring_lf_node_t) :
    first_empty mem = none ↔ ∀ i, i < 32 → (mem.getD i zero_node).mark ≠ 0 := by
  unfold first_empty
  rw [List.find?_eq_none]
  simp only [mem_scan_order_full, decide_eq_true_eq, atomic_load_u128]

theorem first_empty_some (mem : List ring_lf_node_t) (k : Nat) (h : first_empty mem = some k) :
    k < 32 ∧ (mem.getD k zero_node).mark = 0 := by
  unfold first_empty at h
  have h1 := List.find?_some h
  have h2 := List.mem_of_find?_eq_some h
  rw [mem_scan_order_full] at h2
  simp only [decide_eq_true_eq, atomic_load_u128] at h1
  exact ⟨h2, h1⟩

/-- What the head search of `queue_lf_deq` computes: either the locals keep their values
and no sampled node beats `lowest`, or they hold a marked node of least count. -/
theorem deq_find_spec (mem : List ring_lf_node_t) (n : Nat) (s : deq_locals) :
    ((deq_find mem n s).found = s.found ∧ (deq_find mem n s).lowest = s.lowest ∧
      (deq_find mem n s).old = s.old ∧ (deq_find mem n s).old_val = s.old_val ∧
      ∀ j ∈ scan_order n s.i_node, (mem.getD j zero_node).mark = 1 →
        s.lowest ≤ (mem.getD j zero_node).count) ∨
    ((deq_find mem n s).found = true ∧ (deq_find mem n s).old ∈ scan_order n s.i_node ∧
      (deq_find mem n s).old_val = mem.getD (deq_find mem n s).old zero_node ∧
      (deq_find mem n s).old_val.mark = 1 ∧
      (deq_find mem n s).old_val.count < s.lowest ∧
      ∀ j ∈ scan_order n s.i_node, (mem.getD j zero_node).mark = 1 →
        (deq_find mem n s).old_val.count ≤ (mem.getD j zero_node).count) := by
  induction n generalizing s with
  | zero => left; simp [deq_find, scan_order]
  | succ n ih =>
    simp only [deq_find, scan_order, atomic_load_u128]
    by_cases h : (mem.getD (next_idx s.i_node) zero_node).mark = 1 ∧
        (mem.getD (next_idx s.i_node) zero_node).count < s.lowest
    · rw [if_pos h]
      right
      rcases ih { i_node := next_idx s.i_node, found := true,
                  lowest := (mem.getD (next_idx s.i_node) zero_node).count,
                  old := next_idx s.i_node,
                  old_val := mem.getD (next_idx s.i_node) zero_node } with
        ⟨h1, _, h3, h4, h5⟩ | ⟨h1, h2, h3, h4, h5, h6⟩
      · simp only at h1 h3 h4 h5
        refine ⟨h1, ?_, ?_, ?_, ?_, ?_⟩
        · rw [h3]; exact List.mem_cons_self _ _
        · rw [h3, h4]
        · rw [h4]; exact h.1
        · rw [h4]; exact h.2
        · intro j hj hm
          rw [h4]
          rcases List.mem_cons.mp hj with rfl | hj
          · exact le_refl _
          · exact h5 j hj hm
      · simp only at h2 h5 h6
        refine ⟨h1, List.mem_cons_of_mem _ h2, h3, h4, lt_trans h5 h.2, ?_⟩
        intro j hj hm
        rcases List.mem_cons.mp hj with rfl | hj
        · exact le_of_lt h5
        · exact h6 j hj hm
    · rw [if_neg h]
      rcases ih { s with i_node := next_idx s.i_node } with
        ⟨h1, h2, h3, h4, h5⟩ | ⟨h1, h2, h3, h4, h5, h6⟩
      · left
        simp only at h1 h2 h3 h4 h5
        refine ⟨h1, h2, h3, h4, ?_⟩
        intro j hj hm
        rcases List.mem_cons.mp hj with rfl | hj
        · by_contra hc
          exact h ⟨hm, by omega⟩
        · exact h5 j hj hm
      · right
        simp only at h2 h5 h6
        refine ⟨h1, List.mem_cons_of_mem _ h2, h3, h4, h5, ?_⟩
        intro j hj hm
        rcases List.mem_cons.mp hj with rfl | hj
        · by_contra hc
          exact h ⟨hm, by omega⟩
        · exact h6 j hj hm

theorem deq_retry_of_none (mem : List ring_lf_node_t) (n : Nat) (s : deq_locals)
    (hs : s.i_node = 0)
    (h : ∀ j, j < 32 → (mem.getD j zero_node).mark = 1 → U64 - 1 ≤ (mem.getD j zero_node).count) :
    deq_retry (n + 1) mem s = (0, mem) := by
  obtain ⟨i, f, l, o, ov⟩ := s
  simp only at hs
  subst hs
  have hspec := deq_find_spec mem RING_LF_SIZE
    { i_node := 0, found := false, lowest := U64 - 1, old := o, old_val := ov }
  simp only [deq_retry]
  generalize deq_find mem RING_LF_SIZE
    { i_node := 0, found := false, lowest := U64 - 1, old := o, old_val := ov } = t at hspec ⊢
  simp only [mem_scan_order_full] at hspec
  rcases hspec with ⟨h1, _⟩ | ⟨_, h2, h3, h4, h5, _⟩
  · rw [if_pos h1]
  · exfalso
    have := h _ h2 (by rw [← h3]; exact h4)
    rw [← h3] at this
    omega

theorem deq_retry_of_some (mem : List ring_lf_node_t) (n : Nat) (s : deq_locals)
    (hs : s.i_node = 0)
    (h : ∃ j, j < 32 ∧ (mem.getD j zero_node).mark = 1 ∧ (mem.getD j zero_node).count < U64 - 1) :
    ∃ k, k < 32 ∧ (mem.getD k zero_node).mark = 1 ∧ (mem.getD k zero_node).count < U64 - 1 ∧
      (∀ j, j < 32 → (mem.getD j zero_node).mark = 1 →
        (mem.getD k zero_node).count ≤ (mem.getD j zero_node).count) ∧
      deq_retry (n + 1) mem s =
        (((mem.getD k zero_node).ptr <<< 1) % U64,
          mem.set k { mem.getD k zero_node with mark := 0 }) := by
  obtain ⟨i, f, l, o, ov⟩ := s
  simp only at hs
  subst hs
  have hspec := deq_find_spec mem RING_LF_SIZE
    { i_node := 0, found := false, lowest := U64 - 1, old := o, old_val := ov }
  simp only [deq_retry]
  generalize deq_find mem RING_LF_SIZE
    { i_node := 0, found := false, lowest := U64 - 1, old := o, old_val := ov } = t at hspec ⊢
  simp only [mem_scan_order_full] at hspec
  rcases hspec with ⟨_, _, _, _, h5⟩ | ⟨h1, h2, h3, h4, h5, h6⟩
  · exfalso
    obtain ⟨j, hj, hm, hc⟩ := h
    have := h5 j hj hm
    omega
  · refine ⟨t.old, h2, by rw [← h3]; exact h4, by rw [← h3]; exact h5, ?_, ?_⟩
    · intro j hj hm
      rw [← h3]
      exact h6 j hj hm
    · simp only [h1, atomic_cas_acq_u128]
      rw [if_neg (by simp), if_pos h3.symm, ← h3]

theorem queue_lf_deq_of_none (q : queue_lf_t)
    (h : ∀ j, j < 32 → (q.node.getD j zero_node).mark = 1 →
      U64 - 1 ≤ (q.node.getD j zero_node).count) :
    queue_lf_deq q = (0, q) := by
  simp only [queue_lf_deq, DEQ_RETRIES, RING_LF_SIZE]
  have := deq_retry_of_none q.node 3
    { i_node := 0, found := false, lowest := 0, old := 0, old_val := zero_node } rfl h
  rw [this]

theorem queue_lf_deq_of_some (q : queue_lf_t)
    (h : ∃ j, j < 32 ∧ (q.node.getD j zero_node).mark = 1 ∧
      (q.node.getD j zero_node).count < U64 - 1) :
    ∃ k, k < 32 ∧ (q.node.getD k zero_node).mark = 1 ∧
      (q.node.getD k zero_node).count < U64 - 1 ∧
      (∀ j, j < 32 → (q.node.getD j zero_node).mark = 1 →
        (q.node.getD k zero_node).count ≤ (q.node.getD j zero_node).count) ∧
      queue_lf_deq q =
        (((q.node.getD k zero_node).ptr <<< 1) % U64,
          { q with node := q.node.set k { q.node.getD k zero_node with mark := 0 } }) := by
  obtain ⟨k, h1, h2, h3, h4, h5⟩ := deq_retry_of_some q.node 3
    { i_node := 0, found := false, lowest := 0, old := 0, old_val := zero_node } rfl h
  refine ⟨k, h1, h2, h3, h4, ?_⟩
  simp only [queue_lf_deq, DEQ_RETRIES, RING_LF_SIZE]
  rw [h5]

theorem getD_set_zero (mem : List ring_lf_node_t) (i : Nat) :
    (mem.set i zero_node).getD i zero_node = zero_node := by
  by_cases h : i < mem.length
  · exact getD_set_self mem i _ _ h
  · rw [List.getD_eq_default]
    simp only [List.length_set]
    omega

theorem init_nodes_length (mem : List ring_lf_node_t) (n i : Nat) :
    (init_nodes mem n i).length = mem.length := by
  induction n generalizing mem i with
  | zero => rfl
  | succ n ih => simp only [init_nodes, ih, atomic_zero_u128, List.length_set]

theorem init_nodes_getD (mem : List ring_lf_node_t) (n i j : Nat) :
    (init_nodes mem n i).getD j zero_node =
      if i ≤ j ∧ j < i + n then zero_node else mem.getD j zero_node := by
  induction n generalizing mem i with
  | zero =>
    simp only [init_nodes]
    rw [if_neg (by omega)]
  | succ n ih =>
    simp only [init_nodes, ih, atomic_zero_u128]
    by_cases h1 : i + 1 ≤ j ∧ j < i + 1 + n
    · rw [if_pos h1, if_pos (by omega)]
    · rw [if_neg h1]
      by_cases h2 : i = j
      · subst h2
        rw [getD_set_zero, if_pos (by omega)]
      · rw [getD_set_other _ _ _ _ _ h2, if_neg (by omega)]

theorem init_queue_getD (q : queue_lf_t) (j : Nat) (hj : j < 32) :
    (init_queue q).node.getD j zero_node = zero_node := by
  simp only [init_queue, init_nodes_getD, RING_LF_SIZE]
  rw [if_pos (by omega)]

theorem init_queue_length (q : queue_lf_t) : (init_queue q).node.length = q.node.length := by
  simp only [init_queue, init_nodes_length]

theorem init_queue_counter (q : queue_lf_t) : (init_queue q).enq_counter = 0 := by
  simp [init_queue, odp_atomic_init_u64]

theorem Sim_init (q : queue_lf_t) : Sim (init_queue q) [] := by
  refine ⟨[], List.nodup_nil, by simp, ?_, by simp, List.Pairwise.nil, rfl⟩
  intro i hi _
  rw [init_queue_getD q i hi]
  rfl

theorem length_ge_of_all_mem (idxs : List Nat) (h : ∀ i, i < 32 → i ∈ idxs) :
    32 ≤ idxs.length := by
  have hsub : List.range 32 ⊆ idxs := fun i hi => h i (List.mem_range.mp hi)
  have := (List.subperm_of_subset (List.nodup_range 32) hsub).length_le
  simpa using this

theorem length_lt_of_not_mem (idxs : List Nat) (k : Nat) (hnd : idxs.Nodup)
    (hlt : ∀ i ∈ idxs, i < 32) (hk : k < 32) (hnk : k ∉ idxs) : idxs.length < 32 := by
  have hnd2 : (k :: idxs).Nodup := List.nodup_cons.mpr ⟨hnk, hnd⟩
  have hsub : (k :: idxs) ⊆ List.range 32 := by
    intro i hi
    rcases List.mem_cons.mp hi with rfl | hi
    · exact List.mem_range.mpr hk
    · exact List.mem_range.mpr (hlt i hi)
  have := (List.subperm_of_subset hnd2 hsub).length_le
  simp only [List.length_cons, List.length_range] at this
  omega

/-- A full ring rejects the payload and only the counter moves. -/
theorem Sim_enq_full (q : queue_lf_t) (fifo : List Nat) (p : Nat)
    (hs : Sim q fifo) (hfull : 32 ≤ fifo.length) :
    queue_lf_enq q p = (-1, { q with enq_counter := (q.enq_counter + 1) % U64 }) := by
  obtain ⟨idxs, hnd, hlt, hfree, hmark, -, hmap⟩ := hs
  apply queue_lf_enq_of_none
  rw [first_empty_none_iff]
  intro i hi h0
  by_cases hmem : i ∈ idxs
  · have := (hmark i hmem).1
    omega
  · have hlen := length_lt_of_not_mem idxs i hnd hlt hi hmem
    rw [← hmap, List.length_map] at hfull
    omega

/-- A ring with room takes the payload: a free node receives it with the current counter. -/
theorem Sim_enq_room (q : queue_lf_t) (fifo : List Nat) (p : Nat)
    (hs : Sim q fifo) (hlen : q.node.length = 32) (hroom : fifo.length < 32)
    (hc : q.enq_counter + 1 < U64) :
    ∃ q1, queue_lf_enq q p = (0, q1) ∧ q1.node.length = 32 ∧ q1.used = q.used ∧
      q1.enq_counter = q.enq_counter + 1 ∧
      Sim q1 (fifo ++ [node_buf (enq_new_val p q.enq_counter)]) := by
  obtain ⟨idxs, hnd, hlt, hfree, hmark, hpw, hmap⟩ := hs
  cases hfe : first_empty q.node with
  | none =>
    exfalso
    rw [first_empty_none_iff] at hfe
    have : ∀ i, i < 32 → i ∈ idxs := by
      intro i hi
      by_contra hmem
      exact hfe i hi (hfree i hi hmem)
    have := length_ge_of_all_mem idxs this
    rw [← hmap, List.length_map] at hroom
    omega
  | some k =>
    obtain ⟨hk, hk0⟩ := first_empty_some q.node k hfe
    have hnk : k ∉ idxs := by
      intro hmem
      have := (hmark k hmem).1
      omega
    have hne : ∀ i ∈ idxs, k ≠ i := fun i hi e => hnk (e ▸ hi)
    refine ⟨{ q with node := q.node.set k (enq_new_val p q.enq_counter),
                     enq_counter := (q.enq_counter + 1) % U64 },
      queue_lf_enq_of_some q p k hfe, by simp [hlen], rfl, ?_, ?_⟩
    · exact Nat.mod_eq_of_lt hc
    · refine ⟨idxs ++ [k], ?_, ?_, ?_, ?_, ?_, ?_⟩
      · rw [List.nodup_append]
        refine ⟨hnd, List.nodup_singleton k, ?_⟩
        intro a ha hb
        rw [List.mem_singleton] at hb
        exact hnk (hb ▸ ha)
      · intro i hi
        rcases List.mem_append.mp hi with hi | hi
        · exact hlt i hi
        · rw [List.mem_singleton] at hi
          omega
      · intro i hi hni
        simp only [List.mem_append, List.mem_singleton, not_or] at hni
        simp only
        rw [getD_set_other _ _ _ _ _ (Ne.symm hni.2)]
        exact hfree i hi hni.1
      · intro i hi
        simp only
        rw [Nat.mod_eq_of_lt hc]
        rcases List.mem_append.mp hi with hi | hi
        · rw [getD_set_other _ _ _ _ _ (hne i hi)]
          exact ⟨(hmark i hi).1, Nat.lt_succ_of_lt (hmark i hi).2⟩
        · rw [List.mem_singleton] at hi
          subst hi
          rw [getD_set_self _ _ _ _ (by omega)]
          exact ⟨rfl, Nat.lt_succ_self _⟩
      · rw [List.pairwise_append]
        refine ⟨?_, List.pairwise_singleton _ _, ?_⟩
        · refine List.Pairwise.imp_of_mem ?_ hpw
          intro a b ha hb hab
          simp only
          rw [getD_set_other _ _ _ _ _ (hne a ha), getD_set_other _ _ _ _ _ (hne b hb)]
          exact hab
        · intro a ha b hb
          rw [List.mem_singleton] at hb
          subst hb
          simp only
          rw [getD_set_other _ _ _ _ _ (hne a ha), getD_set_self _ _ _ _ (by omega)]
          exact (hmark a ha).2
      · rw [List.map_append, ← hmap]
        congr 1
        · apply List.map_congr_left
          intro a ha
          simp only
          rw [getD_set_other _ _ _ _ _ (hne a ha)]
        · simp only [List.map_cons, List.map_nil]
          rw [getD_set_self _ _ _ _ (by omega)]

theorem Sim_deq_empty (q : queue_lf_t) (hs : Sim q []) : queue_lf_deq q = (0, q) := by
  obtain ⟨idxs, -, -, hfree, -, -, hmap⟩ := hs
  have : idxs = [] := List.map_eq_nil_iff.mp hmap
  subst this
  apply queue_lf_deq_of_none
  intro j hj hm
  have := hfree j hj (List.not_mem_nil j)
  omega

theorem Sim_deq_head (q : queue_lf_t) (h : Nat) (t : List Nat)
    (hs : Sim q (h :: t)) (hlen : q.node.length = 32) (hc : q.enq_counter ≤ U64 - 1) :
    ∃ q1, queue_lf_deq q = (h, q1) ∧ q1.node.length = 32 ∧ q1.used = q.used ∧
      q1.enq_counter = q.enq_counter ∧ Sim q1 t := by
  obtain ⟨idxs, hnd, hlt, hfree, hmark, hpw, hmap⟩ := hs
  cases idxs with
  | nil => simp at hmap
  | cons i0 rest =>
    simp only [List.map_cons, List.cons.injEq] at hmap
    obtain ⟨hh, ht⟩ := hmap
    have hi0 := hmark i0 (List.mem_cons_self _ _)
    have hex : ∃ j, j < 32 ∧ (q.node.getD j zero_node).mark = 1 ∧
        (q.node.getD j zero_node).count < U64 - 1 :=
      ⟨i0, hlt i0 (List.mem_cons_self _ _), hi0.1, by omega⟩
    obtain ⟨k, hk, hkm, -, hmin, hdeq⟩ := queue_lf_deq_of_some q hex
    have hkmem : k ∈ i0 :: rest := by
      by_contra hmem
      have := hfree k hk hmem
      omega
    rw [List.pairwise_cons] at hpw
    have hk0 : k = i0 := by
      rcases List.mem_cons.mp hkmem with e | hr
      · exact e
      · exfalso
        have h1 := hpw.1 k hr
        have h2 := hmin i0 (hlt i0 (List.mem_cons_self _ _)) hi0.1
        omega
    subst hk0
    rw [List.nodup_cons] at hnd
    have hne : ∀ i ∈ rest, k ≠ i := fun i hi e => hnd.1 (e ▸ hi)
    refine ⟨{ q with node := q.node.set k { q.node.getD k zero_node with mark := 0 } },
      ?_, by simp [hlen], rfl, rfl, ?_⟩
    · rw [hdeq, ← hh]
      rfl
    · refine ⟨rest, hnd.2, fun i hi => hlt i (List.mem_cons_of_mem _ hi), ?_, ?_, ?_, ?_⟩
      · intro i hi hni
        simp only
        by_cases e : k = i
        · subst e
          rw [getD_set_self _ _ _ _ (by omega)]
        · rw [getD_set_other _ _ _ _ _ e]
          apply hfree i hi
          simp only [List.mem_cons, not_or]
          exact ⟨Ne.symm e, hni⟩
      · intro i hi
        simp only
        rw [getD_set_other _ _ _ _ _ (hne i hi)]
        exact hmark i (List.mem_cons_of_mem _ hi)
      · refine List.Pairwise.imp_of_mem ?_ hpw.2
        intro a b ha hb hab
        simp only
        rw [getD_set_other _ _ _ _ _ (hne a ha), getD_set_other _ _ _ _ _ (hne b hb)]
        exact hab
      · rw [← ht]
        apply List.map_congr_left
        intro a ha
        simp only
        rw [getD_set_other _ _ _ _ _ (hne a ha)]

theorem node_buf_new_val (p c : Nat) :
    node_buf (enq_new_val p c) = p % U64 / 2 * 2 := by
  simp only [node_buf, enq_new_val, Nat.shiftRight_eq_div_pow, Nat.shiftLeft_eq, U64, U63]
  norm_num
  omega

theorem node_buf_new_val_even (p c : Nat) (hp : p < U64) (he : p % 2 = 0) :
    node_buf (enq_new_val p c) = p := by
  rw [node_buf_new_val, Nat.mod_eq_of_lt hp]
  omega

theorem Sim_counter_mono (q : queue_lf_t) (fifo : List Nat) (c : Nat)
    (hs : Sim q fifo) (hc : q.enq_counter ≤ c) : Sim { q with enq_counter := c } fifo := by
  obtain ⟨idxs, hnd, hlt, hfree, hmark, hpw, hmap⟩ := hs
  exact ⟨idxs, hnd, hlt, hfree, fun i hi => ⟨(hmark i hi).1, lt_of_lt_of_le (hmark i hi).2 hc⟩,
    hpw, hmap⟩

theorem Sim_length_le (q : queue_lf_t) (fifo : List Nat) (hs : Sim q fifo) :
    fifo.length ≤ 32 := by
  obtain ⟨idxs, hnd, hlt, -, -, -, hmap⟩ := hs
  have hsub : idxs ⊆ List.range 32 := fun i hi => List.mem_range.mpr (hlt i hi)
  have := (List.subperm_of_subset hnd hsub).length_le
  rw [← hmap, List.length_map]
  simpa using this

/-- One enqueue on a ring that represents `fifo` acts as the abstract enqueue. -/
theorem Sim_enq (q : queue_lf_t) (fifo : List Nat) (p : Nat)
    (hs : Sim q fifo) (hlen : q.node.length = 32) (hc : q.enq_counter + 1 < U64) :
    (queue_lf_enq q p).1 = (fifo_enq fifo (node_buf (enq_new_val p q.enq_counter))).1 ∧
    (queue_lf_enq q p).2.node.length = 32 ∧
    (queue_lf_enq q p).2.enq_counter = q.enq_counter + 1 ∧
    Sim (queue_lf_enq q p).2 (fifo_enq fifo (node_buf (enq_new_val p q.enq_counter))).2 := by
  by_cases hroom : fifo.length < 32
  · obtain ⟨q1, he, h1, -, h2, h3⟩ := Sim_enq_room q fifo p hs hlen hroom hc
    simp only [fifo_enq, RING_LF_SIZE, if_pos hroom, he]
    exact ⟨trivial, h1, h2, h3⟩
  · have he := Sim_enq_full q fifo p hs (by omega)
    simp only [fifo_enq, RING_LF_SIZE, if_neg hroom, he, Nat.mod_eq_of_lt hc]
    exact ⟨trivial, hlen, trivial, Sim_counter_mono q fifo _ hs (by omega)⟩

/-- One dequeue on a ring that represents `fifo` returns the head, or `NULL`. -/
theorem Sim_deq (q : queue_lf_t) (fifo : List Nat)
    (hs : Sim q fifo) (hlen : q.node.length = 32) (hc : q.enq_counter ≤ U64 - 1) :
    (queue_lf_deq q).1 = fifo.headD 0 ∧
    (queue_lf_deq q).2.node.length = 32 ∧
    (queue_lf_deq q).2.enq_counter = q.enq_counter ∧
    Sim (queue_lf_deq q).2 fifo.tail := by
  cases fifo with
  | nil =>
    rw [Sim_deq_empty q hs]
    exact ⟨rfl, hlen, rfl, hs⟩
  | cons h t =>
    obtain ⟨q1, he, h1, -, h2, h3⟩ := Sim_deq_head q h t hs hlen hc
    rw [he]
    exact ⟨rfl, h1, h2, h3⟩

/-- Simulation: from related states the ring and the abstract queue give the same results. -/
theorem run_ring_eq_run_fifo (calls : List Call) (q : queue_lf_t) (fifo : List Nat)
    (hs : Sim q fifo) (hlen : q.node.length = 32) (hnz : ∀ x ∈ fifo, x ≠ 0)
    (hp : ∀ p, Call.enq p ∈ calls → p ≠ 0 ∧ p % 2 = 0 ∧ p < U64)
    (hc : q.enq_counter + enq_attempts calls ≤ U64 - 1) :
    run_ring q calls = run_fifo fifo calls := by
  induction calls generalizing q fifo with
  | nil => rfl
  | cons c cs ih =>
    cases c with
    | enq p =>
      simp only [enq_attempts] at hc
      obtain ⟨hp0, hp2, hp64⟩ := hp p (List.mem_cons_self _ _)
      have hU : 0 < U64 := by simp [U64]
      obtain ⟨h1, h2, h3, h4⟩ := Sim_enq q fifo p hs hlen (by omega)
      rw [node_buf_new_val_even p _ hp64 hp2] at h1 h4
      simp only [run_ring, run_fifo, h1]
      congr 1
      apply ih _ _ h4 h2
      · intro x hx
        simp only [fifo_enq] at hx
        split at hx
        · rcases List.mem_append.mp hx with hx | hx
          · exact hnz x hx
          · rw [List.mem_singleton] at hx
            omega
        · exact hnz x hx
      · exact fun p1 h => hp p1 (List.mem_cons_of_mem _ h)
      · omega
    | deq =>
      simp only [enq_attempts] at hc
      obtain ⟨h1, h2, h3, h4⟩ := Sim_deq q fifo hs hlen (by omega)
      have hres : deq_result (queue_lf_deq q).1 = (fifo_deq fifo).1 := by
        rw [h1]
        cases fifo with
        | nil => rfl
        | cons h t =>
          have := hnz h (List.mem_cons_self _ _)
          simp [deq_result, fifo_deq, this]
      have htl : (fifo_deq fifo).2 = fifo.tail := by cases fifo <;> rfl
      simp only [run_ring, run_fifo, hres]
      congr 1
      rw [htl]
      apply ih _ _ h4 h2
      · exact fun x hx => hnz x (List.mem_of_mem_tail hx)
      · exact fun p1 h => hp p1 (List.mem_cons_of_mem _ h)
      · omega

/-- Consecutive enqueues into a ring with room all succeed and append their payloads,
each with its low bit dropped. -/
theorem Sim_enq_list (ps : List Nat) (q : queue_lf_t) (fifo : List Nat)
    (hs : Sim q fifo) (hlen : q.node.length = 32) (hroom : fifo.length + ps.length ≤ 32)
    (hc : q.enq_counter + ps.length < U64) :
    (enq_list q ps).1 = List.replicate ps.length 0 ∧
    (enq_list q ps).2.node.length = 32 ∧
    (enq_list q ps).2.enq_counter = q.enq_counter + ps.length ∧
    Sim (enq_list q ps).2 (fifo ++ ps.map (fun p => p % U64 / 2 * 2)) := by
  induction ps generalizing q fifo with
  | nil => simpa [enq_list] using ⟨hlen, hs⟩
  | cons p ps ih =>
    simp only [List.length_cons] at hroom hc
    obtain ⟨h1, h2, h3, h4⟩ := Sim_enq q fifo p hs hlen (by omega)
    rw [node_buf_new_val] at h1 h4
    have hr : fifo.length < RING_LF_SIZE := by simp only [RING_LF_SIZE]; omega
    simp only [fifo_enq, if_pos hr] at h1 h4
    have hroom1 : (fifo ++ [p % U64 / 2 * 2]).length + ps.length ≤ 32 := by
      simp only [List.length_append, List.length_singleton]
      omega
    obtain ⟨i1, i2, i3, i4⟩ := ih _ _ h4 h2 hroom1 (by omega)
    simp only [enq_list, List.length_cons, List.replicate_succ, List.map_cons]
    refine ⟨by rw [h1, i1], i2, by omega, ?_⟩
    simpa using i4

theorem Sim_deq_n (xs : List Nat) (q : queue_lf_t) (ys : List Nat)
    (hs : Sim q (xs ++ ys)) (hlen : q.node.length = 32) (hc : q.enq_counter ≤ U64 - 1) :
    (deq_n q xs.length).1 = xs ∧
    (deq_n q xs.length).2.node.length = 32 ∧
    (deq_n q xs.length).2.enq_counter = q.enq_counter ∧
    Sim (deq_n q xs.length).2 ys := by
  induction xs generalizing q with
  | nil => exact ⟨rfl, hlen, rfl, hs⟩
  | cons x xs ih =>
    obtain ⟨h1, h2, h3, h4⟩ := Sim_deq q _ hs hlen hc
    simp only [List.cons_append, List.headD_cons, List.tail_cons] at h1 h4
    obtain ⟨i1, i2, i3, i4⟩ := ih _ h4 h2 (by omega)
    simp only [deq_n, List.length_cons]
    exact ⟨by rw [h1, i1], i2, by omega, i4⟩

theorem Sim_drain (fifo : List Nat) (q : queue_lf_t) (n : Nat)
    (hs : Sim q fifo) (hlen : q.node.length = 32) (hc : q.enq_counter ≤ U64 - 1)
    (hnz : ∀ x ∈ fifo, x ≠ 0) (hn : fifo.length < n) :
    ∃ q1, drain n q = some (fifo, q1) ∧ Sim q1 [] := by
  induction fifo generalizing q n with
  | nil =>
    cases n with
    | zero => simp at hn
    | succ n =>
      obtain ⟨h1, -, -, h4⟩ := Sim_deq q _ hs hlen hc
      simp only [List.headD_nil, List.tail_nil] at h1 h4
      exact ⟨_, by simp only [drain, h1, if_true], h4⟩
  | cons x xs ih =>
    cases n with
    | zero => simp at hn
    | succ n =>
      obtain ⟨h1, h2, h3, h4⟩ := Sim_deq q _ hs hlen hc
      simp only [List.headD_cons, List.tail_cons] at h1 h4
      simp only [List.length_cons] at hn
      obtain ⟨q1, hd, hq1⟩ := ih _ n h4 h2 (by omega)
        (fun y hy => hnz y (List.mem_cons_of_mem _ hy)) (by omega)
      refine ⟨q1, ?_, hq1⟩
      have hx := hnz x (List.mem_cons_self _ _)
      simp only [drain, h1, if_neg hx, hd]

theorem map_round_trip_even (ps : List Nat) (hp : ∀ p ∈ ps, p % 2 = 0 ∧ p < U64) :
    ps.map (fun p => p % U64 / 2 * 2) = ps := by
  induction ps with
  | nil => rfl
  | cons p ps ih =>
    obtain ⟨h2, h64⟩ := hp p (List.mem_cons_self _ _)
    rw [List.map_cons, ih (fun x hx => hp x (List.mem_cons_of_mem _ hx)),
      Nat.mod_eq_of_lt h64]
    congr 1
    omega

/-! ## Claims -/

/-- C1. Single-threaded FIFO refinement: on a freshly initialised ring, for every sequence
of enqueue and dequeue calls whose payloads are non-zero 64-bit values with low bit 0 and
that holds fewer than `2 ^ 64 - 1` enqueue attempts, the results of `queue_lf_enq` and
`queue_lf_deq` are those of the abstract bounded FIFO queue of capacity 32. -/
theorem queue_lf_refines_fifo (q : queue_lf_t) (calls : List Call)
    (hlen : q.node.length = RING_LF_SIZE)
    (hp : ∀ p, Call.enq p ∈ calls → p ≠ 0 ∧ p % 2 = 0 ∧ p < U64)
    (hn : enq_attempts calls < U64 - 1) :
    run_ring (init_queue q) calls = run_fifo [] calls := by
  apply run_ring_eq_run_fifo calls _ _ (Sim_init q)
  · rw [init_queue_length]; exact hlen
  · simp
  · exact hp
  · rw [init_queue_counter]; omega

/-- Witness of C1: scenario S3 (interleaved) on a zeroed ring. -/
theorem queue_lf_refines_fifo_witness :
    run_ring (init_queue ring0)
        [Call.enq 0x10, Call.deq, Call.enq 0x20, Call.enq 0x30, Call.deq, Call.enq 0x40,
          Call.deq, Call.deq] =
      run_fifo []
        [Call.enq 0x10, Call.deq, Call.enq 0x20, Call.enq 0x30, Call.deq, Call.enq 0x40,
          Call.deq, Call.deq] ∧
    run_fifo []
        [Call.enq 0x10, Call.deq, Call.enq 0x20, Call.enq 0x30, Call.deq, Call.enq 0x40,
          Call.deq, Call.deq] =
      [Result.enq 0, Result.deq (some 0x10), Result.enq 0, Result.enq 0,
        Result.deq (some 0x20), Result.enq 0, Result.deq (some 0x30),
        Result.deq (some 0x40)] :=
  ⟨queue_lf_refines_fifo ring0 _ (by decide)
      (by
        intro p hp
        simp only [List.mem_cons, Call.enq.injEq, List.mem_singleton, List.not_mem_nil,
          or_false, false_or, reduceCtorEq] at hp
        rcases hp with rfl | rfl | rfl | rfl <;> decide)
      (by decide),
    by decide⟩

/-- C2. Fill and drain in order: for every list of `n ≤ 32` non-zero 64-bit payloads with
low bit 0, `n` calls of `queue_lf_enq` on a freshly initialised ring all return `0`, the
next `n` calls of `queue_lf_deq` return the payloads in enqueue order, and one further
`queue_lf_deq` returns `NULL`. -/
theorem fill_and_drain_in_order (q : queue_lf_t) (ps : List Nat)
    (hlen : q.node.length = RING_LF_SIZE) (hn : ps.length ≤ 32)
    (hp : ∀ p ∈ ps, p ≠ 0 ∧ p % 2 = 0 ∧ p < U64) :
    (enq_list (init_queue q) ps).1 = List.replicate ps.length 0 ∧
    (deq_n (enq_list (init_queue q) ps).2 ps.length).1 = ps ∧
    (queue_lf_deq (deq_n (enq_list (init_queue q) ps).2 ps.length).2).1 = 0 := by
  have hl0 : (init_queue q).node.length = 32 := by rw [init_queue_length]; exact hlen
  have hU : (32 : Nat) < U64 := by decide
  obtain ⟨h1, h2, h3, h4⟩ := Sim_enq_list ps (init_queue q) [] (Sim_init q) hl0
    (by simpa using hn) (by rw [init_queue_counter]; omega)
  rw [map_round_trip_even ps (fun p h => (hp p h).2), List.nil_append] at h4
  rw [init_queue_counter] at h3
  have h4a : Sim (enq_list (init_queue q) ps).2 (ps ++ []) := by rwa [List.append_nil]
  obtain ⟨d1, d2, d3, d4⟩ := Sim_deq_n ps _ [] h4a h2 (by omega)
  exact ⟨h1, d1, by rw [Sim_deq_empty _ d4]⟩

/-- Witness of C2: scenario S1, payloads `0x10, 0x20, 0x30`, and scenario S2, the 32
payloads `0x2, 0x4, ..., 0x40`. -/
theorem fill_and_drain_in_order_witness :
    ((enq_list (init_queue ring0) [0x10, 0x20, 0x30]).1 = [0, 0, 0] ∧
      (deq_n (enq_list (init_queue ring0) [0x10, 0x20, 0x30]).2 3).1 = [0x10, 0x20, 0x30] ∧
      (queue_lf_deq (deq_n (enq_list (init_queue ring0) [0x10, 0x20, 0x30]).2 3).2).1 = 0) ∧
    ((enq_list (init_queue ring0) ((List.range 32).map (fun i => 2 * (i + 1)))).1 =
        List.replicate 32 0 ∧
      (deq_n (enq_list (init_queue ring0) ((List.range 32).map (fun i => 2 * (i + 1)))).2
        32).1 = (List.range 32).map (fun i => 2 * (i + 1)) ∧
      (queue_lf_deq
        (deq_n (enq_list (init_queue ring0) ((List.range 32).map (fun i => 2 * (i + 1)))).2
          32).2).1 = 0) :=
  ⟨fill_and_drain_in_order ring0 [0x10, 0x20, 0x30] (by decide) (by decide) (by decide),
    fill_and_drain_in_order ring0 ((List.range 32).map (fun i => 2 * (i + 1)))
      (by decide) (by decide) (by decide)⟩

theorem getD_mem_of_lt {α : Type} (l : List α) (i : Nat) (d : α) (h : i < l.length) :
    l.getD i d ∈ l := by
  rw [List.getD_eq_getElem _ _ h]
  exact List.getElem_mem h

theorem mark_eq_one_of_ne_zero (q : queue_lf_t) (hwf : q.WF) (i : Nat) (hi : i < 32)
    (h : (q.node.getD i zero_node).mark ≠ 0) : (q.node.getD i zero_node).mark = 1 := by
  obtain ⟨hlen, hn, -⟩ := hwf
  have := (hn _ (getD_mem_of_lt q.node i zero_node (by rw [hlen]; exact hi))).1
  omega

/-- C3. Capacity bound: on a well-formed ring `queue_lf_enq` returns `-1` exactly when all
32 nodes have `mark = 1` and `0` exactly when some node has `mark = 0`; after 32
consecutive enqueues on a freshly initialised ring, which all succeed, the 33rd enqueue
returns `-1`. -/
theorem enq_full_iff_all_marked (q q0 : queue_lf_t) (p : Nat) (ps : List Nat)
    (hwf : q.WF) (hlen : q0.node.length = RING_LF_SIZE) (hps : ps.length = 32) :
    ((queue_lf_enq q p).1 = -1 ↔ ∀ i, i < 32 → (q.node.getD i zero_node).mark = 1) ∧
    ((queue_lf_enq q p).1 = 0 ↔ ∃ i, i < 32 ∧ (q.node.getD i zero_node).mark = 0) ∧
    (enq_list (init_queue q0) ps).1 = List.replicate 32 0 ∧
    (queue_lf_enq (enq_list (init_queue q0) ps).2 p).1 = -1 := by
  refine ⟨?_, ?_, ?_⟩
  · cases hfe : first_empty q.node with
    | none =>
      rw [queue_lf_enq_of_none q p hfe]
      rw [first_empty_none_iff] at hfe
      exact ⟨fun _ i hi => mark_eq_one_of_ne_zero q hwf i hi (hfe i hi), fun _ => rfl⟩
    | some k =>
      rw [queue_lf_enq_of_some q p k hfe]
      obtain ⟨hk, hk0⟩ := first_empty_some q.node k hfe
      constructor
      · intro h; simp at h
      · intro h
        have := h k hk
        omega
  · cases hfe : first_empty q.node with
    | none =>
      rw [queue_lf_enq_of_none q p hfe]
      rw [first_empty_none_iff] at hfe
      constructor
      · intro h; simp at h
      · rintro ⟨i, hi, h0⟩
        exact absurd h0 (hfe i hi)
    | some k =>
      rw [queue_lf_enq_of_some q p k hfe]
      obtain ⟨hk, hk0⟩ := first_empty_some q.node k hfe
      exact ⟨fun _ => ⟨k, hk, hk0⟩, fun _ => rfl⟩
  · have hl0 : (init_queue q0).node.length = 32 := by rw [init_queue_length]; exact hlen
    have hU : (32 : Nat) < U64 := by decide
    obtain ⟨h1, h2, h3, h4⟩ := Sim_enq_list ps (init_queue q0) [] (Sim_init q0) hl0
      (by simp [hps]) (by rw [init_queue_counter]; omega)
    rw [hps] at h1
    refine ⟨h1, ?_⟩
    rw [Sim_enq_full _ _ p h4 (by simp [hps])]

/-- Witness of C3: a zeroed ring and the 32 payloads `0x2, 0x4, ..., 0x40` of scenario S2. -/
theorem enq_full_iff_all_marked_witness :
    ((queue_lf_enq ring0 0x42).1 = -1 ↔
      ∀ i, i < 32 → (ring0.node.getD i zero_node).mark = 1) ∧
    ((queue_lf_enq ring0 0x42).1 = 0 ↔
      ∃ i, i < 32 ∧ (ring0.node.getD i zero_node).mark = 0) ∧
    (enq_list (init_queue ring0) ((List.range 32).map (fun i => 2 * (i + 1)))).1 =
      List.replicate 32 0 ∧
    (queue_lf_enq
      (enq_list (init_queue ring0) ((List.range 32).map (fun i => 2 * (i + 1)))).2 0x42).1 =
      -1 :=
  enq_full_iff_all_marked ring0 ring0 0x42 ((List.range 32).map (fun i => 2 * (i + 1)))
    (by decide) (by decide) (by decide)

/-- C4. Payload integrity: for every 64-bit payload `p` with `p & 1 = 0`, `queue_lf_enq`
on a freshly initialised ring returns `0` and the following `queue_lf_deq` returns `p`;
the stored `ptr = p >> 1` read back as `ptr << 1` is `p`. -/
theorem payload_round_trip (q : queue_lf_t) (p : Nat)
    (hlen : q.node.length = RING_LF_SIZE) (hp : p < U64) (he : p &&& 1 = 0) :
    (queue_lf_enq (init_queue q) p).1 = 0 ∧
    (queue_lf_deq (queue_lf_enq (init_queue q) p).2).1 = p ∧
    ((enq_new_val p (init_queue q).enq_counter).ptr <<< 1) % U64 = p := by
  have he2 : p % 2 = 0 := by rw [← Nat.and_one_is_mod]; exact he
  have hl0 : (init_queue q).node.length = 32 := by rw [init_queue_length]; exact hlen
  have hU : (32 : Nat) < U64 := by decide
  obtain ⟨h1, h2, h3, h4⟩ := Sim_enq (init_queue q) [] p (Sim_init q) hl0
    (by rw [init_queue_counter]; omega)
  rw [node_buf_new_val_even p _ hp he2] at h1 h4
  simp only [fifo_enq, RING_LF_SIZE, List.length_nil, Nat.zero_lt_succ, if_true,
    List.nil_append] at h1 h4
  obtain ⟨d1, -, -, -⟩ := Sim_deq _ _ h4 h2 (by rw [h3, init_queue_counter]; omega)
  exact ⟨h1, d1, node_buf_new_val_even p _ hp he2⟩

/-- Witness of C4: the payload `0xfffffffffffffffe`, all upper bits set. -/
theorem payload_round_trip_witness :
    (queue_lf_enq (init_queue ring0) 0xfffffffffffffffe).1 = 0 ∧
    (queue_lf_deq (queue_lf_enq (init_queue ring0) 0xfffffffffffffffe).2).1 =
      0xfffffffffffffffe ∧
    ((enq_new_val 0xfffffffffffffffe (init_queue ring0).enq_counter).ptr <<< 1) % U64 =
      0xfffffffffffffffe :=
  payload_round_trip ring0 0xfffffffffffffffe (by decide) (by decide) (by decide)

theorem node_buf_ne_zero_iff (n : ring_lf_node_t) (h : n.WF) :
    (n.ptr <<< 1) % U64 ≠ 0 ↔ n.ptr ≠ 0 := by
  obtain ⟨-, hp, -⟩ := h
  simp only [Nat.shiftLeft_eq, U64, U63] at *
  norm_num at *
  omega

/-- C5, counterexample. A node is marked and `queue_lf_deq` still returns `NULL`: with
the only marked node at `count = 2 ^ 64 - 1` nothing is removed, and with a marked node
whose `ptr` is `0` the returned pointer is `NULL`. -/
theorem deq_returns_oldest_counterexample :
    (ring_max_count.WF ∧
      (∃ i, i < 32 ∧ (ring_max_count.node.getD i zero_node).mark = 1) ∧
      queue_lf_deq ring_max_count = (0, ring_max_count)) ∧
    (ring_null_payload.WF ∧
      (∃ i, i < 32 ∧ (ring_null_payload.node.getD i zero_node).mark = 1) ∧
      (queue_lf_deq ring_null_payload).1 = 0) := by
  refine ⟨⟨by decide, ⟨1, by decide, by decide⟩, by decide⟩,
    ⟨by decide, ⟨1, by decide, by decide⟩, by decide⟩⟩

/-- C5, amended. On a well-formed ring with a marked node of `count < 2 ^ 64 - 1`,
`queue_lf_deq` returns `ptr << 1` of a marked node whose count is least among all marked
nodes and clears the mark of that node, changing nothing else; the returned pointer is
non-`NULL` exactly when that `ptr` is non-zero. When no node is marked it returns `NULL`
and the ring is unchanged. -/
theorem deq_returns_oldest (q : queue_lf_t) (hwf : q.WF) :
    ((∃ i, i < 32 ∧ (q.node.getD i zero_node).mark = 1 ∧
        (q.node.getD i zero_node).count < U64 - 1) →
      ∃ k, k < 32 ∧ (q.node.getD k zero_node).mark = 1 ∧
        (∀ j, j < 32 → (q.node.getD j zero_node).mark = 1 →
          (q.node.getD k zero_node).count ≤ (q.node.getD j zero_node).count) ∧
        queue_lf_deq q =
          (((q.node.getD k zero_node).ptr <<< 1) % U64,
            { q with node := q.node.set k { q.node.getD k zero_node with mark := 0 } }) ∧
        ((queue_lf_deq q).2.node.getD k zero_node).mark = 0 ∧
        ((queue_lf_deq q).1 ≠ 0 ↔ (q.node.getD k zero_node).ptr ≠ 0)) ∧
    ((∀ i, i < 32 → (q.node.getD i zero_node).mark ≠ 1) → queue_lf_deq q = (0, q)) := by
  constructor
  · intro h
    obtain ⟨k, hk, hm, -, hmin, hdeq⟩ := queue_lf_deq_of_some q h
    refine ⟨k, hk, hm, hmin, hdeq, ?_, ?_⟩
    · rw [hdeq]
      simp only
      rw [getD_set_self _ _ _ _ (by rw [hwf.1]; exact hk)]
    · rw [hdeq]
      exact node_buf_ne_zero_iff _
        (hwf.2.1 _ (getD_mem_of_lt q.node k zero_node (by rw [hwf.1]; exact hk)))
  · intro h
    exact queue_lf_deq_of_none q (fun j hj hm => absurd hm (h j hj))

/-- Witness of C5 (amended): the ring holding `0x10, 0x20, 0x30`, and the zeroed ring. -/
theorem deq_returns_oldest_witness :
    (∃ k, k < 32 ∧ (ring_three.node.getD k zero_node).mark = 1 ∧
        (∀ j, j < 32 → (ring_three.node.getD j zero_node).mark = 1 →
          (ring_three.node.getD k zero_node).count ≤
            (ring_three.node.getD j zero_node).count) ∧
        queue_lf_deq ring_three =
          (((ring_three.node.getD k zero_node).ptr <<< 1) % U64,
            { ring_three with
              node := ring_three.node.set k
                { ring_three.node.getD k zero_node with mark := 0 } }) ∧
        ((queue_lf_deq ring_three).2.node.getD k zero_node).mark = 0 ∧
        ((queue_lf_deq ring_three).1 ≠ 0 ↔ (ring_three.node.getD k zero_node).ptr ≠ 0)) ∧
    queue_lf_deq ring0 = (0, ring0) :=
  ⟨(deq_returns_oldest ring_three (by decide)).1 ⟨2, by decide, by decide, by decide⟩,
    (deq_returns_oldest ring0 (by decide)).2 (by decide)⟩

/-- C6, counterexample. The payload `0` has low bit 0 and is accepted, but the dequeue
that delivers it returns `NULL`, so draining until `NULL` yields nothing. -/
theorem no_loss_no_duplication_counterexample :
    (0 : Nat) &&& 1 = 0 ∧ [(0 : Nat)].length ≤ 32 ∧
    (enq_list (init_queue ring0) [0]).1 = [0] ∧
    (drain 33 (enq_list (init_queue ring0) [0]).2).map Prod.fst = some [] ∧
    (Multiset.ofList ([] : List Nat)) ≠ Multiset.ofList [0] := by
  refine ⟨by decide, by decide, by decide, by decide, by simp⟩

/-- C6, amended. No loss, no duplication: for every list of at most 32 non-zero 64-bit
payloads with low bit 0, all enqueues on a freshly initialised ring succeed, and calling
`queue_lf_deq` until it returns `NULL` ends within `n` calls for every `n` above the
number of payloads and yields a multiset equal to the one enqueued. -/
theorem no_loss_no_duplication (q : queue_lf_t) (ps : List Nat) (n : Nat)
    (hlen : q.node.length = RING_LF_SIZE) (hps : ps.length ≤ 32)
    (hp : ∀ p ∈ ps, p ≠ 0 ∧ p &&& 1 = 0 ∧ p < U64) (hn : ps.length < n) :
    (enq_list (init_queue q) ps).1 = List.replicate ps.length 0 ∧
    ∃ out q1, drain n (enq_list (init_queue q) ps).2 = some (out, q1) ∧
      Multiset.ofList out = Multiset.ofList ps := by
  have hl0 : (init_queue q).node.length = 32 := by rw [init_queue_length]; exact hlen
  have hU : (32 : Nat) < U64 := by decide
  obtain ⟨h1, h2, h3, h4⟩ := Sim_enq_list ps (init_queue q) [] (Sim_init q) hl0
    (by simpa using hps) (by rw [init_queue_counter]; omega)
  have hev : ∀ p ∈ ps, p % 2 = 0 ∧ p < U64 := by
    intro p h
    obtain ⟨-, h2, h3⟩ := hp p h
    rw [Nat.and_one_is_mod] at h2
    exact ⟨h2, h3⟩
  rw [map_round_trip_even ps hev, List.nil_append] at h4
  rw [init_queue_counter] at h3
  obtain ⟨q1, hd, -⟩ := Sim_drain ps _ n h4 h2 (by omega) (fun x hx => (hp x hx).1) hn
  exact ⟨h1, ps, q1, hd, rfl⟩

/-- Witness of C6 (amended): the payloads `0x30, 0x10, 0x30, 0x20`, one of them twice. -/
theorem no_loss_no_duplication_witness :
    (enq_list (init_queue ring0) [0x30, 0x10, 0x30, 0x20]).1 = List.replicate 4 0 ∧
    ∃ out q1, drain 33 (enq_list (init_queue ring0) [0x30, 0x10, 0x30, 0x20]).2 =
        some (out, q1) ∧
      Multiset.ofList out = Multiset.ofList [0x30, 0x10, 0x30, 0x20] :=
  no_loss_no_duplication ring0 [0x30, 0x10, 0x30, 0x20] 33 (by decide) (by decide)
    (by decide) (by decide)

/-- C7. Emptiness: on a ring whose nodes were zeroed by `init_queue`, whatever the value
of the counter, `queue_lf_deq` returns `NULL` and leaves the ring state unchanged. -/
theorem deq_fresh_ring_empty (q : queue_lf_t) (c : Nat) :
    queue_lf_deq { init_queue q with enq_counter := c } =
      (0, { init_queue q with enq_counter := c }) := by
  apply queue_lf_deq_of_none
  intro j hj hm
  simp only at hm
  rw [init_queue_getD q j hj] at hm
  simp [zero_node] at hm

set_option maxRecDepth 4000

/-- C8, the code at the failing input. With `enq_counter` preset to `2 ^ 64 - 10`, ten
enqueues of `0x2, ..., 0x14` succeed, the first nine dequeues return `0x2, ..., 0x12`,
and the tenth returns `NULL`: the payload `0x14`, enqueued with `count = 2 ^ 64 - 1`,
stays marked in node 10 and is never returned. -/
theorem counter_wrap_loses_payload :
    (enq_list { init_queue ring0 with enq_counter := U64 - 10 }
      [0x2, 0x4, 0x6, 0x8, 0xa, 0xc, 0xe, 0x10, 0x12, 0x14]).1 = List.replicate 10 0 ∧
    (deq_n (enq_list { init_queue ring0 with enq_counter := U64 - 10 }
      [0x2, 0x4, 0x6, 0x8, 0xa, 0xc, 0xe, 0x10, 0x12, 0x14]).2 10).1 =
      [0x2, 0x4, 0x6, 0x8, 0xa, 0xc, 0xe, 0x10, 0x12, 0] ∧
    (deq_n (enq_list { init_queue ring0 with enq_counter := U64 - 10 }
      [0x2, 0x4, 0x6, 0x8, 0xa, 0xc, 0xe, 0x10, 0x12, 0x14]).2 10).2.node.getD 10 zero_node =
      { mark := 1, ptr := 0xa, count := U64 - 1 } ∧
    (queue_lf_deq (deq_n (enq_list { init_queue ring0 with enq_counter := U64 - 10 }
      [0x2, 0x4, 0x6, 0x8, 0xa, 0xc, 0xe, 0x10, 0x12, 0x14]).2 10).2).1 = 0 := by
  refine ⟨by decide, by decide, by decide, by decide⟩

/-- C9. Every call of `queue_lf_enq` leaves `enq_counter` incremented by one modulo
`2 ^ 64`, whether it returns `0` or `-1`, and the node it installs on success carries as
`count` the counter value read before the increment. -/
theorem enq_increments_counter (q : queue_lf_t) (p : Nat) :
    (queue_lf_enq q p).2.enq_counter = (q.enq_counter + 1) % U64 ∧
    ((queue_lf_enq q p).1 = 0 ∨ (queue_lf_enq q p).1 = -1) ∧
    (enq_new_val p q.enq_counter).count = q.enq_counter ∧
    queue_lf_enq q p =
      match first_empty q.node with
      | none => (-1, { q with enq_counter := (q.enq_counter + 1) % U64 })
      | some k =>
        (0, { q with node := q.node.set k (enq_new_val p q.enq_counter),
                     enq_counter := (q.enq_counter + 1) % U64 }) := by
  cases hfe : first_empty q.node with
  | none =>
    rw [queue_lf_enq_of_none q p hfe]
    exact ⟨rfl, Or.inr rfl, rfl, rfl⟩
  | some k =>
    rw [queue_lf_enq_of_some q p k hfe]
    exact ⟨rfl, Or.inl rfl, rfl, rfl⟩

theorem queue_lf_enq_counter (q : queue_lf_t) (p : Nat) :
    (queue_lf_enq q p).2.enq_counter = (q.enq_counter + 1) % U64 := by
  cases hfe : first_empty q.node with
  | none => rw [queue_lf_enq_of_none q p hfe]
  | some k => rw [queue_lf_enq_of_some q p k hfe]

theorem changed_count_set (l : List ring_lf_node_t) (k : Nat) (v : ring_lf_node_t)
    (hk : k < l.length) (hne : l.getD k zero_node ≠ v) :
    changed_count l (l.set k v) = some v.count := by
  induction l generalizing k with
  | nil => simp at hk
  | cons a l ih =>
    cases k with
    | zero =>
      simp only [List.getD_cons_zero] at hne
      simp [changed_count, hne]
    | succ k =>
      simp only [List.getD_cons_succ] at hne
      simp only [List.length_cons, Nat.succ_lt_succ_iff] at hk
      have := ih k hk hne
      simpa [changed_count] using this

theorem queue_lf_enq_length (q : queue_lf_t) (p : Nat) :
    (queue_lf_enq q p).2.node.length = q.node.length := by
  cases hfe : first_empty q.node with
  | none => rw [queue_lf_enq_of_none q p hfe]
  | some k => rw [queue_lf_enq_of_some q p k hfe]; simp

theorem queue_lf_deq_length (q : queue_lf_t) :
    (queue_lf_deq q).2.node.length = q.node.length := by
  by_cases h : ∃ j, j < 32 ∧ (q.node.getD j zero_node).mark = 1 ∧
      (q.node.getD j zero_node).count < U64 - 1
  · obtain ⟨k, -, -, -, -, hdeq⟩ := queue_lf_deq_of_some q h
    rw [hdeq]; simp
  · rw [queue_lf_deq_of_none q]
    intro j hj hm
    by_contra hc
    exact h ⟨j, hj, hm, by omega⟩

theorem queue_lf_deq_counter (q : queue_lf_t) :
    (queue_lf_deq q).2.enq_counter = q.enq_counter := by
  simp only [queue_lf_deq]

/-- The count installed by a successful enqueue is the counter read by the call. -/
theorem changed_count_enq (q : queue_lf_t) (p : Nat) (hlen : q.node.length = 32)
    (h : (queue_lf_enq q p).1 = 0) :
    changed_count q.node (queue_lf_enq q p).2.node = some q.enq_counter := by
  cases hfe : first_empty q.node with
  | none =>
    rw [queue_lf_enq_of_none q p hfe] at h
    simp at h
  | some k =>
    obtain ⟨hk, hk0⟩ := first_empty_some q.node k hfe
    rw [queue_lf_enq_of_some q p k hfe]
    simp only
    rw [changed_count_set _ _ _ (by omega)]
    · rfl
    · intro e
      rw [e] at hk0
      simp [enq_new_val] at hk0

theorem run_state_counter (calls : List Call) (q : queue_lf_t)
    (hc : q.enq_counter + enq_attempts calls < U64) :
    (run_state q calls).enq_counter = q.enq_counter + enq_attempts calls ∧
    (run_state q calls).node.length = q.node.length := by
  induction calls generalizing q with
  | nil => exact ⟨rfl, rfl⟩
  | cons c cs ih =>
    cases c with
    | enq p =>
      simp only [enq_attempts] at hc
      have h1 : (queue_lf_enq q p).2.enq_counter = q.enq_counter + 1 := by
        rw [queue_lf_enq_counter q p]
        exact Nat.mod_eq_of_lt (by omega)
      obtain ⟨i1, i2⟩ := ih (queue_lf_enq q p).2 (by omega)
      simp only [run_state, enq_attempts]
      exact ⟨by omega, by rw [i2, queue_lf_enq_length]⟩
    | deq =>
      simp only [enq_attempts] at hc
      obtain ⟨i1, i2⟩ := ih (queue_lf_deq q).2 (by rw [queue_lf_deq_counter]; exact hc)
      simp only [run_state, enq_attempts]
      exact ⟨by rw [i1, queue_lf_deq_counter], by rw [i2, queue_lf_deq_length]⟩

theorem installed_counts_bounds (calls : List Call) (q : queue_lf_t)
    (hlen : q.node.length = 32) (hc : q.enq_counter + enq_attempts calls < U64) :
    (installed_counts q calls).Pairwise (fun a b => a < b) ∧
    ∀ a ∈ installed_counts q calls, q.enq_counter ≤ a := by
  induction calls generalizing q with
  | nil => exact ⟨List.Pairwise.nil, by simp [installed_counts]⟩
  | cons c cs ih =>
    cases c with
    | enq p =>
      simp only [enq_attempts] at hc
      have h1 : (queue_lf_enq q p).2.enq_counter = q.enq_counter + 1 := by
        rw [queue_lf_enq_counter q p]
        exact Nat.mod_eq_of_lt (by omega)
      obtain ⟨i1, i2⟩ := ih (queue_lf_enq q p).2 (by rw [queue_lf_enq_length]; exact hlen)
        (by omega)
      simp only [installed_counts]
      by_cases h0 : (queue_lf_enq q p).1 = 0
      · rw [if_pos h0, changed_count_enq q p hlen h0]
        simp only [Option.toList, List.singleton_append, List.pairwise_cons, List.mem_cons]
        refine ⟨⟨fun a ha => ?_, i1⟩, ?_⟩
        · have := i2 a ha
          omega
        · rintro a (rfl | ha)
          · exact le_refl _
          · have := i2 a ha
            omega
      · rw [if_neg h0]
        refine ⟨i1, fun a ha => ?_⟩
        have := i2 a ha
        omega
    | deq =>
      simp only [enq_attempts] at hc
      simp only [installed_counts]
      have := ih (queue_lf_deq q).2 (by rw [queue_lf_deq_length]; exact hlen)
        (by rw [queue_lf_deq_counter]; exact hc)
      rw [queue_lf_deq_counter] at this
      exact this

/-- C10. Counter monotonicity: on a freshly initialised ring the `k`-th enqueue attempt
(`k < 2 ^ 64`, counted from 0 over any interleaving with dequeues) reads counter `k` and,
when it succeeds, installs `count = k`; so the counts installed by the successful enqueues
of a sequence with fewer than `2 ^ 64` attempts are strictly increasing. -/
theorem enq_counts_strictly_increase (q : queue_lf_t) (calls : List Call) (p : Nat)
    (hlen : q.node.length = RING_LF_SIZE) (hk : enq_attempts calls < U64) :
    (run_state (init_queue q) calls).enq_counter = enq_attempts calls ∧
    ((queue_lf_enq (run_state (init_queue q) calls) p).1 = 0 →
      changed_count (run_state (init_queue q) calls).node
        (queue_lf_enq (run_state (init_queue q) calls) p).2.node =
        some (enq_attempts calls)) ∧
    (installed_counts (init_queue q) calls).Pairwise (fun a b => a < b) := by
  have hl0 : (init_queue q).node.length = 32 := by rw [init_queue_length]; exact hlen
  have hc0 : (init_queue q).enq_counter + enq_attempts calls < U64 := by
    rw [init_queue_counter]; omega
  obtain ⟨h1, h2⟩ := run_state_counter calls (init_queue q) hc0
  rw [init_queue_counter, Nat.zero_add] at h1
  refine ⟨h1, ?_, (installed_counts_bounds calls (init_queue q) hl0 hc0).1⟩
  intro h0
  rw [changed_count_enq _ p (by rw [h2]; exact hl0) h0, h1]

/-- Witness of C10: three enqueues on a fresh ring install the counts 0, 1, 2, also
with a dequeue in between. -/
theorem enq_counts_strictly_increase_witness :
    ((run_state (init_queue ring0) [Call.enq 0x10, Call.deq, Call.enq 0x20]).enq_counter =
        2 ∧
      changed_count (run_state (init_queue ring0) [Call.enq 0x10, Call.deq, Call.enq 0x20]).node
        (queue_lf_enq (run_state (init_queue ring0) [Call.enq 0x10, Call.deq, Call.enq 0x20])
          0x30).2.node = some 2 ∧
      (installed_counts (init_queue ring0) [Call.enq 0x10, Call.deq, Call.enq 0x20]).Pairwise
        (fun a b => a < b)) ∧
    installed_counts (init_queue ring0) [Call.enq 0x10, Call.enq 0x20, Call.enq 0x30] =
      [0, 1, 2] :=
  ⟨⟨(enq_counts_strictly_increase ring0 [Call.enq 0x10, Call.deq, Call.enq 0x20] 0x30
        (by decide) (by decide)).1,
      (enq_counts_strictly_increase ring0 [Call.enq 0x10, Call.deq, Call.enq 0x20] 0x30
        (by decide) (by decide)).2.1 (by decide),
      (enq_counts_strictly_increase ring0 [Call.enq 0x10, Call.deq, Call.enq 0x20] 0x30
        (by decide) (by decide)).2.2⟩,
    by decide⟩

/-- Along a call sequence that keeps the counter below `2 ^ 64 - 1`, the ring keeps
representing some abstract queue. -/
theorem Sim_run_state (calls : List Call) (q : queue_lf_t) (fifo : List Nat)
    (hs : Sim q fifo) (hlen : q.node.length = 32)
    (hc : q.enq_counter + enq_attempts calls ≤ U64 - 1) :
    ∃ fifo1, Sim (run_state q calls) fifo1 := by
  induction calls generalizing q fifo with
  | nil => exact ⟨fifo, hs⟩
  | cons c cs ih =>
    have hU : 0 < U64 := by simp [U64]
    cases c with
    | enq p =>
      simp only [enq_attempts] at hc
      obtain ⟨-, h2, h3, h4⟩ := Sim_enq q fifo p hs hlen (by omega)
      exact ih _ _ h4 h2 (by omega)
    | deq =>
      simp only [enq_attempts] at hc
      obtain ⟨-, h2, h3, h4⟩ := Sim_deq q fifo hs hlen (by omega)
      exact ih _ _ h4 h2 (by omega)

/-- In a ring that represents an abstract queue, marked nodes carry distinct counts. -/
theorem Sim_counts_distinct (q : queue_lf_t) (fifo : List Nat) (hs : Sim q fifo)
    (i j : Nat) (hi : i < 32) (hj : j < 32) (hij : i ≠ j)
    (hmi : (q.node.getD i zero_node).mark = 1) (hmj : (q.node.getD j zero_node).mark = 1) :
    (q.node.getD i zero_node).count ≠ (q.node.getD j zero_node).count := by
  obtain ⟨idxs, -, -, hfree, -, hpw, -⟩ := hs
  have hin : ∀ a, a < 32 → (q.node.getD a zero_node).mark = 1 → a ∈ idxs := by
    intro a ha hm
    by_contra hmem
    have := hfree a ha hmem
    omega
  have hpw2 : idxs.Pairwise
      (fun a b => (q.node.getD a zero_node).count ≠ (q.node.getD b zero_node).count) :=
    hpw.imp (fun h => Nat.ne_of_lt h)
  exact hpw2.forall (fun a b h => Ne.symm h) (hin i hi hmi) (hin j hj hmj) hij

/-- C11. Distinct-count invariant: in every ring state reached from a freshly initialised
ring by a single-threaded sequence of `queue_lf_enq` and `queue_lf_deq` calls with fewer
than `2 ^ 64` enqueue attempts, two different nodes with `mark = 1` have different
`count` values. -/
theorem marked_counts_distinct (q : queue_lf_t) (calls : List Call) (i j : Nat)
    (hlen : q.node.length = RING_LF_SIZE) (hn : enq_attempts calls < U64)
    (hi : i < RING_LF_SIZE) (hj : j < RING_LF_SIZE) (hij : i ≠ j)
    (hmi : ((run_state (init_queue q) calls).node.getD i zero_node).mark = 1)
    (hmj : ((run_state (init_queue q) calls).node.getD j zero_node).mark = 1) :
    ((run_state (init_queue q) calls).node.getD i zero_node).count ≠
      ((run_state (init_queue q) calls).node.getD j zero_node).count := by
  obtain ⟨fifo1, hs⟩ := Sim_run_state calls (init_queue q) [] (Sim_init q)
    (by rw [init_queue_length]; exact hlen) (by rw [init_queue_counter]; omega)
  exact Sim_counts_distinct _ fifo1 hs i j hi hj hij hmi hmj

/-- Witness of C11: after enqueue, enqueue, dequeue, enqueue on a fresh ring the nodes 1
and 2 are marked; their counts are 2 and 1. -/
theorem marked_counts_distinct_witness :
    ((run_state (init_queue ring0)
        [Call.enq 0x10, Call.enq 0x20, Call.deq, Call.enq 0x30]).node.getD 1 zero_node).count ≠
      ((run_state (init_queue ring0)
        [Call.enq 0x10, Call.enq 0x20, Call.deq, Call.enq 0x30]).node.getD 2 zero_node).count :=
  marked_counts_distinct ring0 [Call.enq 0x10, Call.enq 0x20, Call.deq, Call.enq 0x30] 1 2
    (by decide) (by decide) (by decide) (by decide) (by decide) (by decide) (by decide)

/-- C12. `queue_lf_enq_multi` accepts at most one payload: for every ring, vector and
`num` it returns 1 if `queue_lf_enq` of `buf_hdr[0]` returns `0` and 0 otherwise, its
effect on the ring is that of `queue_lf_enq` of `buf_hdr[0]`, and no other vector element
is enqueued: the result does not depend on them, and a node either keeps its value or
receives the payload `buf_hdr[0]`. -/
theorem enq_multi_accepts_one (q : queue_lf_t) (buf_hdr buf_hdr1 : Nat → Nat)
    (num num1 : Int) :
    (queue_lf_enq_multi q buf_hdr num).1 =
      (if (queue_lf_enq q (buf_hdr 0)).1 = 0 then 1 else 0) ∧
    (queue_lf_enq_multi q buf_hdr num).2 = (queue_lf_enq q (buf_hdr 0)).2 ∧
    (buf_hdr1 0 = buf_hdr 0 →
      queue_lf_enq_multi q buf_hdr1 num1 = queue_lf_enq_multi q buf_hdr num) ∧
    (∀ i, (queue_lf_enq_multi q buf_hdr num).2.node.getD i zero_node =
        q.node.getD i zero_node ∨
      (queue_lf_enq_multi q buf_hdr num).2.node.getD i zero_node =
        enq_new_val (buf_hdr 0) q.enq_counter) := by
  have h2 : (queue_lf_enq_multi q buf_hdr num).2 = (queue_lf_enq q (buf_hdr 0)).2 := by
    simp only [queue_lf_enq_multi]
    split <;> rfl
  refine ⟨?_, h2, ?_, ?_⟩
  · simp only [queue_lf_enq_multi]
    split <;> rfl
  · intro h
    simp only [queue_lf_enq_multi, h]
  · intro i
    rw [h2]
    cases hfe : first_empty q.node with
    | none =>
      rw [queue_lf_enq_of_none q _ hfe]
      exact Or.inl rfl
    | some k =>
      rw [queue_lf_enq_of_some q _ k hfe]
      simp only
      by_cases hik : k = i
      · subst hik
        by_cases hlt : k < q.node.length
        · exact Or.inr (getD_set_self _ _ _ _ hlt)
        · left
          rw [List.getD_eq_default _ _ (by simp only [List.length_set]; omega),
            List.getD_eq_default _ _ (by omega)]
      · exact Or.inl (getD_set_other _ _ _ _ _ hik)

/-- Witness of C12: two vectors that agree on element 0 give the same result. -/
theorem enq_multi_accepts_one_witness :
    queue_lf_enq_multi ring0 (fun i => 0x10 + 0x10 * i) 3 =
      queue_lf_enq_multi ring0 (fun _ => 0x10) 1 :=
  (enq_multi_accepts_one ring0 (fun _ => 0x10) (fun i => 0x10 + 0x10 * i) 1 3).2.2.1
    (by decide)

/-- C13. `queue_lf_deq_multi` returns at most one payload: it returns 1 and writes the
payload to `out[0]`, leaving the other elements, exactly when `queue_lf_deq` returns a
non-`NULL` pointer; otherwise it returns 0 and leaves the output vector unchanged; its
effect on the ring is that of one `queue_lf_deq`. -/
theorem deq_multi_returns_one (q : queue_lf_t) (buf_hdr : Nat → Nat) (num : Int) :
    ((queue_lf_deq_multi q buf_hdr num).1 = 1 ↔ (queue_lf_deq q).1 ≠ 0) ∧
    ((queue_lf_deq_multi q buf_hdr num).1 = 0 ↔ (queue_lf_deq q).1 = 0) ∧
    ((queue_lf_deq q).1 ≠ 0 →
      (queue_lf_deq_multi q buf_hdr num).2.1 0 = (queue_lf_deq q).1 ∧
      ∀ i, i ≠ 0 → (queue_lf_deq_multi q buf_hdr num).2.1 i = buf_hdr i) ∧
    ((queue_lf_deq q).1 = 0 → (queue_lf_deq_multi q buf_hdr num).2.1 = buf_hdr) ∧
    (queue_lf_deq_multi q buf_hdr num).2.2 = (queue_lf_deq q).2 := by
  by_cases h : (queue_lf_deq q).1 = 0
  · simp [queue_lf_deq_multi, h]
  · simp only [queue_lf_deq_multi, if_neg h]
    refine ⟨by simp [h], by simp [h], fun _ => ⟨by simp, fun i hi => by simp [hi]⟩,
      fun h0 => absurd h0 h, trivial⟩

/-- Witness of C13: a ring holding `0x10, 0x20, 0x30` and the zeroed ring. -/
theorem deq_multi_returns_one_witness :
    ((queue_lf_deq_multi ring_three (fun _ => 7) 4).2.1 0 = (queue_lf_deq ring_three).1 ∧
      ∀ i, i ≠ 0 → (queue_lf_deq_multi ring_three (fun _ => 7) 4).2.1 i = 7) ∧
    (queue_lf_deq_multi ring0 (fun _ => 7) 4).2.1 = (fun _ => 7) :=
  ⟨(deq_multi_returns_one ring_three (fun _ => 7) 4).2.2.1 (by decide),
    (deq_multi_returns_one ring0 (fun _ => 7) 4).2.2.2.1 (by decide)⟩

theorem init_zero_queue : { init_queue zero_queue with used := 1 } = ring0 := by decide

/-- What the table loop of `queue_lf_create` computes: nothing when no entry in range is
free, otherwise the first free entry is re-initialised and marked used. -/
theorem create_loop_spec (pool : List queue_lf_t) (n i : Nat) :
    (create_loop pool n i = (none, pool) ∧
      ∀ j, i ≤ j → j < i + n → (pool.getD j zero_queue).used ≠ 0) ∨
    (∃ k, i ≤ k ∧ k < i + n ∧ (pool.getD k zero_queue).used = 0 ∧
      (∀ j, i ≤ j → j < k → (pool.getD j zero_queue).used ≠ 0) ∧
      create_loop pool n i = (some k, pool.set k ring0)) := by
  induction n generalizing i with
  | zero =>
    left
    exact ⟨rfl, fun j h1 h2 => by omega⟩
  | succ n ih =>
    simp only [create_loop]
    by_cases h : (pool.getD i zero_queue).used = 0
    · right
      rw [if_pos h, init_zero_queue]
      exact ⟨i, le_refl _, by omega, h, fun j h1 h2 => by omega, rfl⟩
    · rw [if_neg h]
      rcases ih (i + 1) with ⟨h1, h2⟩ | ⟨k, h1, h2, h3, h4, h5⟩
      · left
        refine ⟨h1, fun j hj1 hj2 => ?_⟩
        by_cases e : j = i
        · rw [e]; exact h
        · exact h2 j (by omega) (by omega)
      · right
        refine ⟨k, by omega, by omega, h3, fun j hj1 hj2 => ?_, h5⟩
        by_cases e : j = i
        · rw [e]; exact h
        · exact h4 j (by omega) hj2

theorem queue_lf_create_none (glb : queue_lf_global_t)
    (h : ∀ j, j < 128 → (glb.queue_lf.getD j zero_queue).used ≠ 0) :
    queue_lf_create glb odp_queue_type_t.ODP_QUEUE_TYPE_PLAIN = (none, glb) := by
  rcases create_loop_spec glb.queue_lf QUEUE_LF_NUM 0 with ⟨h1, -⟩ | ⟨k, -, h2, h3, -, -⟩
  · simp only [queue_lf_create, ne_eq, not_true_eq_false, if_false, h1]
  · simp only [QUEUE_LF_NUM] at h2
    exact absurd h3 (h k (by omega))

theorem queue_lf_create_some (glb : queue_lf_global_t)
    (h : ∃ j, j < 128 ∧ (glb.queue_lf.getD j zero_queue).used = 0) :
    ∃ k, k < 128 ∧ (glb.queue_lf.getD k zero_queue).used = 0 ∧
      (∀ j, j < k → (glb.queue_lf.getD j zero_queue).used ≠ 0) ∧
      queue_lf_create glb odp_queue_type_t.ODP_QUEUE_TYPE_PLAIN =
        (some k, { glb with queue_lf := glb.queue_lf.set k ring0 }) := by
  rcases create_loop_spec glb.queue_lf QUEUE_LF_NUM 0 with ⟨-, h2⟩ | ⟨k, -, h2, h3, h4, h5⟩
  · obtain ⟨j, hj, hu⟩ := h
    simp only [QUEUE_LF_NUM] at h2
    exact absurd hu (h2 j (by omega) (by omega))
  · simp only [QUEUE_LF_NUM] at h2
    refine ⟨k, by omega, h3, fun j hj => h4 j (by omega) hj, ?_⟩
    simp only [queue_lf_create, ne_eq, not_true_eq_false, if_false, h5]

/-- C14. For a plain queue `queue_lf_create` returns a handle exactly when some pool
entry has `used = 0`; the entry taken is the free entry of lowest index, after the call
it has `enq_counter = 0`, 32 nodes all zero and `used = 1`, and every other pool entry is
unchanged. -/
theorem queue_lf_create_plain (glb : queue_lf_global_t)
    (hlen : glb.queue_lf.length = QUEUE_LF_NUM) :
    ((queue_lf_create glb odp_queue_type_t.ODP_QUEUE_TYPE_PLAIN).1 ≠ none ↔
      ∃ i, i < QUEUE_LF_NUM ∧ (glb.queue_lf.getD i zero_queue).used = 0) ∧
    (∀ k, (queue_lf_create glb odp_queue_type_t.ODP_QUEUE_TYPE_PLAIN).1 = some k →
      k < QUEUE_LF_NUM ∧ (glb.queue_lf.getD k zero_queue).used = 0 ∧
      (∀ j, j < k → (glb.queue_lf.getD j zero_queue).used ≠ 0) ∧
      ((queue_lf_create glb odp_queue_type_t.ODP_QUEUE_TYPE_PLAIN).2.queue_lf.getD k
        zero_queue) =
        { node := List.replicate RING_LF_SIZE zero_node, used := 1, enq_counter := 0 } ∧
      (∀ j, j ≠ k →
        (queue_lf_create glb odp_queue_type_t.ODP_QUEUE_TYPE_PLAIN).2.queue_lf.getD j
          zero_queue = glb.queue_lf.getD j zero_queue) ∧
      (queue_lf_create glb odp_queue_type_t.ODP_QUEUE_TYPE_PLAIN).2.queue_lf.length =
        QUEUE_LF_NUM ∧
      (queue_lf_create glb odp_queue_type_t.ODP_QUEUE_TYPE_PLAIN).2.shm = glb.shm) := by
  by_cases h : ∃ j, j < 128 ∧ (glb.queue_lf.getD j zero_queue).used = 0
  · obtain ⟨k, hk, hu, hmin, hc⟩ := queue_lf_create_some glb h
    rw [hc]
    refine ⟨⟨fun _ => h, fun _ => by simp⟩, ?_⟩
    intro k1 hk1
    simp only [Option.some.injEq] at hk1
    subst hk1
    refine ⟨hk, hu, hmin, ?_, ?_, by simp [hlen], rfl⟩
    · simp only
      rw [getD_set_self _ _ _ _ (by rw [hlen]; exact hk)]
      rfl
    · intro j hj
      simp only
      rw [getD_set_other _ _ _ _ _ (Ne.symm hj)]
  · have hall : ∀ j, j < 128 → (glb.queue_lf.getD j zero_queue).used ≠ 0 :=
      fun j hj hu => h ⟨j, hj, hu⟩
    rw [queue_lf_create_none glb hall]
    refine ⟨⟨fun hn => absurd rfl hn, fun hex => absurd hex h⟩, ?_⟩
    intro k hk
    simp at hk

/-- Witness of C14: a freshly initialised pool, in which entry 0 is taken. -/
theorem queue_lf_create_plain_witness :
    (∃ i, i < QUEUE_LF_NUM ∧ (pool0.queue_lf.getD i zero_queue).used = 0) ∧
    (queue_lf_create pool0 odp_queue_type_t.ODP_QUEUE_TYPE_PLAIN).1 = some 0 ∧
    ((queue_lf_create pool0 odp_queue_type_t.ODP_QUEUE_TYPE_PLAIN).2.queue_lf.getD 0
      zero_queue) =
      { node := List.replicate RING_LF_SIZE zero_node, used := 1, enq_counter := 0 } :=
  ⟨⟨0, by decide, by decide⟩, by decide,
    ((queue_lf_create_plain pool0 (by decide)).2 0 (by decide)).2.2.2.1⟩

/-- With the first `k < 128` entries taken and the rest free, `queue_lf_create` takes
entry `k`. -/
theorem Filled_create (glb : queue_lf_global_t) (k : Nat) (hf : Filled glb k)
    (hk : k < 128) :
    (queue_lf_create glb odp_queue_type_t.ODP_QUEUE_TYPE_PLAIN).1 = some k ∧
    Filled (queue_lf_create glb odp_queue_type_t.ODP_QUEUE_TYPE_PLAIN).2 (k + 1) := by
  obtain ⟨hlen, hused, hfree⟩ := hf
  simp only [QUEUE_LF_NUM] at hlen hfree
  obtain ⟨k1, hk1, hu, hmin, hc⟩ :=
    queue_lf_create_some glb ⟨k, hk, hfree k (le_refl _) hk⟩
  have e : k1 = k := by
    rcases Nat.lt_trichotomy k1 k with h | h | h
    · exact absurd hu (hused k1 h)
    · exact h
    · exact absurd (hfree k (le_refl _) hk) (hmin k h)
  subst e
  rw [hc]
  refine ⟨rfl, by simp [hlen, QUEUE_LF_NUM], ?_, ?_⟩
  · intro j hj
    simp only
    by_cases e : k1 = j
    · subst e
      rw [getD_set_self _ _ _ _ (by omega)]
      decide
    · rw [getD_set_other _ _ _ _ _ e]
      exact hused j (by omega)
  · intro j hj1 hj2
    simp only [QUEUE_LF_NUM] at hj2
    simp only
    rw [getD_set_other _ _ _ _ _ (by omega)]
    exact hfree j (by omega) hj2

/-- Consecutive creates on a pool with the first `k` entries taken hand out the entries
`k, k + 1, ...` in this order. -/
theorem Filled_create_n (n : Nat) (glb : queue_lf_global_t) (k : Nat) (hf : Filled glb k)
    (hk : k + n ≤ 128) :
    (create_n glb n).1 = (List.range' k n).map some ∧ Filled (create_n glb n).2 (k + n) := by
  induction n generalizing glb k with
  | zero => exact ⟨rfl, hf⟩
  | succ n ih =>
    obtain ⟨h1, h2⟩ := Filled_create glb k hf (by omega)
    obtain ⟨i1, i2⟩ := ih _ (k + 1) h2 (by omega)
    simp only [create_n, List.range'_succ, List.map_cons]
    refine ⟨by rw [h1, i1], ?_⟩
    have e : k + (n + 1) = k + 1 + n := by omega
    rw [e]
    exact i2

theorem queue_lf_destroy_getD_self (glb : queue_lf_global_t) (k : Nat)
    (hk : k < glb.queue_lf.length) :
    (queue_lf_destroy glb k).queue_lf.getD k zero_queue =
      { glb.queue_lf.getD k zero_queue with used := 0 } := by
  simp only [queue_lf_destroy]
  rw [getD_set_self _ _ _ _ hk]

theorem queue_lf_destroy_getD_other (glb : queue_lf_global_t) (k j : Nat) (hj : j ≠ k) :
    (queue_lf_destroy glb k).queue_lf.getD j zero_queue = glb.queue_lf.getD j zero_queue := by
  simp only [queue_lf_destroy]
  rw [getD_set_other _ _ _ _ _ (Ne.symm hj)]

/-- C15. Pool exhaustion: from a pool with all 128 entries free, 128 consecutive
`queue_lf_create` calls for plain queues return 128 pairwise distinct non-`NULL` handles
(the entries 0 to 127), the 129th returns `NULL` and leaves the pool unchanged, and after
`queue_lf_destroy` of any one of the 128 handles the next `queue_lf_create` returns that
same entry. -/
theorem pool_exhaustion (glb : queue_lf_global_t) (h : Nat)
    (hlen : glb.queue_lf.length = QUEUE_LF_NUM)
    (hfree : ∀ i, i < QUEUE_LF_NUM → (glb.queue_lf.getD i zero_queue).used = 0)
    (hh : some h ∈ (create_n glb 128).1) :
    (create_n glb 128).1 = (List.range 128).map some ∧
    (create_n glb 128).1.length = 128 ∧ (create_n glb 128).1.Nodup ∧
    (∀ x ∈ (create_n glb 128).1, x ≠ none) ∧
    queue_lf_create (create_n glb 128).2 odp_queue_type_t.ODP_QUEUE_TYPE_PLAIN =
      (none, (create_n glb 128).2) ∧
    (queue_lf_create (queue_lf_destroy (create_n glb 128).2 h)
      odp_queue_type_t.ODP_QUEUE_TYPE_PLAIN).1 = some h := by
  have hf0 : Filled glb 0 := ⟨hlen, fun j hj => by omega, fun j _ hj => hfree j hj⟩
  obtain ⟨h1, h2⟩ := Filled_create_n 128 glb 0 hf0 (by omega)
  rw [← List.range_eq_range'] at h1
  obtain ⟨flen, fused, -⟩ := h2
  simp only [QUEUE_LF_NUM, Nat.zero_add] at flen fused
  have hh128 : h < 128 := by
    rw [h1] at hh
    simp only [List.mem_map, List.mem_range, Option.some.injEq] at hh
    obtain ⟨a, ha, e⟩ := hh
    omega
  refine ⟨h1, by rw [h1]; simp, ?_, ?_, queue_lf_create_none _ fused, ?_⟩
  · rw [h1]
    exact (List.nodup_range 128).map (Option.some_injective Nat)
  · intro x hx
    rw [h1] at hx
    simp only [List.mem_map, List.mem_range] at hx
    obtain ⟨a, -, e⟩ := hx
    rw [← e]
    simp
  · have hex : ∃ j, j < 128 ∧
        ((queue_lf_destroy (create_n glb 128).2 h).queue_lf.getD j zero_queue).used = 0 :=
      ⟨h, hh128, by rw [queue_lf_destroy_getD_self _ _ (by omega)]⟩
    obtain ⟨k, hk, hu, -, hc⟩ := queue_lf_create_some _ hex
    rw [hc]
    by_cases e : k = h
    · rw [e]
    · rw [queue_lf_destroy_getD_other _ _ _ e] at hu
      exact absurd hu (fused k hk)

/-- The handles that 128 creates return on the freshly initialised pool. -/
theorem create_n_pool0 : (create_n pool0 128).1 = (List.range 128).map some :=
  (Filled_create_n 128 pool0 0 ⟨by decide, fun j hj => by omega, fun j _ hj => by
    have : ∀ i, i < QUEUE_LF_NUM → (pool0.queue_lf.getD i zero_queue).used = 0 := by decide
    exact this j hj⟩ (by omega)).1.trans (by rw [← List.range_eq_range'])

/-- Witness of C15: the freshly initialised pool and the handle of entry 77. -/
theorem pool_exhaustion_witness :
    (create_n pool0 128).1 = (List.range 128).map some ∧
    (create_n pool0 128).1.length = 128 ∧ (create_n pool0 128).1.Nodup ∧
    (∀ x ∈ (create_n pool0 128).1, x ≠ none) ∧
    queue_lf_create (create_n pool0 128).2 odp_queue_type_t.ODP_QUEUE_TYPE_PLAIN =
      (none, (create_n pool0 128).2) ∧
    (queue_lf_create (queue_lf_destroy (create_n pool0 128).2 77)
      odp_queue_type_t.ODP_QUEUE_TYPE_PLAIN).1 = some 77 :=
  pool_exhaustion pool0 77 (by decide) (by decide)
    (by rw [create_n_pool0]; exact List.mem_map.mpr ⟨77, by simp, rfl⟩)

theorem first_empty_ring0 : first_empty ring0.node = some 1 := by decide

/-- C16. Pool recycling: whatever state a ring reached through enqueues and dequeues,
when `queue_lf_destroy` of its entry is followed by a `queue_lf_create` that returns the
same entry, the entry equals a freshly initialised ring (`enq_counter = 0`, every node
zero, `used = 1`); the first `queue_lf_deq` on it returns `NULL` and the first
`queue_lf_enq` succeeds and installs `count = 0`. -/
theorem pool_recycling (glb : queue_lf_global_t) (k : Nat) (r : queue_lf_t)
    (calls : List Call) (p : Nat)
    (hlen : glb.queue_lf.length = QUEUE_LF_NUM) (hk : k < QUEUE_LF_NUM)
    (hret : (queue_lf_create
        (queue_lf_destroy { glb with queue_lf := glb.queue_lf.set k (run_state r calls) } k)
        odp_queue_type_t.ODP_QUEUE_TYPE_PLAIN).1 = some k) :
    (queue_lf_create
        (queue_lf_destroy { glb with queue_lf := glb.queue_lf.set k (run_state r calls) } k)
        odp_queue_type_t.ODP_QUEUE_TYPE_PLAIN).2.queue_lf.getD k zero_queue =
      { node := List.replicate RING_LF_SIZE zero_node, used := 1, enq_counter := 0 } ∧
    { init_queue zero_queue with used := 1 } =
      ({ node := List.replicate RING_LF_SIZE zero_node, used := 1, enq_counter := 0 } :
        queue_lf_t) ∧
    queue_lf_deq { node := List.replicate RING_LF_SIZE zero_node, used := 1, enq_counter := 0 } =
      (0, { node := List.replicate RING_LF_SIZE zero_node, used := 1, enq_counter := 0 }) ∧
    (queue_lf_enq
      { node := List.replicate RING_LF_SIZE zero_node, used := 1, enq_counter := 0 } p).1 = 0 ∧
    changed_count (List.replicate RING_LF_SIZE zero_node)
      (queue_lf_enq
        { node := List.replicate RING_LF_SIZE zero_node, used := 1, enq_counter := 0 }
        p).2.node = some 0 := by
  have henq : (queue_lf_enq ring0 p).1 = 0 := by
    rw [queue_lf_enq_of_some ring0 p 1 first_empty_ring0]
  refine ⟨?_, by decide, by decide, henq, changed_count_enq ring0 p (by decide) henq⟩
  generalize hg : queue_lf_destroy
    { glb with queue_lf := glb.queue_lf.set k (run_state r calls) } k = g at hret ⊢
  have hglen : g.queue_lf.length = 128 := by
    rw [← hg]
    simp [queue_lf_destroy, hlen, QUEUE_LF_NUM]
  simp only [QUEUE_LF_NUM] at hk
  have hex : ∃ j, j < 128 ∧ (g.queue_lf.getD j zero_queue).used = 0 := by
    refine ⟨k, hk, ?_⟩
    rw [← hg, queue_lf_destroy_getD_self _ _ (by simp [hlen, QUEUE_LF_NUM]; exact hk)]
  obtain ⟨k1, -, -, -, hc⟩ := queue_lf_create_some g hex
  rw [hc] at hret ⊢
  simp only [Option.some.injEq] at hret
  subst hret
  simp only
  rw [getD_set_self _ _ _ _ (by omega)]
  rfl

/-- Witness of C16: entry 3 of a pool whose first four entries are in use. -/
theorem pool_recycling_witness :
    (queue_lf_create
        (queue_lf_destroy
          { (create_n pool0 4).2 with
            queue_lf := (create_n pool0 4).2.queue_lf.set 3
              (run_state ring0 [Call.enq 0x10, Call.enq 0x20, Call.deq]) } 3)
        odp_queue_type_t.ODP_QUEUE_TYPE_PLAIN).2.queue_lf.getD 3 zero_queue =
      { node := List.replicate RING_LF_SIZE zero_node, used := 1, enq_counter := 0 } :=
  (pool_recycling (create_n pool0 4).2 3 ring0 [Call.enq 0x10, Call.enq 0x20, Call.deq]
    0x40 (by decide) (by decide) (by decide)).1

/-- C17. `queue_lf_destroy` only clears the used flag: the released entry has `used = 0`
and keeps its `enq_counter` and its nodes, every other pool entry and the rest of the
globals are unchanged; the counter is zero again once a later `queue_lf_create` has
returned the entry. -/
theorem queue_lf_destroy_only_clears_used (glb : queue_lf_global_t) (k : Nat)
    (hk : k < glb.queue_lf.length) :
    ((queue_lf_destroy glb k).queue_lf.getD k zero_queue).used = 0 ∧
    ((queue_lf_destroy glb k).queue_lf.getD k zero_queue).enq_counter =
      (glb.queue_lf.getD k zero_queue).enq_counter ∧
    ((queue_lf_destroy glb k).queue_lf.getD k zero_queue).node =
      (glb.queue_lf.getD k zero_queue).node ∧
    (∀ j, j ≠ k →
      (queue_lf_destroy glb k).queue_lf.getD j zero_queue = glb.queue_lf.getD j zero_queue) ∧
    (queue_lf_destroy glb k).queue_lf.length = glb.queue_lf.length ∧
    (queue_lf_destroy glb k).shm = glb.shm ∧
    ((queue_lf_create (queue_lf_destroy glb k) odp_queue_type_t.ODP_QUEUE_TYPE_PLAIN).1 =
        some k →
      ((queue_lf_create (queue_lf_destroy glb k)
        odp_queue_type_t.ODP_QUEUE_TYPE_PLAIN).2.queue_lf.getD k zero_queue).enq_counter =
        0) := by
  refine ⟨?_, ?_, ?_, fun j hj => queue_lf_destroy_getD_other glb k j hj,
    by simp [queue_lf_destroy], rfl, ?_⟩
  · rw [queue_lf_destroy_getD_self glb k hk]
  · rw [queue_lf_destroy_getD_self glb k hk]
  · rw [queue_lf_destroy_getD_self glb k hk]
  · intro hret
    rcases create_loop_spec (queue_lf_destroy glb k).queue_lf QUEUE_LF_NUM 0 with
      ⟨h1, -⟩ | ⟨k1, -, -, -, -, h5⟩
    · simp [queue_lf_create, h1] at hret
    · simp only [queue_lf_create, ne_eq, not_true_eq_false, if_false, h5,
        Option.some.injEq] at hret ⊢
      subst hret
      rw [getD_set_self _ _ _ _ (by simp [queue_lf_destroy]; exact hk)]
      rfl

/-- Witness of C17: a pool whose entry 0 holds a ring with counter 3. -/
theorem queue_lf_destroy_only_clears_used_witness :
    (({ queue_lf := [ring_three], shm := 0 } : queue_lf_global_t).queue_lf.getD 0
        zero_queue).enq_counter = 3 ∧
    ((queue_lf_destroy { queue_lf := [ring_three], shm := 0 } 0).queue_lf.getD 0
        zero_queue).used = 0 ∧
    ((queue_lf_destroy { queue_lf := [ring_three], shm := 0 } 0).queue_lf.getD 0
        zero_queue).enq_counter = 3 :=
  ⟨by decide,
    (queue_lf_destroy_only_clears_used { queue_lf := [ring_three], shm := 0 } 0
      (by decide)).1,
    (queue_lf_destroy_only_clears_used { queue_lf := [ring_three], shm := 0 } 0
      (by decide)).2.1⟩

/-- C18. For a queue whose type is not `ODP_QUEUE_TYPE_PLAIN`, `queue_lf_create` returns
`NULL` and leaves the whole pool unchanged, however many entries are free. -/
theorem queue_lf_create_not_plain (glb : queue_lf_global_t) (type : odp_queue_type_t)
    (h : type ≠ odp_queue_type_t.ODP_QUEUE_TYPE_PLAIN) :
    queue_lf_create glb type = (none, glb) := by
  simp only [queue_lf_create, if_pos h]

/-- Witness of C18: a scheduled queue on a pool with all entries free. -/
theorem queue_lf_create_not_plain_witness :
    queue_lf_create pool0 odp_queue_type_t.ODP_QUEUE_TYPE_SCHED = (none, pool0) :=
  queue_lf_create_not_plain pool0 odp_queue_type_t.ODP_QUEUE_TYPE_SCHED (by decide)

/-- C19. When `__SIZEOF_INT128__` is defined and 16-byte compare and swap is lock-free,
`queue_lf_init_global` returns 128 (`QUEUE_LF_NUM`), sets `*queue_lf_size` to 32
(`RING_LF_SIZE`), fills the function table with the four ring operations, and leaves
`queue_lf_glb` pointing to 128 zeroed entries: `used = 0`, `enq_counter = 0`, every node
zero. -/
theorem init_global_available (sizeof_int128 is_lock_free : Bool) (process : lf_process_t)
    (queue_lf_size : Nat) (lf_func : queue_lf_func_t)
    (h1 : sizeof_int128 = true) (h2 : is_lock_free = true) :
    (queue_lf_init_global sizeof_int128 is_lock_free process queue_lf_size lf_func).ret =
      128 ∧
    QUEUE_LF_NUM = 128 ∧
    (queue_lf_init_global sizeof_int128 is_lock_free process queue_lf_size
      lf_func).queue_lf_size = 32 ∧
    RING_LF_SIZE = 32 ∧
    (queue_lf_init_global sizeof_int128 is_lock_free process queue_lf_size
      lf_func).lf_func.enq = some queue_lf_enq ∧
    (queue_lf_init_global sizeof_int128 is_lock_free process queue_lf_size
      lf_func).lf_func.enq_multi = some queue_lf_enq_multi ∧
    (queue_lf_init_global sizeof_int128 is_lock_free process queue_lf_size
      lf_func).lf_func.deq = some queue_lf_deq ∧
    (queue_lf_init_global sizeof_int128 is_lock_free process queue_lf_size
      lf_func).lf_func.deq_multi = some queue_lf_deq_multi ∧
    ∃ glb,
      (queue_lf_init_global sizeof_int128 is_lock_free process queue_lf_size
        lf_func).process.queue_lf_glb = some glb ∧
      glb.queue_lf.length = 128 ∧
      (∀ e ∈ glb.queue_lf, e.used = 0 ∧ e.enq_counter = 0 ∧ e.node.length = 32 ∧
        ∀ n ∈ e.node, n = zero_node) ∧
      ∀ i, i < 128 → glb.queue_lf.getD i zero_queue =
        { node := List.replicate 32 zero_node, used := 0, enq_counter := 0 } := by
  subst h1 h2
  refine ⟨rfl, rfl, rfl, rfl, rfl, rfl, rfl, rfl, _, rfl, by simp [QUEUE_LF_NUM], ?_, ?_⟩
  · intro e he
    rw [List.eq_of_mem_replicate he]
    refine ⟨rfl, rfl, by simp [zero_queue, RING_LF_SIZE], fun n hn => ?_⟩
    exact List.eq_of_mem_replicate hn
  · intro i hi
    rw [List.getD_eq_getElem _ _ (by simp [QUEUE_LF_NUM]; exact hi)]
    simp [zero_queue, RING_LF_SIZE]

/-- Witness of C19: initialisation of a process that has no pool yet. -/
theorem init_global_available_witness :
    (queue_lf_init_global true true process0 0 lf_func0).ret = 128 ∧
    (queue_lf_init_global true true process0 0 lf_func0).queue_lf_size = 32 ∧
    (queue_lf_init_global true true process0 0 lf_func0).process.queue_lf_glb =
      some { pool0 with shm := 1 } :=
  ⟨(init_global_available true true process0 0 lf_func0 rfl rfl).1,
    (init_global_available true true process0 0 lf_func0 rfl rfl).2.2.1, by decide⟩

/-- C20. Capability gate: when `__SIZEOF_INT128__` is undefined or the lock-free test
yields false, `queue_lf_init_global` returns 0 and changes nothing: the shared-memory
service is not called, `queue_lf_glb` stays as it was, and neither `*queue_lf_size` nor
the function table is written. -/
theorem init_global_unavailable (sizeof_int128 is_lock_free : Bool)
    (process : lf_process_t) (queue_lf_size : Nat) (lf_func : queue_lf_func_t)
    (h : sizeof_int128 = false ∨ is_lock_free = false) :
    (queue_lf_init_global sizeof_int128 is_lock_free process queue_lf_size lf_func).ret =
      0 ∧
    (queue_lf_init_global sizeof_int128 is_lock_free process queue_lf_size
      lf_func).process.shm_state = process.shm_state ∧
    (queue_lf_init_global sizeof_int128 is_lock_free process queue_lf_size
      lf_func).process.queue_lf_glb = process.queue_lf_glb ∧
    (queue_lf_init_global sizeof_int128 is_lock_free process queue_lf_size
      lf_func).queue_lf_size = queue_lf_size ∧
    (queue_lf_init_global sizeof_int128 is_lock_free process queue_lf_size
      lf_func).lf_func = lf_func := by
  rcases h with h | h
  · subst h
    exact ⟨rfl, rfl, rfl, rfl, rfl⟩
  · subst h
    cases sizeof_int128 <;> exact ⟨rfl, rfl, rfl, rfl, rfl⟩

/-- Witness of C20: a platform without `__SIZEOF_INT128__`, and one whose 16-byte compare
and swap is not lock-free. -/
theorem init_global_unavailable_witness :
    (queue_lf_init_global false true process0 7 lf_func0).ret = 0 ∧
    (queue_lf_init_global true false process0 7 lf_func0).ret = 0 ∧
    (queue_lf_init_global true false process0 7 lf_func0).process = process0 ∧
    (queue_lf_init_global true false process0 7 lf_func0).queue_lf_size = 7 :=
  ⟨(init_global_unavailable false true process0 7 lf_func0 (Or.inl rfl)).1,
    (init_global_unavailable true false process0 7 lf_func0 (Or.inr rfl)).1,
    by decide,
    (init_global_unavailable true false process0 7 lf_func0 (Or.inr rfl)).2.2.2.1⟩

/-- C21, the code at the failing input. On a process that was never initialised
`queue_lf_term_global` changes nothing. After a successful initialisation the first call
frees the shared region; a second call is not a no-op: `queue_lf_glb` was left non-`NULL`,
so `odp_shm_free` is called again on the handle that is no longer reserved. -/
theorem term_global_twice_frees_twice :
    queue_lf_term_global process0 = process0 ∧
    process_up.shm_state.live = [1] ∧
    (queue_lf_term_global process_up).shm_state.live = [] ∧
    (queue_lf_term_global process_up).shm_state.free_calls = 1 ∧
    (queue_lf_term_global process_up).queue_lf_glb = process_up.queue_lf_glb ∧
    (queue_lf_term_global process_up).queue_lf_glb ≠ none ∧
    (queue_lf_term_global (queue_lf_term_global process_up)).shm_state.free_calls = 2 ∧
    queue_lf_term_global (queue_lf_term_global process_up) ≠
      queue_lf_term_global process_up := by
  refine ⟨by decide, by decide, by decide, by decide, by decide, by decide, by decide,
    by decide⟩

/-- C22. Ring operations never touch the pool flag: `queue_lf_enq`, `queue_lf_enq_multi`,
`queue_lf_deq` and `queue_lf_deq_multi` leave the `used` field of the ring unchanged. -/
theorem ring_ops_keep_used (q : queue_lf_t) (p : Nat) (buf_hdr out : Nat → Nat)
    (num : Int) :
    (queue_lf_enq q p).2.used = q.used ∧
    (queue_lf_enq_multi q buf_hdr num).2.used = q.used ∧
    (queue_lf_deq q).2.used = q.used ∧
    (queue_lf_deq_multi q out num).2.2.used = q.used := by
  have henq : ∀ x, (queue_lf_enq q x).2.used = q.used := by
    intro x
    simp only [queue_lf_enq]
  have hdeq : (queue_lf_deq q).2.used = q.used := by
    simp only [queue_lf_deq]
  refine ⟨henq p, ?_, hdeq, ?_⟩
  · simp only [queue_lf_enq_multi]
    split <;> exact henq _
  · simp only [queue_lf_deq_multi]
    split <;> exact hdeq

/-- C25. Enqueue postcondition: when `queue_lf_enq` of a 64-bit payload `p` on a
well-formed ring with counter `c` returns `0`, the node it changed is the first node with
`mark = 0` in the order 1, 2, ..., 31, 0; its new value is `mark = 1`, `ptr = p >> 1`,
`count = c`, which differs from the old value, and the other 31 nodes are unchanged. -/
theorem enq_postcondition (q : queue_lf_t) (p : Nat) (hwf : q.WF) (hp : p < U64)
    (hret : (queue_lf_enq q p).1 = 0) :
    ∃ k, k < 32 ∧
      [1, 2, 3, 4, 5, 6, 7, 8, 9, 10, 11, 12, 13, 14, 15, 16, 17, 18, 19, 20, 21, 22, 23,
        24, 25, 26, 27, 28, 29, 30, 31, 0].find?
          (fun i => decide ((q.node.getD i zero_node).mark = 0)) = some k ∧
      (q.node.getD k zero_node).mark = 0 ∧
      (queue_lf_enq q p).2.node.getD k zero_node =
        { mark := 1, ptr := p >>> 1, count := q.enq_counter } ∧
      (queue_lf_enq q p).2.node.getD k zero_node ≠ q.node.getD k zero_node ∧
      (∀ i, i ≠ k →
        (queue_lf_enq q p).2.node.getD i zero_node = q.node.getD i zero_node) ∧
      (queue_lf_enq q p).2.node.length = 32 := by
  cases hfe : first_empty q.node with
  | none =>
    rw [queue_lf_enq_of_none q p hfe] at hret
    simp at hret
  | some k =>
    obtain ⟨hk, hk0⟩ := first_empty_some q.node k hfe
    have hlen : q.node.length = 32 := hwf.1
    have hval : enq_new_val p q.enq_counter =
        { mark := 1, ptr := p >>> 1, count := q.enq_counter } := by
      simp only [enq_new_val, ring_lf_node_t.mk.injEq, true_and, and_true]
      rw [Nat.mod_eq_of_lt hp, Nat.mod_eq_of_lt]
      simp only [Nat.shiftRight_eq_div_pow, U64, U63] at *
      omega
    have hfind : [1, 2, 3, 4, 5, 6, 7, 8, 9, 10, 11, 12, 13, 14, 15, 16, 17, 18, 19, 20,
        21, 22, 23, 24, 25, 26, 27, 28, 29, 30, 31, 0].find?
          (fun i => decide ((q.node.getD i zero_node).mark = 0)) = some k := by
      rw [← scan_order_full]
      exact hfe
    rw [queue_lf_enq_of_some q p k hfe]
    refine ⟨k, hk, hfind, hk0, ?_, ?_, ?_, by simp [hlen]⟩
    · simp only
      rw [getD_set_self _ _ _ _ (by omega), hval]
    · simp only
      rw [getD_set_self _ _ _ _ (by omega)]
      intro e
      rw [← e] at hk0
      simp [enq_new_val] at hk0
    · intro i hi
      simp only
      rw [getD_set_other _ _ _ _ _ (Ne.symm hi)]

/-- Witness of C25: the ring holding `0x10, 0x20, 0x30` in nodes 1 to 3; the payload
`0x40` goes to node 4 with `count = 3`. -/
theorem enq_postcondition_witness :
    ∃ k, k < 32 ∧
      [1, 2, 3, 4, 5, 6, 7, 8, 9, 10, 11, 12, 13, 14, 15, 16, 17, 18, 19, 20, 21, 22, 23,
        24, 25, 26, 27, 28, 29, 30, 31, 0].find?
          (fun i => decide ((ring_three.node.getD i zero_node).mark = 0)) = some k ∧
      (ring_three.node.getD k zero_node).mark = 0 ∧
      (queue_lf_enq ring_three 0x40).2.node.getD k zero_node =
        { mark := 1, ptr := 0x40 >>> 1, count := ring_three.enq_counter } ∧
      (queue_lf_enq ring_three 0x40).2.node.getD k zero_node ≠
        ring_three.node.getD k zero_node ∧
      (∀ i, i ≠ k →
        (queue_lf_enq ring_three 0x40).2.node.getD i zero_node =
          ring_three.node.getD i zero_node) ∧
      (queue_lf_enq ring_three 0x40).2.node.length = 32 :=
  enq_postcondition ring_three 0x40 (by decide) (by decide) (by decide)

/-- C26. Dequeue frame: when `queue_lf_deq` on a ring of 32 nodes returns a non-`NULL`
pointer, exactly one node changed, from `mark = 1` to `mark = 0` with `ptr` and `count`
kept; the other 31 nodes and `enq_counter` are unchanged. -/
theorem deq_frame (q : queue_lf_t) (hlen : q.node.length = RING_LF_SIZE)
    (hret : (queue_lf_deq q).1 ≠ 0) :
    ∃ k, k < 32 ∧ (q.node.getD k zero_node).mark = 1 ∧
      ((queue_lf_deq q).2.node.getD k zero_node).mark = 0 ∧
      ((queue_lf_deq q).2.node.getD k zero_node).ptr = (q.node.getD k zero_node).ptr ∧
      ((queue_lf_deq q).2.node.getD k zero_node).count = (q.node.getD k zero_node).count ∧
      (∀ i, i ≠ k →
        (queue_lf_deq q).2.node.getD i zero_node = q.node.getD i zero_node) ∧
      (queue_lf_deq q).2.node.length = 32 ∧
      (queue_lf_deq q).2.enq_counter = q.enq_counter ∧
      (queue_lf_deq q).1 = ((q.node.getD k zero_node).ptr <<< 1) % U64 := by
  by_cases h : ∃ j, j < 32 ∧ (q.node.getD j zero_node).mark = 1 ∧
      (q.node.getD j zero_node).count < U64 - 1
  · obtain ⟨k, hk, hm, -, -, hdeq⟩ := queue_lf_deq_of_some q h
    have hkl : k < q.node.length := by rw [hlen]; exact hk
    rw [hdeq]
    refine ⟨k, hk, hm, ?_, ?_, ?_, ?_, by simp [hlen, RING_LF_SIZE], rfl, rfl⟩
    · simp only
      rw [getD_set_self _ _ _ _ hkl]
    · simp only
      rw [getD_set_self _ _ _ _ hkl]
    · simp only
      rw [getD_set_self _ _ _ _ hkl]
    · intro i hi
      simp only
      rw [getD_set_other _ _ _ _ _ (Ne.symm hi)]
  · exfalso
    apply hret
    rw [queue_lf_deq_of_none q]
    intro j hj hm
    by_contra hc
    exact h ⟨j, hj, hm, by omega⟩

/-- Witness of C26: the ring holding `0x10, 0x20, 0x30`; node 1 is cleared. -/
theorem deq_frame_witness :
    ∃ k, k < 32 ∧ (ring_three.node.getD k zero_node).mark = 1 ∧
      ((queue_lf_deq ring_three).2.node.getD k zero_node).mark = 0 ∧
      ((queue_lf_deq ring_three).2.node.getD k zero_node).ptr =
        (ring_three.node.getD k zero_node).ptr ∧
      ((queue_lf_deq ring_three).2.node.getD k zero_node).count =
        (ring_three.node.getD k zero_node).count ∧
      (∀ i, i ≠ k →
        (queue_lf_deq ring_three).2.node.getD i zero_node =
          ring_three.node.getD i zero_node) ∧
      (queue_lf_deq ring_three).2.node.length = 32 ∧
      (queue_lf_deq ring_three).2.enq_counter = ring_three.enq_counter ∧
      (queue_lf_deq ring_three).1 = ((ring_three.node.getD k zero_node).ptr <<< 1) % U64 :=
  deq_frame ring_three (by decide) (by decide)

/-! ## The atomic-step model -/

theorem enq_run_env_done (p : Nat) (env : Nat → queue_lf_t → queue_lf_t) (n k : Nat)
    (r : Int) (q : queue_lf_t) :
    enq_run_env p env n k (enq_pc.done r) q = (enq_pc.done r, q, []) := by
  cases n <;> rfl

theorem deq_run_env_done (env : Nat → queue_lf_t → queue_lf_t) (n k : Nat)
    (b : Nat) (q : queue_lf_t) :
    deq_run_env env n k (deq_pc.done b) q = (deq_pc.done b, q, []) := by
  cases n <;> rfl

theorem enq_run_env_load (p : Nat) (env : Nat → queue_lf_t → queue_lf_t) (n k : Nat)
    (j i i_node c : Nat) (q : queue_lf_t) :
    enq_run_env p env (n + 1) k (enq_pc.load j i i_node c) q =
      ((enq_run_env p env n (k + 1)
          (enq_step p (enq_pc.load j i i_node c) (env k q)).1
          (enq_step p (enq_pc.load j i i_node c) (env k q)).2.1).1,
        (enq_run_env p env n (k + 1)
          (enq_step p (enq_pc.load j i i_node c) (env k q)).1
          (enq_step p (enq_pc.load j i i_node c) (env k q)).2.1).2.1,
        { before := env k q,
          after := (enq_step p (enq_pc.load j i i_node c) (env k q)).2.1,
          op := (enq_step p (enq_pc.load j i i_node c) (env k q)).2.2 } ::
        (enq_run_env p env n (k + 1)
          (enq_step p (enq_pc.load j i i_node c) (env k q)).1
          (enq_step p (enq_pc.load j i i_node c) (env k q)).2.1).2.2) := rfl

theorem enq_run_env_cas (p : Nat) (env : Nat → queue_lf_t → queue_lf_t) (n k : Nat)
    (j i_node : Nat) (v : ring_lf_node_t) (c : Nat) (q : queue_lf_t) :
    enq_run_env p env (n + 1) k (enq_pc.cas j i_node v c) q =
      ((enq_run_env p env n (k + 1)
          (enq_step p (enq_pc.cas j i_node v c) (env k q)).1
          (enq_step p (enq_pc.cas j i_node v c) (env k q)).2.1).1,
        (enq_run_env p env n (k + 1)
          (enq_step p (enq_pc.cas j i_node v c) (env k q)).1
          (enq_step p (enq_pc.cas j i_node v c) (env k q)).2.1).2.1,
        { before := env k q,
          after := (enq_step p (enq_pc.cas j i_node v c) (env k q)).2.1,
          op := (enq_step p (enq_pc.cas j i_node v c) (env k q)).2.2 } ::
        (enq_run_env p env n (k + 1)
          (enq_step p (enq_pc.cas j i_node v c) (env k q)).1
          (enq_step p (enq_pc.cas j i_node v c) (env k q)).2.1).2.2) := rfl

theorem enq_run_env_fetch_inc (p : Nat) (env : Nat → queue_lf_t → queue_lf_t) (n k : Nat)
    (q : queue_lf_t) :
    enq_run_env p env (n + 1) k enq_pc.fetch_inc q =
      ((enq_run_env p env n (k + 1)
          (enq_step p enq_pc.fetch_inc (env k q)).1
          (enq_step p enq_pc.fetch_inc (env k q)).2.1).1,
        (enq_run_env p env n (k + 1)
          (enq_step p enq_pc.fetch_inc (env k q)).1
          (enq_step p enq_pc.fetch_inc (env k q)).2.1).2.1,
        { before := env k q,
          after := (enq_step p enq_pc.fetch_inc (env k q)).2.1,
          op := (enq_step p enq_pc.fetch_inc (env k q)).2.2 } ::
        (enq_run_env p env n (k + 1)
          (enq_step p enq_pc.fetch_inc (env k q)).1
          (enq_step p enq_pc.fetch_inc (env k q)).2.1).2.2) := rfl

/-- Running alone, the scan and compare and swap of the step model do what the first
retry of `queue_lf_enq` does. -/
theorem enq_alone_scan (p c j : Nat) (q : queue_lf_t) (m : Nat) :
    ∀ (n k i i_node : Nat), i + m = 32 → m + 1 ≤ n →
      match (scan_order m i_node).find?
          (fun x => decide ((atomic_load_u128 q.node x).mark = 0)) with
      | none =>
        (enq_run_env p no_env n k (enq_inner j i i_node c) q).1 = enq_pc.done (-1) ∧
        (enq_run_env p no_env n k (enq_inner j i i_node c) q).2.1 = q
      | some x =>
        (enq_run_env p no_env n k (enq_inner j i i_node c) q).1 = enq_pc.done 0 ∧
        (enq_run_env p no_env n k (enq_inner j i i_node c) q).2.1 =
          { q with node := q.node.set x (enq_new_val p c) } := by
  induction m with
  | zero =>
    intro n k i i_node hi hn
    have : enq_inner j i i_node c = enq_pc.done (-1) := by
      simp only [enq_inner, RING_LF_SIZE]
      rw [if_neg (by omega)]
    simp only [scan_order, List.find?_nil, this, enq_run_env_done]
    exact ⟨trivial, trivial⟩
  | succ m ih =>
    intro n k i i_node hi hn
    have hin : enq_inner j i i_node c = enq_pc.load j i i_node c := by
      simp only [enq_inner, RING_LF_SIZE]
      rw [if_pos (by omega)]
    obtain ⟨n1, rfl⟩ : ∃ n1, n = n1 + 1 := ⟨n - 1, by omega⟩
    rw [hin, enq_run_env_load]
    simp only [scan_order, List.find?_cons, no_env, enq_step]
    by_cases h : (atomic_load_u128 q.node (next_idx i_node)).mark = 0
    · simp only [h, decide_True, if_true]
      obtain ⟨n2, rfl⟩ : ∃ n2, n1 = n2 + 1 := ⟨n1 - 1, by omega⟩
      rw [enq_run_env_cas]
      simp only [no_env, enq_step, atomic_cas_rel_u128, atomic_load_u128, if_true,
        enq_run_env_done]
      exact ⟨trivial, trivial⟩
    · simp only [h, decide_False, if_false]
      exact ih n1 (k + 1) (i + 1) (next_idx i_node) (by omega) (by omega)

/-- Faithfulness of the step model: a `queue_lf_enq` call that runs alone returns the
value and leaves the ring that the function `queue_lf_enq` gives. -/
theorem enq_alone_eq (p : Nat) (q : queue_lf_t) :
    (enq_run_env p no_env ENQ_STEPS 0 enq_pc.fetch_inc q).1 =
      enq_pc.done (queue_lf_enq q p).1 ∧
    (enq_run_env p no_env ENQ_STEPS 0 enq_pc.fetch_inc q).2.1 = (queue_lf_enq q p).2 := by
  have hs : ENQ_STEPS = 264 + 1 := by decide
  have ho : enq_outer 0 0 q.enq_counter = enq_inner 0 0 0 q.enq_counter := by
    simp [enq_outer, ENQ_RETRIES, RING_LF_SIZE]
  rw [hs, enq_run_env_fetch_inc]
  simp only [no_env, enq_step, odp_atomic_fetch_inc_u64, ho]
  have key := enq_alone_scan p q.enq_counter 0
    { q with enq_counter := (q.enq_counter + 1) % U64 } 32 264 1 0 0 (by omega) (by omega)
  cases hfe : first_empty q.node with
  | none =>
    rw [queue_lf_enq_of_none q p hfe]
    unfold first_empty at hfe
    simp only [RING_LF_SIZE] at hfe
    simp only [hfe] at key
    exact key
  | some x =>
    rw [queue_lf_enq_of_some q p x hfe]
    unfold first_empty at hfe
    simp only [RING_LF_SIZE] at hfe
    simp only [hfe] at key
    exact key

theorem deq_run_env_load (env : Nat → queue_lf_t → queue_lf_t) (n k : Nat)
    (j i : Nat) (s : deq_locals) (q : queue_lf_t) :
    deq_run_env env (n + 1) k (deq_pc.load j i s) q =
      ((deq_run_env env n (k + 1)
          (deq_step (deq_pc.load j i s) (env k q)).1
          (deq_step (deq_pc.load j i s) (env k q)).2.1).1,
        (deq_run_env env n (k + 1)
          (deq_step (deq_pc.load j i s) (env k q)).1
          (deq_step (deq_pc.load j i s) (env k q)).2.1).2.1,
        { before := env k q,
          after := (deq_step (deq_pc.load j i s) (env k q)).2.1,
          op := (deq_step (deq_pc.load j i s) (env k q)).2.2 } ::
        (deq_run_env env n (k + 1)
          (deq_step (deq_pc.load j i s) (env k q)).1
          (deq_step (deq_pc.load j i s) (env k q)).2.1).2.2) := rfl

theorem deq_run_env_cas (env : Nat → queue_lf_t → queue_lf_t) (n k : Nat)
    (j : Nat) (s : deq_locals) (q : queue_lf_t) :
    deq_run_env env (n + 1) k (deq_pc.cas j s) q =
      ((deq_run_env env n (k + 1)
          (deq_step (deq_pc.cas j s) (env k q)).1
          (deq_step (deq_pc.cas j s) (env k q)).2.1).1,
        (deq_run_env env n (k + 1)
          (deq_step (deq_pc.cas j s) (env k q)).1
          (deq_step (deq_pc.cas j s) (env k q)).2.1).2.1,
        { before := env k q,
          after := (deq_step (deq_pc.cas j s) (env k q)).2.1,
          op := (deq_step (deq_pc.cas j s) (env k q)).2.2 } ::
        (deq_run_env env n (k + 1)
          (deq_step (deq_pc.cas j s) (env k q)).1
          (deq_step (deq_pc.cas j s) (env k q)).2.1).2.2) := rfl

/-- Running alone, `m` load steps of the step model compute the head search `deq_find`. -/
theorem deq_alone_scan (j : Nat) (q : queue_lf_t) (m : Nat) :
    ∀ (n k i : Nat) (s : deq_locals), i + m = 32 →
      (deq_run_env no_env (m + n) k (deq_inner j i s) q).1 =
        (deq_run_env no_env n (k + m) (deq_inner j 32 (deq_find q.node m s)) q).1 ∧
      (deq_run_env no_env (m + n) k (deq_inner j i s) q).2.1 =
        (deq_run_env no_env n (k + m) (deq_inner j 32 (deq_find q.node m s)) q).2.1 := by
  induction m with
  | zero =>
    intro n k i s hi
    have : i = 32 := by omega
    subst this
    simp only [Nat.zero_add, Nat.add_zero, deq_find]
    exact ⟨trivial, trivial⟩
  | succ m ih =>
    intro n k i s hi
    have hin : deq_inner j i s = deq_pc.load j i s := by
      simp only [deq_inner, RING_LF_SIZE]
      rw [if_pos (by omega)]
    have e : m + 1 + n = (m + n) + 1 := by omega
    rw [hin, e, deq_run_env_load]
    simp only [no_env, deq_step, deq_find]
    have ek : k + (m + 1) = k + 1 + m := by omega
    rw [ek]
    by_cases h : (atomic_load_u128 q.node (next_idx s.i_node)).mark = 1 ∧
        (atomic_load_u128 q.node (next_idx s.i_node)).count < s.lowest
    · simp only [h, and_self, if_true]
      exact ih n (k + 1) (i + 1) _ (by omega)
    · simp only [h, if_false]
      exact ih n (k + 1) (i + 1) _ (by omega)

/-- Faithfulness of the step model: a `queue_lf_deq` call that runs alone returns the
pointer and leaves the ring that the function `queue_lf_deq` gives. -/
theorem deq_alone_eq (q : queue_lf_t) :
    (deq_run_env no_env DEQ_STEPS 0 deq_start q).1 = deq_pc.done (queue_lf_deq q).1 ∧
    (deq_run_env no_env DEQ_STEPS 0 deq_start q).2.1 = (queue_lf_deq q).2 := by
  have hs : DEQ_STEPS = 32 + 100 := by decide
  have hst : deq_start = deq_inner 0 0
      { i_node := 0, found := false, lowest := U64 - 1, old := 0, old_val := zero_node } := by
    simp [deq_start, deq_outer, DEQ_RETRIES, RING_LF_SIZE]
  obtain ⟨h1, h2⟩ := deq_alone_scan 0 q 32 100 0 0
    { i_node := 0, found := false, lowest := U64 - 1, old := 0, old_val := zero_node } rfl
  rw [hs, hst, h1, h2]
  have hspec := deq_find_spec q.node RING_LF_SIZE
    { i_node := 0, found := false, lowest := U64 - 1, old := 0, old_val := zero_node }
  simp only [queue_lf_deq, DEQ_RETRIES, RING_LF_SIZE, deq_retry] at hspec ⊢
  generalize deq_find q.node 32
    { i_node := 0, found := false, lowest := U64 - 1, old := 0, old_val := zero_node } =
    t at hspec ⊢
  have h32 : ∀ t1 : deq_locals, deq_inner 0 32 t1 =
      if t1.found = false then deq_pc.done 0 else deq_pc.cas 0 t1 := by
    intro t1
    simp [deq_inner, RING_LF_SIZE]
  rw [h32]
  rcases hspec with ⟨hf, -⟩ | ⟨hf, -, hval, -⟩
  · simp only [hf, if_true, deq_run_env_done]
    exact ⟨trivial, trivial⟩
  · have hnf : ¬ t.found = false := by simp [hf]
    rw [if_neg hnf, if_neg hnf]
    have e : (100 : Nat) = 99 + 1 := rfl
    rw [e, deq_run_env_cas]
    simp only [no_env, deq_step, atomic_cas_acq_u128, if_pos hval.symm, deq_run_env_done]
    exact ⟨trivial, trivial⟩

theorem next_idx_lt (i : Nat) (h : i < RING_LF_SIZE) : next_idx i < RING_LF_SIZE := by
  simp only [next_idx, RING_LF_SIZE] at *
  split <;> omega

theorem next_idx_mod (i : Nat) (h : i < 32) : next_idx i = (i + 1) % 32 := by
  simp only [next_idx, RING_LF_SIZE]
  split <;> omega

theorem enq_inner_ok (j i i_node c : Nat) (hj : j < ENQ_RETRIES)
    (hi : i_node < RING_LF_SIZE) : enq_pc_ok (enq_inner j i i_node c) := by
  simp only [enq_inner]
  split
  · exact ⟨hj, by assumption, hi⟩
  · trivial

theorem enq_outer_ok (j i_node c : Nat) (hi : i_node < RING_LF_SIZE) :
    enq_pc_ok (enq_outer j i_node c) := by
  simp only [enq_outer]
  split
  · exact enq_inner_ok j 0 i_node c (by assumption) hi
  · trivial

/-- A step of `queue_lf_enq` keeps the invariant of the control points and changes nodes
only from `mark = 0` to `mark = 1`, by a successful compare and swap. -/
theorem enq_step_spec (p : Nat) (pc : enq_pc) (q : queue_lf_t) (h : enq_pc_ok pc) :
    enq_pc_ok (enq_step p pc q).1 ∧ fills_only q (enq_step p pc q).2.1 ∧
    ((∀ i, (enq_step p pc q).2.2 ≠ atomic_op.cas i true) →
      (enq_step p pc q).2.1.node = q.node) ∧
    (enq_step p pc q).2.1.used = q.used := by
  cases pc with
  | fetch_inc =>
    simp only [enq_step]
    exact ⟨enq_outer_ok 0 0 _ (by decide), fun i => Or.inl rfl, fun _ => trivial, by trivial⟩
  | load j i i_node c =>
    obtain ⟨hj, hi, hn⟩ := h
    simp only [enq_step]
    split
    · exact ⟨⟨hj, next_idx_lt _ hn, by assumption⟩, fun i => Or.inl rfl, fun _ => rfl, by trivial⟩
    · exact ⟨enq_inner_ok j (i + 1) _ c hj (next_idx_lt _ hn), fun i => Or.inl rfl,
        fun _ => rfl, by trivial⟩
  | cas j i_node v c =>
    obtain ⟨hj, hn, hv⟩ := h
    simp only [enq_step, atomic_cas_rel_u128]
    by_cases hc : q.node.getD i_node zero_node = v
    · simp only [if_pos hc]
      refine ⟨trivial, ?_, fun hne => absurd rfl (hne i_node), by trivial⟩
      intro i
      simp only
      by_cases e : i_node = i
      · subst e
        by_cases hl : i_node < q.node.length
        · right
          rw [getD_set_self _ _ _ _ hl, hc]
          exact ⟨hv, rfl⟩
        · left
          rw [List.getD_eq_default _ _ (by simp only [List.length_set]; omega),
            List.getD_eq_default _ _ (by omega)]
      · left
        exact getD_set_other _ _ _ _ _ e
    · simp only [if_neg hc]
      exact ⟨enq_outer_ok (j + 1) i_node c hn, fun i => Or.inl rfl, fun _ => trivial, by trivial⟩
  | done r =>
    simp only [enq_step]
    exact ⟨trivial, fun i => Or.inl rfl, fun _ => trivial, by trivial⟩

theorem deq_inner_ok (j i : Nat) (s : deq_locals) (hj : j < DEQ_RETRIES)
    (hs : deq_locals_ok s) : deq_pc_ok (deq_inner j i s) := by
  simp only [deq_inner]
  split
  · exact ⟨hj, by assumption, hs⟩
  · split
    · trivial
    · refine ⟨hj, hs, ?_⟩
      cases hf : s.found
      · contradiction
      · rfl

theorem deq_outer_ok (j : Nat) (s : deq_locals) (hs : deq_locals_ok s) :
    deq_pc_ok (deq_outer j s) := by
  simp only [deq_outer]
  split
  · refine deq_inner_ok j 0 _ (by assumption) ⟨hs.1, ?_⟩
    intro h
    simp at h
  · trivial

/-- A step of `queue_lf_deq` keeps the invariant of the control points and changes nodes
only from `mark = 1` to `mark = 0`, by a successful compare and swap. -/
theorem deq_step_spec (pc : deq_pc) (q : queue_lf_t) (h : deq_pc_ok pc) :
    deq_pc_ok (deq_step pc q).1 ∧ drains_only q (deq_step pc q).2.1 ∧
    ((∀ i, (deq_step pc q).2.2 ≠ atomic_op.cas i true) →
      (deq_step pc q).2.1.node = q.node) ∧
    (deq_step pc q).2.1.used = q.used ∧
    (deq_step pc q).2.1.enq_counter = q.enq_counter := by
  cases pc with
  | load j i s =>
    obtain ⟨hj, hi, hs⟩ := h
    simp only [deq_step]
    split
    · rename_i hm
      refine ⟨deq_inner_ok j (i + 1) _ hj ⟨next_idx_lt _ hs.1, fun _ => ?_⟩,
        fun i => Or.inl rfl, fun _ => rfl, by trivial, by trivial⟩
      exact ⟨hm.1, next_idx_lt _ hs.1⟩
    · exact ⟨deq_inner_ok j (i + 1) _ hj ⟨next_idx_lt _ hs.1, hs.2⟩,
        fun i => Or.inl rfl, fun _ => rfl, by trivial, by trivial⟩
  | cas j s =>
    obtain ⟨hj, hs, hf⟩ := h
    obtain ⟨hm, ho⟩ := hs.2 hf
    simp only [deq_step, atomic_cas_acq_u128]
    by_cases hc : q.node.getD s.old zero_node = s.old_val
    · simp only [if_pos hc]
      refine ⟨trivial, ?_, fun hne => absurd rfl (hne s.old), by trivial, by trivial⟩
      intro i
      simp only
      by_cases e : s.old = i
      · subst e
        by_cases hl : s.old < q.node.length
        · right
          rw [getD_set_self _ _ _ _ hl, hc]
          exact ⟨hm, rfl⟩
        · left
          rw [List.getD_eq_default _ _ (by simp only [List.length_set]; omega),
            List.getD_eq_default _ _ (by omega)]
      · left
        exact getD_set_other _ _ _ _ _ e
    · simp only [if_neg hc]
      exact ⟨deq_outer_ok (j + 1) s hs, fun i => Or.inl rfl, fun _ => trivial, by trivial, by trivial⟩
  | done b =>
    simp only [deq_step]
    exact ⟨trivial, fun i => Or.inl rfl, fun _ => trivial, by trivial, by trivial⟩

theorem deq_start_ok : deq_pc_ok deq_start := by
  apply deq_outer_ok
  exact ⟨by decide, fun h => by simp at h⟩

/-- Under any interference, every step of a `queue_lf_enq` call satisfies `P` when
every step from a control point that satisfies the invariant does. -/
theorem enq_run_env_all (p : Nat) (env : Nat → queue_lf_t → queue_lf_t)
    (P : step_rec → Prop)
    (hP : ∀ pc q, enq_pc_ok pc →
      P { before := q, after := (enq_step p pc q).2.1, op := (enq_step p pc q).2.2 })
    (n : Nat) : ∀ (k : Nat) (pc : enq_pc) (q : queue_lf_t), enq_pc_ok pc →
      ∀ r ∈ (enq_run_env p env n k pc q).2.2, P r := by
  induction n with
  | zero =>
    intro k pc q _ r hr
    simp [enq_run_env] at hr
  | succ n ih =>
    intro k pc q hpc r hr
    have hstep := (enq_step_spec p pc (env k q) hpc).1
    cases pc with
    | done x => simp [enq_run_env] at hr
    | fetch_inc =>
      rw [enq_run_env_fetch_inc] at hr
      rcases List.mem_cons.mp hr with e | hr
      · rw [e]; exact hP _ _ hpc
      · exact ih _ _ _ hstep r hr
    | load j i i_node c =>
      rw [enq_run_env_load] at hr
      rcases List.mem_cons.mp hr with e | hr
      · rw [e]; exact hP _ _ hpc
      · exact ih _ _ _ hstep r hr
    | cas j i_node v c =>
      rw [enq_run_env_cas] at hr
      rcases List.mem_cons.mp hr with e | hr
      · rw [e]; exact hP _ _ hpc
      · exact ih _ _ _ hstep r hr

/-- Under any interference, every step of a `queue_lf_deq` call satisfies `P` when
every step from a control point that satisfies the invariant does. -/
theorem deq_run_env_all (env : Nat → queue_lf_t → queue_lf_t)
    (P : step_rec → Prop)
    (hP : ∀ pc q, deq_pc_ok pc →
      P { before := q, after := (deq_step pc q).2.1, op := (deq_step pc q).2.2 })
    (n : Nat) : ∀ (k : Nat) (pc : deq_pc) (q : queue_lf_t), deq_pc_ok pc →
      ∀ r ∈ (deq_run_env env n k pc q).2.2, P r := by
  induction n with
  | zero =>
    intro k pc q _ r hr
    simp [deq_run_env] at hr
  | succ n ih =>
    intro k pc q hpc r hr
    have hstep := (deq_step_spec pc (env k q) hpc).1
    cases pc with
    | done x => simp [deq_run_env] at hr
    | load j i s =>
      rw [deq_run_env_load] at hr
      rcases List.mem_cons.mp hr with e | hr
      · rw [e]; exact hP _ _ hpc
      · exact ih _ _ _ hstep r hr
    | cas j s =>
      rw [deq_run_env_cas] at hr
      rcases List.mem_cons.mp hr with e | hr
      · rw [e]; exact hP _ _ hpc
      · exact ih _ _ _ hstep r hr

/-- C27. Slot automaton: with each compare and swap one atomic step on the current
memory, and the ring changed arbitrarily by other threads between the steps of a call,
every step of `queue_lf_enq` leaves each node unchanged or takes it from `mark = 0` to
`mark = 1`, so it never overwrites a node with `mark = 1`; every step of `queue_lf_deq`
leaves each node unchanged or takes it from `mark = 1` to `mark = 0`; nodes change only
in steps that are a successful compare and swap. -/
theorem slot_automaton (p n : Nat) (env : Nat → queue_lf_t → queue_lf_t) (q : queue_lf_t) :
    (∀ r ∈ (enq_run_env p env n 0 enq_pc.fetch_inc q).2.2,
      fills_only r.before r.after ∧
      (∀ i, (r.before.node.getD i zero_node).mark = 1 →
        r.after.node.getD i zero_node = r.before.node.getD i zero_node) ∧
      ((∀ i, r.op ≠ atomic_op.cas i true) → r.after.node = r.before.node)) ∧
    (∀ r ∈ (deq_run_env env n 0 deq_start q).2.2,
      drains_only r.before r.after ∧
      (∀ i, (r.before.node.getD i zero_node).mark = 0 →
        r.after.node.getD i zero_node = r.before.node.getD i zero_node) ∧
      ((∀ i, r.op ≠ atomic_op.cas i true) → r.after.node = r.before.node)) := by
  constructor
  · refine enq_run_env_all p env
      (fun r => fills_only r.before r.after ∧
        (∀ i, (r.before.node.getD i zero_node).mark = 1 →
          r.after.node.getD i zero_node = r.before.node.getD i zero_node) ∧
        ((∀ i, r.op ≠ atomic_op.cas i true) → r.after.node = r.before.node))
      ?_ n 0 enq_pc.fetch_inc q trivial
    intro pc q1 hpc
    obtain ⟨-, h2, h3, -⟩ := enq_step_spec p pc q1 hpc
    refine ⟨h2, fun i hm => ?_, h3⟩
    rcases h2 i with e | ⟨h0, -⟩
    · exact e
    · simp only at hm h0
      omega
  · refine deq_run_env_all env
      (fun r => drains_only r.before r.after ∧
        (∀ i, (r.before.node.getD i zero_node).mark = 0 →
          r.after.node.getD i zero_node = r.before.node.getD i zero_node) ∧
        ((∀ i, r.op ≠ atomic_op.cas i true) → r.after.node = r.before.node))
      ?_ n 0 deq_start q deq_start_ok
    intro pc q1 hpc
    obtain ⟨-, h2, h3, -⟩ := deq_step_spec pc q1 hpc
    refine ⟨h2, fun i hm => ?_, h3⟩
    rcases h2 i with e | ⟨h0, -⟩
    · exact e
    · simp only at hm h0
      omega

theorem enq_run_env_succ (p : Nat) (env : Nat → queue_lf_t → queue_lf_t) (n k : Nat)
    (pc : enq_pc) (q : queue_lf_t) (hnd : ∀ r, pc ≠ enq_pc.done r) :
    enq_run_env p env (n + 1) k pc q =
      ((enq_run_env p env n (k + 1) (enq_step p pc (env k q)).1
          (enq_step p pc (env k q)).2.1).1,
        (enq_run_env p env n (k + 1) (enq_step p pc (env k q)).1
          (enq_step p pc (env k q)).2.1).2.1,
        { before := env k q, after := (enq_step p pc (env k q)).2.1,
          op := (enq_step p pc (env k q)).2.2 } ::
        (enq_run_env p env n (k + 1) (enq_step p pc (env k q)).1
          (enq_step p pc (env k q)).2.1).2.2) := by
  cases pc with
  | done r => exact absurd rfl (hnd r)
  | fetch_inc => rfl
  | load j i i_node c => rfl
  | cas j i_node v c => rfl

theorem deq_run_env_succ (env : Nat → queue_lf_t → queue_lf_t) (n k : Nat)
    (pc : deq_pc) (q : queue_lf_t) (hnd : ∀ b, pc ≠ deq_pc.done b) :
    deq_run_env env (n + 1) k pc q =
      ((deq_run_env env n (k + 1) (deq_step pc (env k q)).1 (deq_step pc (env k q)).2.1).1,
        (deq_run_env env n (k + 1) (deq_step pc (env k q)).1
          (deq_step pc (env k q)).2.1).2.1,
        { before := env k q, after := (deq_step pc (env k q)).2.1,
          op := (deq_step pc (env k q)).2.2 } ::
        (deq_run_env env n (k + 1) (deq_step pc (env k q)).1
          (deq_step pc (env k q)).2.1).2.2) := by
  cases pc with
  | done r => exact absurd rfl (hnd r)
  | load j i s => rfl
  | cas j s => rfl

/-- Each step of `queue_lf_enq` uses up one operation of its kind from the budget of the
control point. -/
theorem enq_step_budget (p : Nat) (pc : enq_pc) (q : queue_lf_t) (h : enq_pc_ok pc)
    (hnd : ∀ r, pc ≠ enq_pc.done r) :
    enq_fetch_left (enq_step p pc q).1 + (if is_fetch_inc (enq_step p pc q).2.2 then 1 else 0) ≤
      enq_fetch_left pc ∧
    enq_loads_left (enq_step p pc q).1 + (if is_load (enq_step p pc q).2.2 then 1 else 0) ≤
      enq_loads_left pc ∧
    enq_cas_left (enq_step p pc q).1 + (if is_cas (enq_step p pc q).2.2 then 1 else 0) ≤
      enq_cas_left pc ∧
    (is_fetch_inc (enq_step p pc q).2.2 = true ∨ is_load (enq_step p pc q).2.2 = true ∨
      is_cas (enq_step p pc q).2.2 = true) := by
  cases pc with
  | done r => exact absurd rfl (hnd r)
  | fetch_inc =>
    simp [enq_step, enq_outer, enq_inner, ENQ_RETRIES, RING_LF_SIZE, enq_fetch_left,
      enq_loads_left, enq_cas_left, is_fetch_inc, is_load, is_cas]
  | load j i i_node c =>
    obtain ⟨hj, hi, -⟩ := h
    simp only [ENQ_RETRIES, RING_LF_SIZE, Nat.reduceDiv] at hj hi
    simp only [enq_step]
    split
    · simp only [enq_fetch_left, enq_loads_left, enq_cas_left, is_fetch_inc, is_load, is_cas,
        ENQ_RETRIES, RING_LF_SIZE, Nat.reduceDiv]
      simp
      omega
    · simp only [enq_inner]
      split
      · simp only [enq_fetch_left, enq_loads_left, enq_cas_left, is_fetch_inc, is_load,
          is_cas, ENQ_RETRIES, RING_LF_SIZE, Nat.reduceDiv]
        simp
        omega
      · simp only [enq_fetch_left, enq_loads_left, enq_cas_left, is_fetch_inc, is_load,
          is_cas, ENQ_RETRIES, RING_LF_SIZE, Nat.reduceDiv]
        simp
        omega
  | cas j i_node v c =>
    obtain ⟨hj, -, -⟩ := h
    simp only [ENQ_RETRIES, RING_LF_SIZE, Nat.reduceDiv] at hj
    simp only [enq_step, atomic_cas_rel_u128]
    split
    · simp only [enq_fetch_left, enq_loads_left, enq_cas_left, is_fetch_inc, is_load, is_cas,
        ENQ_RETRIES, RING_LF_SIZE, Nat.reduceDiv]
      simp
      omega
    · simp only [enq_outer, enq_inner, ENQ_RETRIES, RING_LF_SIZE, Nat.reduceDiv]
      split
      · simp only [enq_fetch_left, enq_loads_left, enq_cas_left, is_fetch_inc, is_load,
          is_cas, ENQ_RETRIES, RING_LF_SIZE, Nat.reduceDiv, Nat.zero_lt_succ, if_true]
        simp
        omega
      · simp only [enq_fetch_left, enq_loads_left, enq_cas_left, is_fetch_inc, is_load,
          is_cas, ENQ_RETRIES, RING_LF_SIZE, Nat.reduceDiv]
        simp
        omega

theorem enq_budget_pos (pc : enq_pc) (h : enq_pc_ok pc) (hnd : ∀ r, pc ≠ enq_pc.done r) :
    0 < enq_fetch_left pc + enq_loads_left pc + enq_cas_left pc := by
  cases pc with
  | done r => exact absurd rfl (hnd r)
  | fetch_inc => simp [enq_fetch_left]
  | load j i i_node c =>
    obtain ⟨hj, hi, -⟩ := h
    simp only [ENQ_RETRIES, RING_LF_SIZE, Nat.reduceDiv] at hj hi
    simp only [enq_fetch_left, enq_loads_left, enq_cas_left, ENQ_RETRIES, RING_LF_SIZE,
      Nat.reduceDiv]
    omega
  | cas j i_node v c =>
    obtain ⟨hj, -, -⟩ := h
    simp only [ENQ_RETRIES, RING_LF_SIZE, Nat.reduceDiv] at hj
    simp only [enq_fetch_left, enq_loads_left, enq_cas_left, ENQ_RETRIES, RING_LF_SIZE,
      Nat.reduceDiv]
    omega

/-- Under any interference a `queue_lf_enq` call stays within the budget of its control
point and has returned once the budget is used up. -/
theorem enq_run_env_budget (p : Nat) (env : Nat → queue_lf_t → queue_lf_t) (n : Nat) :
    ∀ (k : Nat) (pc : enq_pc) (q : queue_lf_t), enq_pc_ok pc →
      count_ops is_fetch_inc (enq_run_env p env n k pc q).2.2 ≤ enq_fetch_left pc ∧
      count_ops is_load (enq_run_env p env n k pc q).2.2 ≤ enq_loads_left pc ∧
      count_ops is_cas (enq_run_env p env n k pc q).2.2 ≤ enq_cas_left pc ∧
      (enq_fetch_left pc + enq_loads_left pc + enq_cas_left pc ≤ n →
        ∃ r, (enq_run_env p env n k pc q).1 = enq_pc.done r) := by
  induction n with
  | zero =>
    intro k pc q hpc
    refine ⟨by simp [enq_run_env, count_ops], by simp [enq_run_env, count_ops],
      by simp [enq_run_env, count_ops], fun hle => ?_⟩
    by_cases hnd : ∀ r, pc ≠ enq_pc.done r
    · have := enq_budget_pos pc hpc hnd
      omega
    · push_neg at hnd
      obtain ⟨r, hr⟩ := hnd
      exact ⟨r, by rw [hr]; rfl⟩
  | succ n ih =>
    intro k pc q hpc
    by_cases hnd : ∀ r, pc ≠ enq_pc.done r
    · obtain ⟨b1, b2, b3, b4⟩ := enq_step_budget p pc (env k q) hpc hnd
      obtain ⟨i1, i2, i3, i4⟩ := ih (k + 1) (enq_step p pc (env k q)).1
        (enq_step p pc (env k q)).2.1 (enq_step_spec p pc (env k q) hpc).1
      rw [enq_run_env_succ p env n k pc q hnd]
      simp only [count_ops, List.countP_cons] at i1 i2 i3 ⊢
      refine ⟨by omega, by omega, by omega, fun hle => i4 ?_⟩
      rcases b4 with e | e | e <;> simp only [e, if_true] at b1 b2 b3 <;> omega
    · push_neg at hnd
      obtain ⟨r, hr⟩ := hnd
      subst hr
      rw [enq_run_env_done]
      exact ⟨by simp [count_ops], by simp [count_ops], by simp [count_ops], fun _ => ⟨r, rfl⟩⟩

/-- Each step of `queue_lf_deq` uses up one operation of its kind from the budget of the
control point, and is never a fetch-and-increment. -/
theorem deq_step_budget (pc : deq_pc) (q : queue_lf_t) (h : deq_pc_ok pc)
    (hnd : ∀ b, pc ≠ deq_pc.done b) :
    is_fetch_inc (deq_step pc q).2.2 = false ∧
    deq_loads_left (deq_step pc q).1 + (if is_load (deq_step pc q).2.2 then 1 else 0) ≤
      deq_loads_left pc ∧
    deq_cas_left (deq_step pc q).1 + (if is_cas (deq_step pc q).2.2 then 1 else 0) ≤
      deq_cas_left pc ∧
    (is_load (deq_step pc q).2.2 = true ∨ is_cas (deq_step pc q).2.2 = true) := by
  cases pc with
  | done r => exact absurd rfl (hnd r)
  | load j i s =>
    obtain ⟨hj, hi, -⟩ := h
    simp only [DEQ_RETRIES, RING_LF_SIZE, Nat.reduceDiv] at hj hi
    have key : ∀ s1 : deq_locals,
        deq_loads_left (deq_inner j (i + 1) s1) + 1 ≤ deq_loads_left (deq_pc.load j i s) ∧
        deq_cas_left (deq_inner j (i + 1) s1) ≤ deq_cas_left (deq_pc.load j i s) := by
      intro s1
      simp only [deq_inner, RING_LF_SIZE]
      split
      · simp only [deq_loads_left, deq_cas_left, DEQ_RETRIES, RING_LF_SIZE, Nat.reduceDiv]
        omega
      · split
        · simp only [deq_loads_left, deq_cas_left, DEQ_RETRIES, RING_LF_SIZE, Nat.reduceDiv]
          omega
        · simp only [deq_loads_left, deq_cas_left, DEQ_RETRIES, RING_LF_SIZE, Nat.reduceDiv]
          omega
    simp only [deq_step]
    split
    · simp only [is_fetch_inc, is_load, is_cas, if_true, Bool.false_eq_true, if_false,
        Nat.add_zero, true_or, and_true, true_and]
      exact key _
    · simp only [is_fetch_inc, is_load, is_cas, if_true, Bool.false_eq_true, if_false,
        Nat.add_zero, true_or, and_true, true_and]
      exact key _
  | cas j s =>
    obtain ⟨hj, -, -⟩ := h
    simp only [DEQ_RETRIES, RING_LF_SIZE, Nat.reduceDiv] at hj
    simp only [deq_step, atomic_cas_acq_u128]
    split
    · simp only [deq_loads_left, deq_cas_left, is_fetch_inc, is_load, is_cas,
        DEQ_RETRIES, RING_LF_SIZE, Nat.reduceDiv]
      simp
      omega
    · simp only [deq_outer, deq_inner, DEQ_RETRIES, RING_LF_SIZE, Nat.reduceDiv]
      split
      · simp only [deq_loads_left, deq_cas_left, is_fetch_inc, is_load,
          is_cas, DEQ_RETRIES, RING_LF_SIZE, Nat.reduceDiv, Nat.zero_lt_succ, if_true]
        simp
        omega
      · simp only [deq_loads_left, deq_cas_left, is_fetch_inc, is_load,
          is_cas, DEQ_RETRIES, RING_LF_SIZE, Nat.reduceDiv]
        simp
        omega

theorem deq_budget_pos (pc : deq_pc) (h : deq_pc_ok pc) (hnd : ∀ b, pc ≠ deq_pc.done b) :
    0 < deq_loads_left pc + deq_cas_left pc := by
  cases pc with
  | done r => exact absurd rfl (hnd r)
  | load j i s =>
    obtain ⟨hj, hi, -⟩ := h
    simp only [DEQ_RETRIES, RING_LF_SIZE, Nat.reduceDiv] at hj hi
    simp only [deq_loads_left, deq_cas_left, DEQ_RETRIES, RING_LF_SIZE, Nat.reduceDiv]
    omega
  | cas j s =>
    obtain ⟨hj, -, -⟩ := h
    simp only [DEQ_RETRIES, RING_LF_SIZE, Nat.reduceDiv] at hj
    simp only [deq_loads_left, deq_cas_left, DEQ_RETRIES, RING_LF_SIZE, Nat.reduceDiv]
    omega

/-- Under any interference a `queue_lf_deq` call stays within the budget of its control
point and has returned once the budget is used up. -/
theorem deq_run_env_budget (env : Nat → queue_lf_t → queue_lf_t) (n : Nat) :
    ∀ (k : Nat) (pc : deq_pc) (q : queue_lf_t), deq_pc_ok pc →
      count_ops is_fetch_inc (deq_run_env env n k pc q).2.2 = 0 ∧
      count_ops is_load (deq_run_env env n k pc q).2.2 ≤ deq_loads_left pc ∧
      count_ops is_cas (deq_run_env env n k pc q).2.2 ≤ deq_cas_left pc ∧
      (deq_loads_left pc + deq_cas_left pc ≤ n →
        ∃ b, (deq_run_env env n k pc q).1 = deq_pc.done b) := by
  induction n with
  | zero =>
    intro k pc q hpc
    refine ⟨by simp [deq_run_env, count_ops], by simp [deq_run_env, count_ops],
      by simp [deq_run_env, count_ops], fun hle => ?_⟩
    by_cases hnd : ∀ b, pc ≠ deq_pc.done b
    · have := deq_budget_pos pc hpc hnd
      omega
    · push_neg at hnd
      obtain ⟨b, hb⟩ := hnd
      exact ⟨b, by rw [hb]; rfl⟩
  | succ n ih =>
    intro k pc q hpc
    by_cases hnd : ∀ b, pc ≠ deq_pc.done b
    · obtain ⟨b1, b2, b3, b4⟩ := deq_step_budget pc (env k q) hpc hnd
      obtain ⟨i1, i2, i3, i4⟩ := ih (k + 1) (deq_step pc (env k q)).1
        (deq_step pc (env k q)).2.1 (deq_step_spec pc (env k q) hpc).1
      rw [deq_run_env_succ env n k pc q hnd]
      simp only [count_ops, List.countP_cons] at i1 i2 i3 ⊢
      refine ⟨by simp [i1, b1], by omega, by omega, fun hle => i4 ?_⟩
      rcases b4 with e | e <;> simp only [e, if_true] at b2 b3 <;> omega
    · push_neg at hnd
      obtain ⟨b, hb⟩ := hnd
      subst hb
      rw [deq_run_env_done]
      exact ⟨by simp [count_ops], by simp [count_ops], by simp [count_ops], fun _ => ⟨b, rfl⟩⟩

/-- C28. Bounded retries: whatever the other threads do to the ring between its atomic
operations, a `queue_lf_enq` call has returned after its `ENQ_STEPS = 265` steps, having
made exactly one fetch-and-increment, at most 8 compare and swaps and at most `8 * 32`
loads; a `queue_lf_deq` call has returned after its `DEQ_STEPS = 132` steps, having made
no fetch-and-increment, at most 4 compare and swaps and at most `4 * 32` loads. -/
theorem bounded_retries (p n : Nat) (env : Nat → queue_lf_t → queue_lf_t) (q : queue_lf_t) :
    ((∃ r, (enq_run_env p env (ENQ_STEPS + n) 0 enq_pc.fetch_inc q).1 = enq_pc.done r) ∧
      count_ops is_fetch_inc (enq_run_env p env (ENQ_STEPS + n) 0 enq_pc.fetch_inc q).2.2 =
        1 ∧
      count_ops is_cas (enq_run_env p env (ENQ_STEPS + n) 0 enq_pc.fetch_inc q).2.2 ≤ 8 ∧
      count_ops is_load (enq_run_env p env (ENQ_STEPS + n) 0 enq_pc.fetch_inc q).2.2 ≤
        8 * 32) ∧
    ((∃ b, (deq_run_env env (DEQ_STEPS + n) 0 deq_start q).1 = deq_pc.done b) ∧
      count_ops is_fetch_inc (deq_run_env env (DEQ_STEPS + n) 0 deq_start q).2.2 = 0 ∧
      count_ops is_cas (deq_run_env env (DEQ_STEPS + n) 0 deq_start q).2.2 ≤ 4 ∧
      count_ops is_load (deq_run_env env (DEQ_STEPS + n) 0 deq_start q).2.2 ≤ 4 * 32) ∧
    ENQ_STEPS = 1 + 8 * 32 + 8 ∧ DEQ_STEPS = 4 * 32 + 4 := by
  refine ⟨?_, ?_, by decide, by decide⟩
  · obtain ⟨h1, h2, h3, h4⟩ := enq_run_env_budget p env (ENQ_STEPS + n) 0 enq_pc.fetch_inc q
      trivial
    have hs : ENQ_STEPS + n = (264 + n) + 1 := by
      have : ENQ_STEPS = 265 := by decide
      omega
    refine ⟨h4 ?_, ?_, h3, h2⟩
    · have : ENQ_STEPS = 265 := by decide
      simp only [enq_fetch_left, enq_loads_left, enq_cas_left, ENQ_RETRIES, RING_LF_SIZE,
        Nat.reduceDiv]
      omega
    · rw [hs, enq_run_env_fetch_inc]
      obtain ⟨i1, -⟩ := enq_run_env_budget p env (264 + n) (0 + 1)
        (enq_step p enq_pc.fetch_inc (env 0 q)).1 (enq_step p enq_pc.fetch_inc (env 0 q)).2.1
        (enq_step_spec p enq_pc.fetch_inc (env 0 q) trivial).1
      have hz : enq_fetch_left (enq_step p enq_pc.fetch_inc (env 0 q)).1 = 0 := by
        simp [enq_step, enq_outer, enq_inner, ENQ_RETRIES, RING_LF_SIZE, enq_fetch_left]
      rw [hz] at i1
      simp only [count_ops, List.countP_cons] at i1 ⊢
      have hop : is_fetch_inc (enq_step p enq_pc.fetch_inc (env 0 q)).2.2 = true := rfl
      simp only [hop, if_true]
      omega
  · obtain ⟨h1, h2, h3, h4⟩ := deq_run_env_budget env (DEQ_STEPS + n) 0 deq_start q
      deq_start_ok
    have hl : deq_loads_left deq_start = 128 := by decide
    have hc : deq_cas_left deq_start = 4 := by decide
    have hd : DEQ_STEPS = 132 := by decide
    exact ⟨h4 (by omega), h1, by omega, by omega⟩

theorem enq_scan_inv_inner (j i i_node c s : Nat) (seen : List Nat)
    (hs : s < 32) (hn : i_node = (s + i) % 32) (hlen : seen.length = i)
    (hseen : ∀ x ∈ seen, ∃ m, m < i ∧ x = (s + m + 1) % 32) :
    enq_scan_inv (enq_inner j i i_node c) i_node seen := by
  simp only [enq_inner]
  split
  · exact ⟨rfl, by assumption, hlen, s, hs, hn, hseen⟩
  · trivial

theorem enq_scan_inv_outer (j i_node c : Nat) (hn : i_node < 32) :
    enq_scan_inv (enq_outer j i_node c) i_node [] := by
  simp only [enq_outer]
  split
  · exact enq_scan_inv_inner j 0 i_node c i_node [] hn (by omega) rfl
      (fun x hx => by simp at hx)
  · trivial

/-- Under any interference the loads and compare and swaps of a `queue_lf_enq` call follow
the rolling scan index. -/
theorem enq_run_env_rolling (p : Nat) (env : Nat → queue_lf_t → queue_lf_t) (n : Nat) :
    ∀ (k : Nat) (pc : enq_pc) (q : queue_lf_t) (cur : Nat) (seen : List Nat),
      enq_scan_inv pc cur seen →
      rolling_scan cur seen ((enq_run_env p env n k pc q).2.2.map (fun r => r.op)) := by
  induction n with
  | zero =>
    intro k pc q cur seen _
    simp [enq_run_env, rolling_scan]
  | succ n ih =>
    intro k pc q cur seen hinv
    cases pc with
    | done r =>
      rw [enq_run_env_done]
      simp [rolling_scan]
    | fetch_inc =>
      obtain ⟨hc, hs⟩ := hinv
      subst hc hs
      rw [enq_run_env_fetch_inc]
      simp only [List.map_cons, enq_step, rolling_scan]
      exact ih _ _ _ 0 [] (enq_scan_inv_outer 0 0 _ (by omega))
    | load j i i_node c =>
      obtain ⟨hc, hi, hlen, s, hs, hn, hseen⟩ := hinv
      subst hc
      simp only [RING_LF_SIZE] at hi hs hn hseen
      have hcur : cur < 32 := by rw [hn]; exact Nat.mod_lt _ (by omega)
      have hidx : next_idx cur = (s + i + 1) % 32 := by
        rw [next_idx_mod cur hcur, hn]
        omega
      have hnot : next_idx cur ∉ seen := by
        intro hmem
        obtain ⟨m, hm, hx⟩ := hseen _ hmem
        rw [hidx] at hx
        omega
      have hseen2 : ∀ x ∈ next_idx cur :: seen, ∃ m, m < i + 1 ∧ x = (s + m + 1) % 32 := by
        intro x hx
        rcases List.mem_cons.mp hx with e | hx
        · exact ⟨i, by omega, by rw [e, hidx]⟩
        · obtain ⟨m, hm, hx⟩ := hseen x hx
          exact ⟨m, by omega, hx⟩
      rw [enq_run_env_load]
      simp only [List.map_cons, enq_step]
      split
      · simp only [rolling_scan, RING_LF_SIZE]
        refine ⟨trivial, hnot, by omega, ih _ _ _ _ _ ?_⟩
        exact ⟨rfl, by rw [RING_LF_SIZE, hidx]; exact Nat.mod_lt _ (by omega)⟩
      · simp only [rolling_scan, RING_LF_SIZE]
        refine ⟨trivial, hnot, by omega, ih _ _ _ _ _ ?_⟩
        exact enq_scan_inv_inner j (i + 1) _ c s _ hs (by rw [hidx, Nat.add_assoc]) (by simp [hlen])
          hseen2
    | cas j i_node v c =>
      obtain ⟨hc, hi⟩ := hinv
      subst hc
      simp only [RING_LF_SIZE] at hi
      rw [enq_run_env_cas]
      simp only [List.map_cons, enq_step, atomic_cas_rel_u128]
      split
      · simp only [rolling_scan]
        exact ⟨trivial, ih _ _ _ _ _ trivial⟩
      · simp only [rolling_scan]
        exact ⟨trivial, ih _ _ _ _ _ (enq_scan_inv_outer (j + 1) cur c hi)⟩

/-- The operations of a run of at least one step from a control point other than `done`:
the operation of the first step, then those of the rest of the run. -/
theorem enq_run_env_ops_succ (p : Nat) (env : Nat → queue_lf_t → queue_lf_t) (n k : Nat)
    (pc : enq_pc) (q : queue_lf_t) (hnd : ∀ r, pc ≠ enq_pc.done r) :
    (enq_run_env p env (n + 1) k pc q).2.2.map (fun r => r.op) =
      (enq_step p pc (env k q)).2.2 ::
        (enq_run_env p env n (k + 1) (enq_step p pc (env k q)).1
          (enq_step p pc (env k q)).2.1).2.2.map (fun r => r.op) := by
  rw [enq_run_env_succ p env n k pc q hnd]
  rfl

/-- A step of `queue_lf_enq` whose operation is a failed compare and swap on node `kk`
goes on to the head of the outer loop with `i_node = kk`. -/
theorem enq_step_cas_fail (p : Nat) (pc : enq_pc) (q : queue_lf_t) (kk : Nat)
    (hok : enq_pc_ok pc) (h : (enq_step p pc q).2.2 = atomic_op.cas kk false) :
    kk < 32 ∧ ∃ j c, (enq_step p pc q).1 = enq_outer (j + 1) kk c := by
  cases pc with
  | fetch_inc => simp [enq_step] at h
  | load j i1 i_node c =>
    simp only [enq_step] at h
    split at h <;> simp at h
  | cas j i_node v c =>
    obtain ⟨-, hn, -⟩ := hok
    simp only [enq_step, atomic_cas_rel_u128] at h ⊢
    by_cases hc : q.node.getD i_node zero_node = v
    · simp only [if_pos hc] at h
      simp at h
    · simp only [if_neg hc] at h ⊢
      have e : i_node = kk := by
        injection h
      subst e
      exact ⟨hn, j, c, rfl⟩
  | done r => simp [enq_step] at h

/-- The first operation of a run from the head of the outer loop, when there is one, is
the load of `next_idx i_node`. -/
theorem enq_run_env_outer_head (p : Nat) (env : Nat → queue_lf_t → queue_lf_t) (n k : Nat)
    (j kk c : Nat) (q : queue_lf_t) (x : atomic_op) (post : List atomic_op)
    (h : (enq_run_env p env n k (enq_outer j kk c) q).2.2.map (fun r => r.op) = x :: post) :
    x = atomic_op.load (next_idx kk) := by
  simp only [enq_outer, enq_inner, RING_LF_SIZE] at h
  by_cases hj : j < ENQ_RETRIES
  · rw [if_pos hj, if_pos (by decide)] at h
    cases n with
    | zero => simp [enq_run_env] at h
    | succ n =>
      rw [enq_run_env_load] at h
      simp only [List.map_cons, enq_step] at h
      rw [← (List.cons.inj h).1]
      split <;> rfl
  · rw [if_neg hj, enq_run_env_done] at h
    simp at h

/-- Under any interference, in a run of `queue_lf_enq` the operation that follows a
failed compare and swap on node `kk` is the load of node `next_idx kk`. -/
theorem enq_run_env_after_failed_cas (p : Nat) (env : Nat → queue_lf_t → queue_lf_t)
    (n : Nat) : ∀ (k : Nat) (pc : enq_pc) (q : queue_lf_t), enq_pc_ok pc →
      ∀ (pre post : List atomic_op) (kk : Nat) (x : atomic_op),
        (enq_run_env p env n k pc q).2.2.map (fun r => r.op) =
          pre ++ atomic_op.cas kk false :: x :: post →
        kk < 32 ∧ x = atomic_op.load (next_idx kk) := by
  induction n with
  | zero =>
    intro k pc q _ pre post kk x h
    simp [enq_run_env] at h
  | succ n ih =>
    intro k pc q hpc pre post kk x h
    by_cases hd : ∃ r, pc = enq_pc.done r
    · obtain ⟨r, rfl⟩ := hd
      rw [enq_run_env_done] at h
      simp at h
    · have hnd : ∀ r, pc ≠ enq_pc.done r := fun r e => hd ⟨r, e⟩
      rw [enq_run_env_ops_succ p env n k pc q hnd] at h
      have hstep := (enq_step_spec p pc (env k q) hpc).1
      cases pre with
      | nil =>
        obtain ⟨h1, h2⟩ := List.cons.inj h
        obtain ⟨hk, j, c, e⟩ := enq_step_cas_fail p pc (env k q) kk hpc h1
        rw [e] at h2
        exact ⟨hk, enq_run_env_outer_head p env n (k + 1) (j + 1) kk c _ x post h2⟩
      | cons a pre1 =>
        obtain ⟨-, h2⟩ := List.cons.inj h
        exact ih _ _ _ hstep pre1 post kk x h2

/-- Running alone on a ring in which every node is taken, the rest of a scan of
`queue_lf_enq` loads the nodes in the cyclic order that follows `i_node`. -/
theorem enq_alone_full_scan (p c j : Nat) (q : queue_lf_t)
    (hfull : ∀ x, x < 32 → (q.node.getD x zero_node).mark ≠ 0) (m : Nat) :
    ∀ (n k i i_node : Nat), i + m = 32 → m ≤ n → i_node < 32 →
      (enq_run_env p no_env n k (enq_inner j i i_node c) q).2.2.map (fun r => r.op) =
        (scan_order m i_node).map atomic_op.load := by
  induction m with
  | zero =>
    intro n k i i_node hi hn _
    have : enq_inner j i i_node c = enq_pc.done (-1) := by
      simp only [enq_inner, RING_LF_SIZE]
      rw [if_neg (by omega)]
    rw [this, enq_run_env_done]
    rfl
  | succ m ih =>
    intro n k i i_node hi hn hlt
    have hin : enq_inner j i i_node c = enq_pc.load j i i_node c := by
      simp only [enq_inner, RING_LF_SIZE]
      rw [if_pos (by omega)]
    obtain ⟨n1, rfl⟩ : ∃ n1, n = n1 + 1 := ⟨n - 1, by omega⟩
    have hnx : next_idx i_node < 32 := next_idx_lt i_node hlt
    have hm : ¬ (atomic_load_u128 q.node (next_idx i_node)).mark = 0 := hfull _ hnx
    rw [hin, enq_run_env_load]
    simp only [scan_order, List.map_cons, no_env, enq_step, if_neg hm]
    rw [ih n1 (k + 1) (i + 1) (next_idx i_node) (by omega) (by omega) hnx]

/-- C29. Rolling start position. For every payload, interference and ring: a run of
`queue_lf_enq` of at least two steps starts with the fetch-and-increment followed by the
load of node 1, so the first retry's scan samples node 1 first; in every run the operation
that follows a failed compare and swap on node `k` is the load of node `(k + 1) mod 32`,
and after a failed compare and swap that is not the last retry this load is made, so the
next retry's scan samples node `(k + 1) mod 32` first; a scan that starts after node `k`
and finds every node taken loads the 32 nodes `(k + 1) mod 32, (k + 2) mod 32, ...` in
this cyclic order; and in every run each load samples `next_idx` of the node sampled
before it, within one scan at most 32 nodes are sampled and none twice. -/
theorem rolling_start_position (p n : Nat) (env : Nat → queue_lf_t → queue_lf_t)
    (q : queue_lf_t) :
    rolling_scan 0 []
      ((enq_run_env p env n 0 enq_pc.fetch_inc q).2.2.map (fun r => r.op)) ∧
    (∃ rest, (enq_run_env p env (n + 2) 0 enq_pc.fetch_inc q).2.2.map (fun r => r.op) =
      atomic_op.fetch_inc :: atomic_op.load 1 :: rest) ∧
    (∀ (pre post : List atomic_op) (k : Nat) (x : atomic_op),
      (enq_run_env p env n 0 enq_pc.fetch_inc q).2.2.map (fun r => r.op) =
        pre ++ atomic_op.cas k false :: x :: post →
      k < 32 ∧ x = atomic_op.load ((k + 1) % 32)) ∧
    (∀ (m j k : Nat) (v : ring_lf_node_t) (c : Nat) (q1 : queue_lf_t),
      k < 32 → (env m q1).node.getD k zero_node ≠ v → j + 1 < ENQ_RETRIES →
      ∃ rest,
        (enq_run_env p env (n + 2) m (enq_pc.cas j k v c) q1).2.2.map (fun r => r.op) =
          atomic_op.cas k false :: atomic_op.load ((k + 1) % 32) :: rest) ∧
    (∀ (m j k c : Nat) (q1 : queue_lf_t), k < 32 →
      (∀ x, x < 32 → (q1.node.getD x zero_node).mark ≠ 0) →
      (enq_run_env p no_env (n + 32) m (enq_pc.load j 0 k c) q1).2.2.map (fun r => r.op) =
        (scan_order RING_LF_SIZE k).map atomic_op.load ∧
      scan_order RING_LF_SIZE k = (List.range 32).map (fun i => (k + 1 + i) % 32)) ∧
    next_idx 0 = 1 ∧
    (∀ k, k < 32 → next_idx k = (k + 1) % 32) ∧
    (∀ j k v c q1, q1.node.getD k zero_node ≠ v → j + 1 < ENQ_RETRIES →
      (enq_step p (enq_pc.cas j k v c) q1).1 = enq_pc.load (j + 1) 0 k c ∧
      ∀ q2, (enq_step p (enq_pc.load (j + 1) 0 k c) q2).2.2 = atomic_op.load (next_idx k)) := by
  have hload : ∀ j k c q2, (enq_step p (enq_pc.load j 0 k c) q2).2.2 =
      atomic_op.load (next_idx k) := by
    intro j k c q2
    simp only [enq_step]
    split <;> rfl
  have hcas : ∀ j k v c q1, q1.node.getD k zero_node ≠ v → j + 1 < ENQ_RETRIES →
      (enq_step p (enq_pc.cas j k v c) q1).1 = enq_pc.load (j + 1) 0 k c ∧
      (enq_step p (enq_pc.cas j k v c) q1).2.2 = atomic_op.cas k false := by
    intro j k v c q1 hne hj
    simp only [enq_step, atomic_cas_rel_u128, if_neg hne, enq_outer, if_pos hj, enq_inner,
      RING_LF_SIZE]
    simp
  have hcyc : ∀ k, k < 32 →
      scan_order RING_LF_SIZE k = (List.range 32).map (fun i => (k + 1 + i) % 32) := by
    decide
  refine ⟨enq_run_env_rolling p env n 0 enq_pc.fetch_inc q 0 [] ⟨rfl, rfl⟩, ?_, ?_, ?_, ?_,
    by decide, next_idx_mod, fun j k v c q1 hne hj => ⟨(hcas j k v c q1 hne hj).1,
      fun q2 => hload (j + 1) k c q2⟩⟩
  · have ho : ∀ c, enq_outer 0 0 c = enq_pc.load 0 0 0 c := by
      intro c
      simp [enq_outer, enq_inner, ENQ_RETRIES, RING_LF_SIZE]
    rw [enq_run_env_ops_succ p env (n + 1) 0 _ q (fun r e => by cases e)]
    simp only [enq_step, ho]
    rw [enq_run_env_ops_succ p env n 1 _ _ (fun r e => by cases e), hload]
    exact ⟨_, rfl⟩
  · intro pre post k x h
    obtain ⟨hk, hx⟩ := enq_run_env_after_failed_cas p env n 0 enq_pc.fetch_inc q trivial
      pre post k x h
    rw [next_idx_mod k hk] at hx
    exact ⟨hk, hx⟩
  · intro m j k v c q1 hk hne hj
    obtain ⟨h1, h2⟩ := hcas j k v c (env m q1) hne hj
    rw [enq_run_env_ops_succ p env (n + 1) m _ q1 (fun r e => by cases e), h1, h2,
      enq_run_env_ops_succ p env n (m + 1) _ _ (fun r e => by cases e), hload,
      next_idx_mod k hk]
    exact ⟨_, rfl⟩
  · intro m j k c q1 hk hfull
    have hin : enq_pc.load j 0 k c = enq_inner j 0 k c := by
      simp [enq_inner, RING_LF_SIZE]
    rw [hin]
    exact ⟨enq_alone_full_scan p c j q1 hfull 32 (n + 32) m 0 k (by omega) (by omega) hk,
      hcyc k hk⟩

theorem enq_step_cas_ok (p : Nat) (pc : enq_pc) (q : queue_lf_t) (i : Nat)
    (h : (enq_step p pc q).2.2 = atomic_op.cas i true) :
    (enq_step p pc q).1 = enq_pc.done 0 := by
  cases pc with
  | fetch_inc => simp [enq_step] at h
  | load j i1 i_node c =>
    simp only [enq_step] at h
    split at h <;> simp at h
  | cas j i_node v c =>
    simp only [enq_step, atomic_cas_rel_u128] at h ⊢
    split at h
    · rename_i hc
      simp only [if_pos hc]
    · simp at h
  | done r => simp [enq_step] at h

/-- A `queue_lf_enq` call that does not end with return value 0 has made no successful
compare and swap, whatever the interference. -/
theorem enq_run_env_no_cas_ok (p : Nat) (env : Nat → queue_lf_t → queue_lf_t) (n : Nat) :
    ∀ (k : Nat) (pc : enq_pc) (q : queue_lf_t),
      (enq_run_env p env n k pc q).1 ≠ enq_pc.done 0 →
      ∀ r ∈ (enq_run_env p env n k pc q).2.2, ∀ i, r.op ≠ atomic_op.cas i true := by
  induction n with
  | zero =>
    intro k pc q _ r hr
    simp [enq_run_env] at hr
  | succ n ih =>
    intro k pc q hfin r hr
    by_cases hnd : ∀ x, pc ≠ enq_pc.done x
    · rw [enq_run_env_succ p env n k pc q hnd] at hfin hr
      simp only at hfin
      rcases List.mem_cons.mp hr with e | hr
      · intro i hop
        rw [e] at hop
        simp only at hop
        have := enq_step_cas_ok p pc (env k q) i hop
        rw [this, enq_run_env_done] at hfin
        exact hfin rfl
      · exact ih _ _ _ hfin r hr
    · push_neg at hnd
      obtain ⟨x, hx⟩ := hnd
      subst hx
      rw [enq_run_env_done] at hr
      simp at hr

theorem enq_step_counter (p : Nat) (pc : enq_pc) (q : queue_lf_t) :
    (enq_step p pc q).2.1.enq_counter =
      if (enq_step p pc q).2.2 = atomic_op.fetch_inc then (q.enq_counter + 1) % U64
      else q.enq_counter := by
  cases pc with
  | fetch_inc => simp [enq_step, odp_atomic_fetch_inc_u64]
  | load j i i_node c =>
    simp only [enq_step]
    split <;> simp
  | cas j i_node v c =>
    simp only [enq_step, atomic_cas_rel_u128]
    split <;> simp
  | done r => simp [enq_step]

set_option maxRecDepth 100000

/-- C30. Spurious full under contention. In the schedule `spurious_sched` on an empty
ring, each compare and swap of call 0 fails because another `queue_lf_enq` call filled the
sampled node first; call 0 returns -1 after 8 failed compare and swaps although the nodes
9 to 31 and 0 have `mark = 0`, has changed no node and has incremented `enq_counter` by
one. In every run that ends with -1, whatever the interference, the call has changed no
node and has made its one fetch-and-increment. -/
theorem spurious_full :
    ((sys_run spurious_sys spurious_sched).ops.head? =
        some (op_t.enq 0x100 (enq_pc.done (-1))) ∧
      (steps_of 0 (sys_trace spurious_sys spurious_sched)).map (fun r => r.op) =
        [atomic_op.fetch_inc,
          atomic_op.load 1, atomic_op.cas 1 false, atomic_op.load 2, atomic_op.cas 2 false,
          atomic_op.load 3, atomic_op.cas 3 false, atomic_op.load 4, atomic_op.cas 4 false,
          atomic_op.load 5, atomic_op.cas 5 false, atomic_op.load 6, atomic_op.cas 6 false,
          atomic_op.load 7, atomic_op.cas 7 false, atomic_op.load 8, atomic_op.cas 8 false] ∧
      (sys_run spurious_sys spurious_sched).ring.node.map (fun n => n.mark) =
        [0, 1, 1, 1, 1, 1, 1, 1, 1, 0, 0, 0, 0, 0, 0, 0, 0, 0, 0, 0, 0, 0, 0, 0, 0, 0, 0, 0,
          0, 0, 0, 0] ∧
      (steps_of 0 (sys_trace spurious_sys spurious_sched)).all
        (fun r => decide (r.after.node = r.before.node)) = true ∧
      (steps_of 0 (sys_trace spurious_sys spurious_sched)).map
          (fun r => r.after.enq_counter - r.before.enq_counter) =
        [1, 0, 0, 0, 0, 0, 0, 0, 0, 0, 0, 0, 0, 0, 0, 0, 0]) ∧
    (∀ (p n : Nat) (env : Nat → queue_lf_t → queue_lf_t) (q : queue_lf_t),
      (enq_run_env p env n 0 enq_pc.fetch_inc q).1 = enq_pc.done (-1) →
      (∀ r ∈ (enq_run_env p env n 0 enq_pc.fetch_inc q).2.2,
        r.after.node = r.before.node ∧
        r.after.enq_counter =
          if r.op = atomic_op.fetch_inc then (r.before.enq_counter + 1) % U64
          else r.before.enq_counter) ∧
      count_ops is_fetch_inc (enq_run_env p env n 0 enq_pc.fetch_inc q).2.2 = 1) := by
  refine ⟨⟨by decide, by decide, by decide, by decide, by decide⟩, ?_⟩
  intro p n env q hfin
  have hne : (enq_run_env p env n 0 enq_pc.fetch_inc q).1 ≠ enq_pc.done 0 := by
    rw [hfin]
    simp
  have hnocas := enq_run_env_no_cas_ok p env n 0 enq_pc.fetch_inc q hne
  have hall := enq_run_env_all p env
    (fun r => ((∀ i, r.op ≠ atomic_op.cas i true) → r.after.node = r.before.node) ∧
      r.after.enq_counter =
        if r.op = atomic_op.fetch_inc then (r.before.enq_counter + 1) % U64
        else r.before.enq_counter)
    (fun pc q1 hpc => ⟨(enq_step_spec p pc q1 hpc).2.2.1, enq_step_counter p pc q1⟩)
    n 0 enq_pc.fetch_inc q trivial
  refine ⟨fun r hr => ⟨(hall r hr).1 (hnocas r hr), (hall r hr).2⟩, ?_⟩
  cases n with
  | zero => simp [enq_run_env] at hfin
  | succ n =>
    rw [enq_run_env_fetch_inc]
    obtain ⟨i1, -⟩ := enq_run_env_budget p env n (0 + 1)
      (enq_step p enq_pc.fetch_inc (env 0 q)).1 (enq_step p enq_pc.fetch_inc (env 0 q)).2.1
      (enq_step_spec p enq_pc.fetch_inc (env 0 q) trivial).1
    have hz : enq_fetch_left (enq_step p enq_pc.fetch_inc (env 0 q)).1 = 0 := by
      simp [enq_step, enq_outer, enq_inner, ENQ_RETRIES, RING_LF_SIZE, enq_fetch_left]
    rw [hz] at i1
    simp only [count_ops, List.countP_cons] at i1 ⊢
    have hop : is_fetch_inc (enq_step p enq_pc.fetch_inc (env 0 q)).2.2 = true := rfl
    simp only [hop, if_true]
    omega

theorem countP_set_eq {α : Type} (P : α → Bool) (l : List α) (t : Nat) (o v : α)
    (h : l[t]? = some o) :
    (l.set t v).countP P + (if P o then 1 else 0) = l.countP P + (if P v then 1 else 0) := by
  induction l generalizing t with
  | nil => simp at h
  | cons a l ih =>
    cases t with
    | zero =>
      simp only [List.getElem?_cons_zero, Option.some.injEq] at h
      subst h
      simp only [List.set_cons_zero, List.countP_cons]
      omega
    | succ t =>
      simp only [List.getElem?_cons_succ] at h
      have := ih t h
      simp only [List.set_cons_succ, List.countP_cons]
      omega

theorem getElem?_eq_getD_of_lt {α : Type} (l : List α) (k : Nat) (d : α) (h : k < l.length) :
    l[k]? = some (l.getD k d) := by
  rw [List.getD_eq_getElem _ _ h, List.getElem?_eq_getElem h]

theorem enq_inner_ne_done0 (j i i_node c : Nat) : enq_inner j i i_node c ≠ enq_pc.done 0 := by
  simp only [enq_inner]
  split <;> simp

theorem enq_outer_ne_done0 (j i_node c : Nat) : enq_outer j i_node c ≠ enq_pc.done 0 := by
  simp only [enq_outer]
  split
  · exact enq_inner_ne_done0 _ _ _ _
  · simp

theorem deq_inner_ne_done (j i : Nat) (s : deq_locals) (x : Nat) (hx : x ≠ 0) :
    deq_inner j i s ≠ deq_pc.done x := by
  simp only [deq_inner]
  split
  · simp
  · split
    · simp only [ne_eq, deq_pc.done.injEq]
      exact fun e => hx e.symm
    · simp

theorem deq_outer_ne_done (j : Nat) (s : deq_locals) (x : Nat) (hx : x ≠ 0) :
    deq_outer j s ≠ deq_pc.done x := by
  simp only [deq_outer]
  split
  · exact deq_inner_ne_done _ _ _ x hx
  · simp only [ne_eq, deq_pc.done.injEq]
    exact fun e => hx e.symm

/-- Effect of one step of `queue_lf_enq` on the marked nodes that hold `x`: one more
exactly when the step makes the call return 0 and the payload is `x`. -/
theorem enq_step_marked (p x : Nat) (pc : enq_pc) (q : queue_lf_t)
    (hp2 : p % 2 = 0) (hp64 : p < U64) (hpc : enq_pc_ok pc) (hlen : q.node.length = 32) :
    (enq_step p pc q).2.1.node.length = 32 ∧
    marked_count x (enq_step p pc q).2.1.node +
        (if p = x ∧ pc = enq_pc.done 0 then 1 else 0) =
      marked_count x q.node +
        (if p = x ∧ (enq_step p pc q).1 = enq_pc.done 0 then 1 else 0) := by
  cases pc with
  | fetch_inc =>
    simp only [enq_step]
    refine ⟨hlen, ?_⟩
    rw [if_neg (by simp), if_neg (fun h => enq_outer_ne_done0 _ _ _ h.2)]
  | load j i i_node c =>
    simp only [enq_step]
    split
    · refine ⟨hlen, ?_⟩
      rw [if_neg (by simp), if_neg (by simp)]
    · refine ⟨hlen, ?_⟩
      rw [if_neg (by simp), if_neg (fun h => enq_inner_ne_done0 _ _ _ _ h.2)]
  | cas j k v c =>
    obtain ⟨-, hk, hv⟩ := hpc
    simp only [RING_LF_SIZE] at hk
    simp only [enq_step, atomic_cas_rel_u128]
    by_cases hc : q.node.getD k zero_node = v
    · simp only [if_pos hc]
      refine ⟨by simp [hlen], ?_⟩
      have hset := countP_set_eq (fun n => decide (n.mark = 1 ∧ node_buf n = x)) q.node k
        (q.node.getD k zero_node) (enq_new_val p c)
        (getElem?_eq_getD_of_lt _ _ _ (by omega))
      rw [hc] at hset
      simp only [hv, node_buf_new_val_even p c hp64 hp2] at hset
      have h1 : (enq_new_val p c).mark = 1 := rfl
      simp only [h1] at hset
      simp only [marked_count]
      by_cases hpx : p = x
      · simp [hpx] at hset ⊢
        omega
      · simp [hpx] at hset ⊢
        omega
    · simp only [if_neg hc]
      refine ⟨hlen, ?_⟩
      rw [if_neg (by simp), if_neg (fun h => enq_outer_ne_done0 _ _ _ h.2)]
  | done r =>
    simp only [enq_step]
    exact ⟨hlen, trivial⟩

/-- Effect of one step of `queue_lf_deq` on the marked nodes that hold `x`: one less
exactly when the step makes the call return `x`. -/
theorem deq_step_marked (x : Nat) (pc : deq_pc) (q : queue_lf_t) (hx : x ≠ 0)
    (hpc : deq_pc_ok pc) (hlen : q.node.length = 32) :
    (deq_step pc q).2.1.node.length = 32 ∧
    marked_count x (deq_step pc q).2.1.node +
        (if (deq_step pc q).1 = deq_pc.done x then 1 else 0) =
      marked_count x q.node + (if pc = deq_pc.done x then 1 else 0) := by
  cases pc with
  | load j i s =>
    simp only [deq_step]
    split
    · refine ⟨hlen, ?_⟩
      rw [if_neg (deq_inner_ne_done _ _ _ x hx), if_neg (by simp)]
    · refine ⟨hlen, ?_⟩
      rw [if_neg (deq_inner_ne_done _ _ _ x hx), if_neg (by simp)]
  | cas j s =>
    obtain ⟨-, hs, hf⟩ := hpc
    obtain ⟨hm, ho⟩ := hs.2 hf
    simp only [RING_LF_SIZE] at ho
    simp only [deq_step, atomic_cas_acq_u128]
    by_cases hc : q.node.getD s.old zero_node = s.old_val
    · simp only [if_pos hc]
      refine ⟨by simp [hlen], ?_⟩
      have hset := countP_set_eq (fun n => decide (n.mark = 1 ∧ node_buf n = x)) q.node s.old
        (q.node.getD s.old zero_node) { s.old_val with mark := 0 }
        (getElem?_eq_getD_of_lt _ _ _ (by omega))
      rw [hc] at hset
      simp only [hm] at hset
      simp only [marked_count, node_buf] at hset ⊢
      by_cases hbx : s.old_val.ptr <<< 1 % U64 = x
      · simp [hbx] at hset ⊢
        omega
      · simp [hbx] at hset ⊢
        omega
    · simp only [if_neg hc]
      refine ⟨hlen, ?_⟩
      rw [if_neg (deq_outer_ne_done _ _ x hx), if_neg (by simp)]
  | done b =>
    simp only [deq_step]
    exact ⟨hlen, trivial⟩

/-- One step of one call keeps the conservation equation for the payload `x`: the
enqueues of `x` that returned 0 are the dequeues that returned `x` together with the
marked nodes that hold `x`. -/
theorem sys_step_inv (x : Nat) (hx : x ≠ 0) (s : sys_t) (t : Nat)
    (hlen : s.ring.node.length = 32) (hok : ∀ o ∈ s.ops, op_ok o)
    (heq : enq_ok_count x s.ops = deq_got_count x s.ops + marked_count x s.ring.node) :
    (sys_step s t).1.ring.node.length = 32 ∧ (∀ o ∈ (sys_step s t).1.ops, op_ok o) ∧
    enq_ok_count x (sys_step s t).1.ops =
      deq_got_count x (sys_step s t).1.ops + marked_count x (sys_step s t).1.ring.node ∧
    (sys_step s t).1.ops.countP (is_enq_of x) = s.ops.countP (is_enq_of x) := by
  cases ht : s.ops[t]? with
  | none =>
    simp only [sys_step, ht]
    exact ⟨hlen, hok, heq, trivial⟩
  | some o =>
    simp only [sys_step, ht]
    have hmem : o ∈ s.ops := List.getElem?_mem ht
    have hoo := hok o hmem
    have hE := countP_set_eq (fun o => decide (o = op_t.enq x (enq_pc.done 0))) s.ops t o
      (op_step o s.ring).1 ht
    have hD := countP_set_eq (fun o => decide (o = op_t.deq (deq_pc.done x))) s.ops t o
      (op_step o s.ring).1 ht
    have hQ := countP_set_eq (is_enq_of x) s.ops t o (op_step o s.ring).1 ht
    simp only [enq_ok_count, deq_got_count] at heq ⊢
    cases o with
    | enq p pc =>
      obtain ⟨hp2, hp64, hpc⟩ := hoo
      obtain ⟨hl1, hm⟩ := enq_step_marked p x pc s.ring hp2 hp64 hpc hlen
      simp only [op_step] at hE hD hQ ⊢
      refine ⟨hl1, ?_, ?_, ?_⟩
      · intro o1 ho1
        rcases List.mem_or_eq_of_mem_set ho1 with h | h
        · exact hok o1 h
        · rw [h]
          exact ⟨hp2, hp64, (enq_step_spec p pc s.ring hpc).1⟩
      · simp only [op_t.enq.injEq, decide_eq_true_eq, reduceCtorEq, decide_False,
          Bool.false_eq_true, if_false, Nat.add_zero] at hE hD
        omega
      · simp only [is_enq_of] at hQ
        omega
    | deq pc =>
      have hpc : deq_pc_ok pc := hoo
      obtain ⟨hl1, hm⟩ := deq_step_marked x pc s.ring hx hpc hlen
      simp only [op_step] at hE hD hQ ⊢
      refine ⟨hl1, ?_, ?_, ?_⟩
      · intro o1 ho1
        rcases List.mem_or_eq_of_mem_set ho1 with h | h
        · exact hok o1 h
        · rw [h]
          exact (deq_step_spec pc s.ring hpc).1
      · simp only [op_t.deq.injEq, decide_eq_true_eq, reduceCtorEq, decide_False,
          Bool.false_eq_true, if_false, Nat.add_zero] at hE hD
        omega
      · simp only [is_enq_of] at hQ
        omega

/-- The conservation equation holds along every schedule. -/
theorem sys_run_inv (x : Nat) (hx : x ≠ 0) (sched : List Nat) :
    ∀ (s : sys_t), s.ring.node.length = 32 → (∀ o ∈ s.ops, op_ok o) →
      enq_ok_count x s.ops = deq_got_count x s.ops + marked_count x s.ring.node →
      enq_ok_count x (sys_run s sched).ops =
        deq_got_count x (sys_run s sched).ops + marked_count x (sys_run s sched).ring.node ∧
      (sys_run s sched).ops.countP (is_enq_of x) = s.ops.countP (is_enq_of x) := by
  induction sched with
  | nil =>
    intro s _ _ heq
    exact ⟨heq, rfl⟩
  | cons t ts ih =>
    intro s hlen hok heq
    obtain ⟨h1, h2, h3, h4⟩ := sys_step_inv x hx s t hlen hok heq
    obtain ⟨i1, i2⟩ := ih (sys_step s t).1 h1 h2 h3
    simp only [sys_run]
    exact ⟨i1, by rw [i2, h4]⟩

theorem op_fresh_ok (o : op_t) (h : op_fresh o) : op_ok o := by
  cases o with
  | enq p pc =>
    obtain ⟨h1, h2, h3⟩ := h
    subst h3
    exact ⟨h1, h2, trivial⟩
  | deq pc =>
    have e : pc = deq_start := h
    subst e
    exact deq_start_ok

theorem marked_count_init (x : Nat) (q : queue_lf_t) (hlen : q.node.length = 32) :
    marked_count x (init_queue q).node = 0 := by
  simp only [marked_count, List.countP_eq_zero]
  intro n hn
  obtain ⟨i, hi, e⟩ := List.getElem_of_mem hn
  have hi32 : i < 32 := by rw [init_queue_length, hlen] at hi; exact hi
  have := init_queue_getD q i hi32
  rw [List.getD_eq_getElem _ _ hi, e] at this
  rw [this]
  simp [zero_node]

theorem deq_start_ne_done (x : Nat) : deq_start ≠ deq_pc.done x := by
  simp [deq_start, deq_outer, deq_inner, DEQ_RETRIES, RING_LF_SIZE]

/-- C23, counterexample. With every call run from entry to return before the next one
starts: the payload 0 is enqueued with return value 0, the dequeue that removes it
returns `NULL` and no node is marked; the payload `0x11` is enqueued with return value 0
and the dequeue returns `0x10`; the payload `0x10`, enqueued twice, is returned by two
dequeues. -/
theorem concurrent_no_loss_counterexample :
    ((sys_run (sys_enq_deq 0) sched_enq_deq).ops =
        [op_t.enq 0 (enq_pc.done 0), op_t.deq (deq_pc.done 0)] ∧
      (sys_run (sys_enq_deq 0) sched_enq_deq).ring.node.all (fun n => decide (n.mark = 0)) =
        true) ∧
    ((sys_run (sys_enq_deq 0x11) sched_enq_deq).ops =
        [op_t.enq 0x11 (enq_pc.done 0), op_t.deq (deq_pc.done 0x10)] ∧
      (sys_run (sys_enq_deq 0x11) sched_enq_deq).ring.node.all
        (fun n => decide (n.mark = 0)) = true) ∧
    (sys_run (sys_enq2_deq2 0x10) sched_enq2_deq2).ops =
      [op_t.enq 0x10 (enq_pc.done 0), op_t.enq 0x10 (enq_pc.done 0),
        op_t.deq (deq_pc.done 0x10), op_t.deq (deq_pc.done 0x10)] := by
  refine ⟨⟨by decide, by decide⟩, ⟨by decide, by decide⟩, by decide⟩

/-- C23, amended. With every fetch-and-increment, load and compare and swap one atomic
step: for every interleaving of `queue_lf_enq` calls with 64-bit payloads of low bit 0 and
`queue_lf_deq` calls on a freshly initialised ring, and every payload `x` other than
`NULL`, the number of enqueues of `x` that have returned 0 equals the number of dequeues
that have returned `x` plus the number of marked nodes that hold `x`; so `x` is returned
by at most as many dequeues as there are enqueue calls of `x`, by at most one when it is
enqueued once. -/
theorem concurrent_no_loss_no_dup (q : queue_lf_t) (ops : List op_t) (sched : List Nat)
    (x : Nat) (hlen : q.node.length = RING_LF_SIZE) (hops : ∀ o ∈ ops, op_fresh o)
    (hx : x ≠ 0) :
    enq_ok_count x (sys_run { ring := init_queue q, ops := ops } sched).ops =
      deq_got_count x (sys_run { ring := init_queue q, ops := ops } sched).ops +
        marked_count x (sys_run { ring := init_queue q, ops := ops } sched).ring.node ∧
    deq_got_count x (sys_run { ring := init_queue q, ops := ops } sched).ops ≤
      ops.countP (is_enq_of x) ∧
    (ops.countP (is_enq_of x) ≤ 1 →
      deq_got_count x (sys_run { ring := init_queue q, ops := ops } sched).ops ≤ 1) := by
  have hE0 : enq_ok_count x ops = 0 := by
    simp only [enq_ok_count, List.countP_eq_zero, decide_eq_true_eq]
    intro o ho e
    have := hops o ho
    rw [e] at this
    obtain ⟨-, -, h3⟩ := this
    simp at h3
  have hD0 : deq_got_count x ops = 0 := by
    simp only [deq_got_count, List.countP_eq_zero, decide_eq_true_eq]
    intro o ho e
    have := hops o ho
    rw [e] at this
    exact deq_start_ne_done x (Eq.symm this)
  obtain ⟨h1, h2⟩ := sys_run_inv x hx sched { ring := init_queue q, ops := ops }
    (by rw [init_queue_length]; exact hlen) (fun o ho => op_fresh_ok o (hops o ho))
    (by simp only [hE0, hD0, marked_count_init x q hlen])
  have hle : enq_ok_count x (sys_run { ring := init_queue q, ops := ops } sched).ops ≤
      (sys_run { ring := init_queue q, ops := ops } sched).ops.countP (is_enq_of x) := by
    simp only [enq_ok_count]
    apply List.countP_mono_left
    intro o _ ho
    simp only [decide_eq_true_eq] at ho
    rw [ho]
    simp [is_enq_of]
  simp only at h2
  refine ⟨h1, by omega, fun h => by omega⟩

/-- Witness of C23 (amended): two enqueues that both sample node 1 as free and two
dequeues that both sample the same head; the payload `0x10` is returned once. -/
theorem concurrent_no_loss_no_dup_witness :
    (enq_ok_count 0x10 (sys_run sys_overlap sched_overlap).ops =
        deq_got_count 0x10 (sys_run sys_overlap sched_overlap).ops +
          marked_count 0x10 (sys_run sys_overlap sched_overlap).ring.node ∧
      deq_got_count 0x10 (sys_run sys_overlap sched_overlap).ops ≤
        sys_overlap.ops.countP (is_enq_of 0x10) ∧
      (sys_overlap.ops.countP (is_enq_of 0x10) ≤ 1 →
        deq_got_count 0x10 (sys_run sys_overlap sched_overlap).ops ≤ 1)) ∧
    (sys_run sys_overlap sched_overlap).ops =
      [op_t.enq 0x10 (enq_pc.done 0), op_t.enq 0x20 (enq_pc.done 0),
        op_t.deq (deq_pc.done 0x10), op_t.deq (deq_pc.done 0x20)] :=
  ⟨concurrent_no_loss_no_dup ring0 sys_overlap.ops sched_overlap 0x10 (by decide)
      (by decide) (by decide),
    by decide⟩

theorem create_run_done (n : Nat) (r : Option Nat) (glb : queue_lf_global_t) :
    create_run n (create_pc.done r) glb = (create_pc.done r, glb) := by
  induction n with
  | zero => rfl
  | succ n ih => simp only [create_run, create_step, ih]

/-- Running alone, the steps of `queue_lf_create` compute the table loop `create_loop`. -/
theorem create_alone_loop (glb : queue_lf_global_t) (m : Nat) :
    ∀ (n i : Nat), i + m = 128 → m + 1 ≤ n →
      create_run n (create_head i) glb =
        (create_pc.done (create_loop glb.queue_lf m i).1,
          { glb with queue_lf := (create_loop glb.queue_lf m i).2 }) := by
  induction m with
  | zero =>
    intro n i hi _
    have : create_head i = create_pc.done none := by
      simp only [create_head, QUEUE_LF_NUM]
      rw [if_neg (by omega)]
    rw [this, create_run_done]
    rfl
  | succ m ih =>
    intro n i hi hn
    have hh : create_head i = create_pc.test i := by
      simp only [create_head, QUEUE_LF_NUM]
      rw [if_pos (by omega)]
    obtain ⟨n1, rfl⟩ : ∃ n1, n = n1 + 1 := ⟨n - 1, by omega⟩
    rw [hh]
    simp only [create_run, create_step, create_loop]
    by_cases h : (glb.queue_lf.getD i zero_queue).used = 0
    · simp only [if_pos h]
      obtain ⟨n2, rfl⟩ : ∃ n2, n1 = n2 + 1 := ⟨n1 - 1, by omega⟩
      simp only [create_run, create_step, create_run_done]
    · simp only [if_neg h]
      exact ih n1 (i + 1) (by omega) (by omega)

/-- Faithfulness of the step model: a `queue_lf_create` call that runs alone returns the
handle and leaves the pool that the function `queue_lf_create` gives. -/
theorem create_alone_eq (glb : queue_lf_global_t) (type : odp_queue_type_t) (n : Nat)
    (hn : CREATE_STEPS ≤ n) :
    create_run n (create_entry type) glb =
      (create_pc.done (queue_lf_create glb type).1, (queue_lf_create glb type).2) := by
  simp only [create_entry, queue_lf_create]
  by_cases h : type ≠ odp_queue_type_t.ODP_QUEUE_TYPE_PLAIN
  · simp only [if_pos h, create_run_done]
  · simp only [if_neg h]
    have hs : CREATE_STEPS = 129 := by decide
    exact create_alone_loop glb 128 n 0 (by omega) (by omega)

theorem create_run2_first (n : Nat) : ∀ (glb : queue_lf_global_t) (pc0 pc1 : create_pc),
    create_run2 glb pc0 pc1 (List.replicate n false) =
      ((create_run n pc0 glb).2, (create_run n pc0 glb).1, pc1) := by
  induction n with
  | zero => intro glb pc0 pc1; rfl
  | succ n ih =>
    intro glb pc0 pc1
    simp only [List.replicate_succ, create_run2, create_run, ih]

theorem create_run2_second (n : Nat) : ∀ (glb : queue_lf_global_t) (pc0 pc1 : create_pc),
    create_run2 glb pc0 pc1 (List.replicate n true) =
      ((create_run n pc1 glb).2, pc0, (create_run n pc1 glb).1) := by
  induction n with
  | zero => intro glb pc0 pc1; rfl
  | succ n ih =>
    intro glb pc0 pc1
    simp only [List.replicate_succ, create_run2, create_run, ih]

theorem create_run2_append (s1 : List Bool) : ∀ (glb : queue_lf_global_t)
    (pc0 pc1 : create_pc) (s2 : List Bool),
    create_run2 glb pc0 pc1 (s1 ++ s2) =
      create_run2 (create_run2 glb pc0 pc1 s1).1 (create_run2 glb pc0 pc1 s1).2.1
        (create_run2 glb pc0 pc1 s1).2.2 s2 := by
  induction s1 with
  | nil => intro glb pc0 pc1 s2; rfl
  | cons b s1 ih =>
    intro glb pc0 pc1 s2
    cases b
    · simp only [List.cons_append, create_run2]
      exact ih _ _ _ _
    · simp only [List.cons_append, create_run2]
      exact ih _ _ _ _

/-- Two `queue_lf_create` calls made one after the other never return the same entry. -/
theorem create_twice_distinct (glb : queue_lf_global_t) (a b : Nat)
    (hlen : glb.queue_lf.length = QUEUE_LF_NUM)
    (ha : (queue_lf_create glb odp_queue_type_t.ODP_QUEUE_TYPE_PLAIN).1 = some a)
    (hb : (queue_lf_create (queue_lf_create glb odp_queue_type_t.ODP_QUEUE_TYPE_PLAIN).2
      odp_queue_type_t.ODP_QUEUE_TYPE_PLAIN).1 = some b) : a ≠ b := by
  simp only [QUEUE_LF_NUM] at hlen
  rcases create_loop_spec glb.queue_lf QUEUE_LF_NUM 0 with ⟨h1, -⟩ | ⟨k, -, hk, -, -, h5⟩
  · simp [queue_lf_create, h1] at ha
  · simp only [QUEUE_LF_NUM] at hk
    have hc : queue_lf_create glb odp_queue_type_t.ODP_QUEUE_TYPE_PLAIN =
        (some k, { glb with queue_lf := glb.queue_lf.set k ring0 }) := by
      simp only [queue_lf_create, ne_eq, not_true_eq_false, if_false, h5]
    rw [hc] at ha hb
    simp only [Option.some.injEq] at ha
    subst ha
    rcases create_loop_spec (glb.queue_lf.set k ring0) QUEUE_LF_NUM 0 with
      ⟨h1, -⟩ | ⟨k2, -, -, hu, -, h6⟩
    · simp [queue_lf_create, h1] at hb
    · simp only [queue_lf_create, ne_eq, not_true_eq_false, if_false, h6,
        Option.some.injEq] at hb
      subst hb
      intro e
      subst e
      rw [getD_set_self _ _ _ _ (by omega)] at hu
      simp [ring0] at hu

/-- C24, counterexample. On a freshly initialised pool, two `queue_lf_create` calls for
plain queues that both test `used` of entry 0 before either of them writes it both
return entry 0. -/
theorem create_atomic_counterexample :
    (create_run2 pool0 (create_entry odp_queue_type_t.ODP_QUEUE_TYPE_PLAIN)
      (create_entry odp_queue_type_t.ODP_QUEUE_TYPE_PLAIN)
      [false, true, false, true]).2.1 = create_pc.done (some 0) ∧
    (create_run2 pool0 (create_entry odp_queue_type_t.ODP_QUEUE_TYPE_PLAIN)
      (create_entry odp_queue_type_t.ODP_QUEUE_TYPE_PLAIN)
      [false, true, false, true]).2.2 = create_pc.done (some 0) := by
  refine ⟨by decide, by decide⟩

/-- C24, amended. `queue_lf_create` itself does not select its entry atomically; when two
calls are serialised, the second starting after the first has returned, they are the two
calls of the function `queue_lf_create` one after the other and never return the same
pool entry. -/
theorem create_serialised_distinct (glb : queue_lf_global_t) (n m : Nat)
    (hlen : glb.queue_lf.length = QUEUE_LF_NUM) (hn : CREATE_STEPS ≤ n)
    (hm : CREATE_STEPS ≤ m) :
    (create_run2 glb (create_entry odp_queue_type_t.ODP_QUEUE_TYPE_PLAIN)
      (create_entry odp_queue_type_t.ODP_QUEUE_TYPE_PLAIN)
      (List.replicate n false ++ List.replicate m true)).2.1 =
      create_pc.done (queue_lf_create glb odp_queue_type_t.ODP_QUEUE_TYPE_PLAIN).1 ∧
    (create_run2 glb (create_entry odp_queue_type_t.ODP_QUEUE_TYPE_PLAIN)
      (create_entry odp_queue_type_t.ODP_QUEUE_TYPE_PLAIN)
      (List.replicate n false ++ List.replicate m true)).2.2 =
      create_pc.done
        (queue_lf_create (queue_lf_create glb odp_queue_type_t.ODP_QUEUE_TYPE_PLAIN).2
          odp_queue_type_t.ODP_QUEUE_TYPE_PLAIN).1 ∧
    (∀ a b, (queue_lf_create glb odp_queue_type_t.ODP_QUEUE_TYPE_PLAIN).1 = some a →
      (queue_lf_create (queue_lf_create glb odp_queue_type_t.ODP_QUEUE_TYPE_PLAIN).2
        odp_queue_type_t.ODP_QUEUE_TYPE_PLAIN).1 = some b → a ≠ b) := by
  rw [create_run2_append, create_run2_first, create_run2_second]
  simp only [create_alone_eq glb _ n hn, create_alone_eq _ _ m hm]
  exact ⟨trivial, trivial, fun a b ha hb => create_twice_distinct glb a b hlen ha hb⟩

/-- Witness of C24 (amended): two serialised calls on the freshly initialised pool return
the entries 0 and 1. -/
theorem create_serialised_distinct_witness :
    (create_run2 pool0 (create_entry odp_queue_type_t.ODP_QUEUE_TYPE_PLAIN)
      (create_entry odp_queue_type_t.ODP_QUEUE_TYPE_PLAIN)
      (List.replicate 129 false ++ List.replicate 129 true)).2.1 =
      create_pc.done (queue_lf_create pool0 odp_queue_type_t.ODP_QUEUE_TYPE_PLAIN).1 ∧
    (queue_lf_create pool0 odp_queue_type_t.ODP_QUEUE_TYPE_PLAIN).1 = some 0 ∧
    (queue_lf_create (queue_lf_create pool0 odp_queue_type_t.ODP_QUEUE_TYPE_PLAIN).2
      odp_queue_type_t.ODP_QUEUE_TYPE_PLAIN).1 = some 1 ∧
    (0 : Nat) ≠ 1 :=
  ⟨(create_serialised_distinct pool0 129 129 (by decide) (by decide) (by decide)).1,
    by decide, by decide,
    (create_serialised_distinct pool0 129 129 (by decide) (by decide) (by decide)).2.2 0 1
      (by decide) (by decide)⟩

/-- Witness of C27: under the interference `env_spoil` the second compare and swap of
the call, on node 2, is a step of the run and changes no node. -/
theorem slot_automaton_witness :
    ∃ r, r ∈ (enq_run_env 0x100 env_spoil ENQ_STEPS 0 enq_pc.fetch_inc ring0).2.2 ∧
      r.op = atomic_op.cas 2 false ∧ fills_only r.before r.after := by
  have h : ∃ r, r ∈ (enq_run_env 0x100 env_spoil ENQ_STEPS 0 enq_pc.fetch_inc ring0).2.2 ∧
      r.op = atomic_op.cas 2 false := by decide
  obtain ⟨r, hr, hop⟩ := h
  exact ⟨r, hr, hop, ((slot_automaton 0x100 ENQ_STEPS env_spoil ring0).1 r hr).1⟩

/-- Witness of C29: the complete run of a call on an empty ring under the interference
`env_spoil`. The first scan samples node 1, every compare and swap fails, and each retry
starts at the node after the one its predecessor failed on. -/
theorem rolling_start_position_witness :
    (enq_run_env 0x100 env_spoil ENQ_STEPS 0 enq_pc.fetch_inc ring0).2.2.map
        (fun r => r.op) =
      [atomic_op.fetch_inc, atomic_op.load 1, atomic_op.cas 1 false, atomic_op.load 2,
        atomic_op.cas 2 false, atomic_op.load 3, atomic_op.cas 3 false, atomic_op.load 4,
        atomic_op.cas 4 false, atomic_op.load 5, atomic_op.cas 5 false, atomic_op.load 6,
        atomic_op.cas 6 false, atomic_op.load 7, atomic_op.cas 7 false, atomic_op.load 8,
        atomic_op.cas 8 false] ∧
    rolling_scan 0 []
      ((enq_run_env 0x100 env_spoil ENQ_STEPS 0 enq_pc.fetch_inc ring0).2.2.map
        (fun r => r.op)) ∧
    (3 < 32 ∧ atomic_op.load 4 = atomic_op.load ((3 + 1) % 32)) ∧
    (enq_run_env 0x100 no_env 32 0 (enq_pc.load 1 0 30 0) ring_full).2.2.map
        (fun r => r.op) =
      (scan_order RING_LF_SIZE 30).map atomic_op.load :=
  ⟨by decide, (rolling_start_position 0x100 ENQ_STEPS env_spoil ring0).1,
    (rolling_start_position 0x100 ENQ_STEPS env_spoil ring0).2.2.1
      [atomic_op.fetch_inc, atomic_op.load 1, atomic_op.cas 1 false, atomic_op.load 2,
        atomic_op.cas 2 false, atomic_op.load 3]
      [atomic_op.cas 4 false, atomic_op.load 5, atomic_op.cas 5 false, atomic_op.load 6,
        atomic_op.cas 6 false, atomic_op.load 7, atomic_op.cas 7 false, atomic_op.load 8,
        atomic_op.cas 8 false] 3 (atomic_op.load 4) (by decide),
    ((rolling_start_position 0x100 0 env_spoil ring0).2.2.2.2.1 0 1 30 0 ring_full
      (by decide) (by decide)).1⟩

/-- Witness of C30: under the interference `env_spoil` a call on an empty ring returns -1
and has made one fetch-and-increment. -/
theorem spurious_full_witness :
    (enq_run_env 0x100 env_spoil ENQ_STEPS 0 enq_pc.fetch_inc ring0).1 = enq_pc.done (-1) ∧
    count_ops is_fetch_inc
      (enq_run_env 0x100 env_spoil ENQ_STEPS 0 enq_pc.fetch_inc ring0).2.2 = 1 :=
  ⟨by decide, (spurious_full.2 0x100 ENQ_STEPS env_spoil ring0 (by decide)).2⟩

/-- C31. Failure atomicity of enqueue: for every ring state and payload, when a
single-threaded `queue_lf_enq` returns -1 (full), the node array is unchanged, `used` is
unchanged, and the only change of the ring is `enq_counter` incremented by one as a
64-bit counter; the value is `enq_counter + 1` whenever that fits in 64 bits. -/
theorem enq_full_only_counts (q : queue_lf_t) (p : Nat) (h : (queue_lf_enq q p).1 = -1) :
    (queue_lf_enq q p).2.node = q.node ∧
    (∀ i, (queue_lf_enq q p).2.node.getD i zero_node = q.node.getD i zero_node) ∧
    (queue_lf_enq q p).2.used = q.used ∧
    (queue_lf_enq q p).2.enq_counter = (q.enq_counter + 1) % U64 ∧
    (q.enq_counter + 1 < U64 → (queue_lf_enq q p).2.enq_counter = q.enq_counter + 1) ∧
    (queue_lf_enq q p).2 = { q with enq_counter := (q.enq_counter + 1) % U64 } := by
  cases hf : first_empty q.node with
  | some k =>
    rw [queue_lf_enq_of_some q p k hf] at h
    have h0 : (0 : Int) = -1 := h
    exact absurd h0 (by decide)
  | none =>
    rw [queue_lf_enq_of_none q p hf]
    exact ⟨rfl, fun _ => rfl, rfl, rfl, fun hc => Nat.mod_eq_of_lt hc, rfl⟩

set_option maxRecDepth 100000

theorem enq_full_only_counts_witness :
    (queue_lf_enq ring_full 0x900).1 = -1 ∧
    (queue_lf_enq ring_full 0x900).2.node = ring_full.node ∧
    (queue_lf_enq ring_full 0x900).2.enq_counter = 33 :=
  ⟨by decide, (enq_full_only_counts ring_full 0x900 (by decide)).1,
    ((enq_full_only_counts ring_full 0x900 (by decide)).2.2.2.1).trans (by decide)⟩

/-- C32, as the code has it: a ring that holds the payload `NULL` (pointer 0) is changed
by a dequeue that reports empty. `queue_lf_deq` returns `NULL` and `queue_lf_deq_multi`
returns 0 and leaves the output vector alone, and yet the mark of node 1 was cleared. -/
theorem deq_empty_result_counterexample :
    ring_null_payload.WF ∧
    (ring_null_payload.node.getD 1 zero_node).mark = 1 ∧
    (queue_lf_deq ring_null_payload).1 = 0 ∧
    (queue_lf_deq ring_null_payload).2 ≠ ring_null_payload ∧
    ((queue_lf_deq ring_null_payload).2.node.getD 1 zero_node).mark = 0 ∧
    (queue_lf_deq_multi ring_null_payload (fun _ => 7) 4).1 = 0 ∧
    (queue_lf_deq_multi ring_null_payload (fun _ => 7) 4).2.2 ≠ ring_null_payload ∧
    ((queue_lf_deq_multi ring_null_payload (fun _ => 7) 4).2.2.node.getD 1 zero_node).mark
      = 0 := by
  decide

/-- C32, amended. An empty result means nothing was removed, when no payload is `NULL`:
for every well-formed ring state in which every node with `mark = 1` has `ptr` other
than 0, whenever a single-threaded `queue_lf_deq` returns `NULL`, or `queue_lf_deq_multi`
returns 0, the ring after the call is identical to the ring before it, and the batch call
leaves the output vector as it was. -/
theorem deq_empty_changes_nothing (q : queue_lf_t) (out : Nat → Nat) (num : Int)
    (hwf : q.WF)
    (hptr : ∀ i, i < 32 → (q.node.getD i zero_node).mark = 1 →
      (q.node.getD i zero_node).ptr ≠ 0) :
    ((queue_lf_deq q).1 = 0 → (queue_lf_deq q).2 = q) ∧
    ((queue_lf_deq_multi q out num).1 = 0 →
      (queue_lf_deq_multi q out num).2.2 = q ∧ (queue_lf_deq_multi q out num).2.1 = out) := by
  have key : (queue_lf_deq q).1 = 0 → (queue_lf_deq q).2 = q := by
    intro h0
    by_cases h : ∃ j, j < 32 ∧ (q.node.getD j zero_node).mark = 1 ∧
        (q.node.getD j zero_node).count < U64 - 1
    · obtain ⟨k, hk, hm, -, -, e⟩ := queue_lf_deq_of_some q h
      rw [e] at h0
      have hl : k < q.node.length := by
        have := hwf.1
        simp only [RING_LF_SIZE] at this
        omega
      have hn : (q.node.getD k zero_node).WF := hwf.2.1 _ (getD_mem_of_lt _ _ _ hl)
      exact absurd h0 ((node_buf_ne_zero_iff _ hn).mpr (hptr k hk hm))
    · rw [queue_lf_deq_of_none q (fun j hj hm => by
        by_contra hc
        exact h ⟨j, hj, hm, by omega⟩)]
  refine ⟨key, fun hm => ?_⟩
  simp only [queue_lf_deq_multi] at hm ⊢
  by_cases h0 : (queue_lf_deq q).1 = 0
  · rw [if_pos h0]
    exact ⟨key h0, rfl⟩
  · rw [if_neg h0] at hm
    have h1 : (1 : Int) = 0 := hm
    exact absurd h1 (by decide)

theorem deq_empty_changes_nothing_witness :
    ring_max_count.WF ∧ (ring_max_count.node.getD 1 zero_node).mark = 1 ∧
    (queue_lf_deq ring_max_count).1 = 0 ∧ (queue_lf_deq ring_max_count).2 = ring_max_count ∧
    (queue_lf_deq_multi ring_max_count (fun _ => 7) 4).2.2 = ring_max_count :=
  ⟨by decide, by decide, by decide,
    (deq_empty_changes_nothing ring_max_count (fun _ => 7) 4 (by decide) (by decide)).1
      (by decide),
    ((deq_empty_changes_nothing ring_max_count (fun _ => 7) 4 (by decide) (by decide)).2
      (by decide)).1⟩

/-- C33, as the code has it: with `num = 0` the batch operations still handle element 0.
On a zeroed ring `queue_lf_enq_multi` returns 1, more than the 0 requested, and its
result depends on `buf_hdr[0]`, an element at an index not below `num`; on a ring that
holds three payloads `queue_lf_deq_multi` returns 1 and overwrites `buf_hdr[0]`. -/
theorem multi_num_zero_counterexample :
    (queue_lf_enq_multi ring0 (fun _ => 0x10) 0).1 = 1 ∧
    ¬ (queue_lf_enq_multi ring0 (fun _ => 0x10) 0).1 ≤ 0 ∧
    (∀ i : Nat, (i : Int) < 0 → (fun _ : Nat => 0x10) i = (fun _ : Nat => 0x20) i) ∧
    queue_lf_enq_multi ring0 (fun _ => 0x10) 0 ≠ queue_lf_enq_multi ring0 (fun _ => 0x20) 0 ∧
    (queue_lf_deq_multi ring_three (fun _ => 7) 0).1 = 1 ∧
    ¬ (queue_lf_deq_multi ring_three (fun _ => 7) 0).1 ≤ 0 ∧
    (0 : Int) ≤ ((0 : Nat) : Int) ∧
    (queue_lf_deq_multi ring_three (fun _ => 7) 0).2.1 0 = 0x10 ∧
    (queue_lf_deq_multi ring_three (fun _ => 7) 0).2.1 0 ≠ (fun _ : Nat => 7) 0 := by
  refine ⟨by decide, by decide, fun i hi => ?_, by decide, by decide, by decide, by decide,
    by decide, by decide⟩
  omega

/-- C33, amended. The batch operations never report more than was requested, when at
least one is requested: for every ring state and every `num >= 1`, `queue_lf_enq_multi`
returns 0 or 1, hence a value `<= num`, and reads no payload vector element at an index
`>= num` (two vectors that agree below `num` give the same result; only element 0 is
read), and `queue_lf_deq_multi` returns 0 or 1, hence a value `<= num`, and writes no
output vector element at an index `>= num` (only element 0 may change). -/
theorem multi_within_num (q : queue_lf_t) (buf_hdr out : Nat → Nat) (num : Int)
    (hnum : 1 ≤ num) :
    (0 ≤ (queue_lf_enq_multi q buf_hdr num).1 ∧ (queue_lf_enq_multi q buf_hdr num).1 ≤ 1 ∧
      (queue_lf_enq_multi q buf_hdr num).1 ≤ num) ∧
    (∀ buf_hdr2 : Nat → Nat, (∀ i : Nat, (i : Int) < num → buf_hdr2 i = buf_hdr i) →
      queue_lf_enq_multi q buf_hdr2 num = queue_lf_enq_multi q buf_hdr num) ∧
    (∀ buf_hdr2 : Nat → Nat, buf_hdr2 0 = buf_hdr 0 →
      queue_lf_enq_multi q buf_hdr2 num = queue_lf_enq_multi q buf_hdr num) ∧
    (0 ≤ (queue_lf_deq_multi q out num).1 ∧ (queue_lf_deq_multi q out num).1 ≤ 1 ∧
      (queue_lf_deq_multi q out num).1 ≤ num) ∧
    (∀ i : Nat, num ≤ (i : Int) → (queue_lf_deq_multi q out num).2.1 i = out i) ∧
    (∀ i : Nat, i ≠ 0 → (queue_lf_deq_multi q out num).2.1 i = out i) := by
  have hread : ∀ buf_hdr2 : Nat → Nat, buf_hdr2 0 = buf_hdr 0 →
      queue_lf_enq_multi q buf_hdr2 num = queue_lf_enq_multi q buf_hdr num := by
    intro b hb
    simp only [queue_lf_enq_multi, hb]
  have hwrite : ∀ i : Nat, i ≠ 0 → (queue_lf_deq_multi q out num).2.1 i = out i := by
    intro i hi
    simp only [queue_lf_deq_multi]
    split
    · rfl
    · exact Function.update_noteq hi _ _
  refine ⟨?_, fun b hb => hread b (hb 0 (by omega)), hread, ?_,
    fun i hi => hwrite i (by omega), hwrite⟩
  · simp only [queue_lf_enq_multi]
    split
    · show (0 : Int) ≤ 1 ∧ (1 : Int) ≤ 1 ∧ (1 : Int) ≤ num
      exact ⟨by decide, by decide, hnum⟩
    · show (0 : Int) ≤ 0 ∧ (0 : Int) ≤ 1 ∧ (0 : Int) ≤ num
      exact ⟨by decide, by decide, by omega⟩
  · simp only [queue_lf_deq_multi]
    split
    · show (0 : Int) ≤ 0 ∧ (0 : Int) ≤ 1 ∧ (0 : Int) ≤ num
      exact ⟨by decide, by decide, by omega⟩
    · show (0 : Int) ≤ 1 ∧ (1 : Int) ≤ 1 ∧ (1 : Int) ≤ num
      exact ⟨by decide, by decide, hnum⟩

theorem multi_within_num_witness :
    (1 : Int) ≤ 4 ∧ (queue_lf_enq_multi ring0 (fun i => 0x10 * (i + 1)) 4).1 ≤ 4 ∧
    (queue_lf_deq_multi ring_three (fun _ => 7) 4).1 ≤ 4 ∧
    (queue_lf_deq_multi ring_three (fun _ => 7) 4).2.1 5 = 7 :=
  ⟨by decide, (multi_within_num ring0 (fun i => 0x10 * (i + 1)) (fun _ => 7) 4 (by decide)).1.2.2,
    (multi_within_num ring_three (fun i => 0x10 * (i + 1)) (fun _ => 7) 4
      (by decide)).2.2.2.1.2.2,
    (multi_within_num ring_three (fun i => 0x10 * (i + 1)) (fun _ => 7) 4
      (by decide)).2.2.2.2.1 5 (by decide)⟩

/-- The two outcomes of `queue_lf_create`: `NULL` with the pool unchanged, or a free
entry that becomes a zeroed ring with `used = 1`. -/
theorem queue_lf_create_cases (glb : queue_lf_global_t) (type : odp_queue_type_t) :
    queue_lf_create glb type = (none, glb) ∨
    ∃ k, k < 128 ∧ (glb.queue_lf.getD k zero_queue).used = 0 ∧
      queue_lf_create glb type =
        (some k, { glb with queue_lf := glb.queue_lf.set k ring0 }) := by
  cases type with
  | ODP_QUEUE_TYPE_SCHED =>
    left
    simp [queue_lf_create]
  | ODP_QUEUE_TYPE_PLAIN =>
    by_cases h : ∃ j, j < 128 ∧ (glb.queue_lf.getD j zero_queue).used = 0
    · obtain ⟨k, h1, h2, -, h4⟩ := queue_lf_create_some glb h
      exact Or.inr ⟨k, h1, h2, h4⟩
    · left
      exact queue_lf_create_none glb (fun j hj hu => h ⟨j, hj, hu⟩)

/-- A handle that is held is an index of the table. -/
theorem pool_inv_lt (s : pool_state) (h : pool_inv s) (i : Nat) (hi : i ∈ s.outstanding) :
    i < 128 := by
  obtain ⟨hlen, -, hiff⟩ := h
  by_contra hc
  have h1 := (hiff i).mpr hi
  have h2 : s.glb.queue_lf.getD i zero_queue = zero_queue := by
    rw [List.getD_eq_default]
    simp only [QUEUE_LF_NUM] at hlen
    omega
  rw [h2] at h1
  exact absurd h1 (by decide)

/-- A `queue_lf_create` call keeps the pool invariant. -/
theorem pool_step_create_inv (s : pool_state) (type : odp_queue_type_t) (h : pool_inv s) :
    pool_inv (pool_step s (pool_call.create type)) := by
  obtain ⟨hlen, hnd, hiff⟩ := h
  rcases queue_lf_create_cases s.glb type with e | ⟨k, hk, hu, e⟩
  · simp only [pool_step, e]
    exact ⟨hlen, hnd, hiff⟩
  · simp only [pool_step, e]
    have hkn : k ∉ s.outstanding := by
      intro hc
      have := (hiff k).mpr hc
      rw [hu] at this
      exact absurd this (by decide)
    refine ⟨by simp only [List.length_set]; exact hlen, List.nodup_cons.mpr ⟨hkn, hnd⟩,
      fun i => ?_⟩
    by_cases hik : i = k
    · subst hik
      rw [getD_set_self _ _ _ _ (by simp only [QUEUE_LF_NUM] at hlen; omega)]
      exact ⟨fun _ => List.mem_cons_self _ _, fun _ => by decide⟩
    · rw [getD_set_other _ _ _ _ _ (Ne.symm hik), hiff i]
      exact ⟨fun hm => List.mem_cons_of_mem _ hm, fun hm => by
        rcases List.mem_cons.mp hm with e1 | e1
        · exact absurd e1 hik
        · exact e1⟩

/-- A `queue_lf_destroy` of a handle that is held keeps the pool invariant. -/
theorem pool_step_destroy_inv (s : pool_state) (p : Nat) (h : pool_inv s)
    (hp : p ∈ s.outstanding) : pool_inv (pool_step s (pool_call.destroy p)) := by
  have hlt := pool_inv_lt s h p hp
  obtain ⟨hlen, hnd, hiff⟩ := h
  simp only [pool_step]
  refine ⟨by simp only [queue_lf_destroy, List.length_set]; exact hlen, hnd.erase p,
    fun i => ?_⟩
  rw [hnd.mem_erase_iff]
  by_cases hip : i = p
  · subst hip
    rw [queue_lf_destroy_getD_self _ _ (by simp only [QUEUE_LF_NUM] at hlen; omega)]
    exact ⟨fun hc => absurd (show (0 : Int) = 1 from hc) (by decide),
      fun hc => absurd rfl hc.1⟩
  · rw [queue_lf_destroy_getD_other _ _ _ hip, hiff i]
    exact ⟨fun hm => ⟨hip, hm⟩, fun hm => hm.2⟩

/-- A sequence of pool calls in which only handles that are held are destroyed keeps the
pool invariant. -/
theorem pool_run_inv (calls : List pool_call) :
    ∀ s : pool_state, pool_inv s → pool_valid s calls → pool_inv (pool_run s calls) := by
  induction calls with
  | nil => exact fun s h _ => h
  | cons c cs ih =>
    intro s h hv
    cases c with
    | create type => exact ih _ (pool_step_create_inv s type h) hv
    | destroy p => exact ih _ (pool_step_destroy_inv s p h hv.1) hv.2

/-- C34. Pool handle uniqueness (sequential): in every pool state reached from a pool
with all 128 entries free by a sequence of `queue_lf_create` and `queue_lf_destroy` calls
in which only outstanding handles are destroyed, the entries with `used = 1` are exactly
the outstanding handles, no handle is outstanding twice, every outstanding handle is one
of the 128 entries, and a further `queue_lf_create` of any kind never returns an entry
that is outstanding: the entry it returns had `used = 0`. -/
theorem pool_handles_unique (glb : queue_lf_global_t) (calls : List pool_call)
    (hlen : glb.queue_lf.length = QUEUE_LF_NUM)
    (hfree : ∀ j, j < QUEUE_LF_NUM → (glb.queue_lf.getD j zero_queue).used = 0)
    (hvalid : pool_valid { glb := glb, outstanding := [] } calls) :
    (∀ i, ((pool_run { glb := glb, outstanding := [] } calls).glb.queue_lf.getD i
        zero_queue).used = 1 ↔
      i ∈ (pool_run { glb := glb, outstanding := [] } calls).outstanding) ∧
    (pool_run { glb := glb, outstanding := [] } calls).outstanding.Nodup ∧
    (∀ i ∈ (pool_run { glb := glb, outstanding := [] } calls).outstanding,
      i < QUEUE_LF_NUM) ∧
    (∀ type k,
      (queue_lf_create (pool_run { glb := glb, outstanding := [] } calls).glb type).1 =
        some k →
      k ∉ (pool_run { glb := glb, outstanding := [] } calls).outstanding ∧
      ((pool_run { glb := glb, outstanding := [] } calls).glb.queue_lf.getD k
        zero_queue).used = 0) := by
  have h0 : pool_inv { glb := glb, outstanding := [] } := by
    refine ⟨hlen, List.nodup_nil, fun i => ?_⟩
    simp only [List.not_mem_nil, iff_false]
    by_cases hi : i < QUEUE_LF_NUM
    · rw [hfree i hi]
      decide
    · rw [List.getD_eq_default _ _ (by omega)]
      decide
  have hinv := pool_run_inv calls _ h0 hvalid
  refine ⟨hinv.2.2, hinv.2.1, fun i hi => pool_inv_lt _ hinv i hi, fun type k hk => ?_⟩
  rcases queue_lf_create_cases (pool_run { glb := glb, outstanding := [] } calls).glb type
    with e | ⟨k2, -, hu, e⟩
  · rw [e] at hk
    exact absurd hk (by simp)
  · rw [e] at hk
    have hkk : k2 = k := Option.some.inj hk
    subst hkk
    refine ⟨fun hc => ?_, hu⟩
    have := (hinv.2.2 k2).mpr hc
    rw [hu] at this
    exact absurd this (by decide)

theorem pool_handles_unique_witness :
    pool_valid { glb := pool0, outstanding := [] } pool_calls_six ∧
    (pool_run { glb := pool0, outstanding := [] } pool_calls_six).outstanding = [2, 0, 1] ∧
    (pool_run { glb := pool0, outstanding := [] } pool_calls_six).outstanding.Nodup ∧
    (queue_lf_create (pool_run { glb := pool0, outstanding := [] } pool_calls_six).glb
      odp_queue_type_t.ODP_QUEUE_TYPE_PLAIN).1 = some 3 ∧
    3 ∉ (pool_run { glb := pool0, outstanding := [] } pool_calls_six).outstanding :=
  ⟨by decide, by decide,
    (pool_handles_unique pool0 pool_calls_six (by decide) (by decide) (by decide)).2.1,
    by decide,
    ((pool_handles_unique pool0 pool_calls_six (by decide) (by decide)
      (by decide)).2.2.2 odp_queue_type_t.ODP_QUEUE_TYPE_PLAIN 3 (by decide)).1⟩

/-- Setting bit 0 of a pointer does not change the pointer shifted right by one. -/
theorem or_one_shiftRight (p : Nat) : (p ||| 1) >>> 1 = p >>> 1 := by
  apply Nat.eq_of_testBit_eq
  intro i
  have h1 : Nat.testBit 1 (i + 1) = false := by
    rw [Nat.testBit_succ]
    exact Nat.zero_testBit i
  rw [Nat.testBit_shiftRight, Nat.testBit_shiftRight, Nat.testBit_or, Nat.add_comm 1 i, h1,
    Bool.or_false]

/-- Clearing bit 0 of a 64-bit value, `p & ~1`, is `p / 2 * 2`. -/
theorem and_not_one (p : Nat) (hp : p < U64) : p &&& (U64 - 2) = p / 2 * 2 := by
  apply Nat.eq_of_testBit_eq
  intro i
  have h2 : U64 - 2 = 2 ^ 64 - (1 + 1) := by decide
  rw [Nat.testBit_and, h2, Nat.testBit_two_pow_sub_succ (by decide)]
  cases i with
  | zero =>
    have e : (p / 2 * 2).testBit 0 = false := by
      rw [Nat.testBit_zero]
      simp
    rw [e, Nat.testBit_one_zero]
    simp
  | succ i =>
    have h1 : Nat.testBit 1 (i + 1) = false := by
      rw [Nat.testBit_succ]
      exact Nat.zero_testBit i
    have e : (p / 2 * 2).testBit (i + 1) = p.testBit (i + 1) := by
      rw [Nat.testBit_succ, Nat.testBit_succ, Nat.mul_div_cancel _ (by decide)]
    rw [e, h1]
    by_cases hi : i + 1 < 64
    · simp [hi]
    · have hlt : p < 2 ^ (i + 1) :=
        lt_of_lt_of_le hp (by
          simp only [U64]
          exact Nat.pow_le_pow_right (by decide) (by omega))
      rw [Nat.testBit_lt_two_pow hlt]
      simp

/-- The node value that `queue_lf_enq` installs is the same for `p` and `p | 1`. -/
theorem enq_new_val_or_one (p c : Nat) (hp : p < U64) :
    enq_new_val (p ||| 1) c = enq_new_val p c := by
  have h1 : p ||| 1 < U64 := by
    simp only [U64] at *
    exact Nat.or_lt_two_pow hp (by decide)
  simp only [enq_new_val, Nat.mod_eq_of_lt h1, Nat.mod_eq_of_lt hp, or_one_shiftRight]

/-- C35. Low bit is dropped, not rejected: for every 64-bit payload `p`, odd ones
included, a single-threaded `queue_lf_enq` of `p` on a freshly initialised ring returns 0
(ok) and the following `queue_lf_deq` returns `p` with bit 0 cleared, `p & ~1`, which is
`p - p % 2`; the enqueue of `p | 1` leaves the same ring state as the enqueue of `p` and
the following dequeue gives the same result, so `p` and `p | 1` cannot be told apart after
a round trip. -/
theorem low_bit_dropped (q : queue_lf_t) (p : Nat)
    (hlen : q.node.length = RING_LF_SIZE) (hp : p < U64) :
    (queue_lf_enq (init_queue q) p).1 = 0 ∧
    (queue_lf_deq (queue_lf_enq (init_queue q) p).2).1 = p &&& (U64 - 2) ∧
    (queue_lf_deq (queue_lf_enq (init_queue q) p).2).1 = p - p % 2 ∧
    p ||| 1 < U64 ∧
    queue_lf_enq (init_queue q) (p ||| 1) = queue_lf_enq (init_queue q) p ∧
    queue_lf_deq (queue_lf_enq (init_queue q) (p ||| 1)).2 =
      queue_lf_deq (queue_lf_enq (init_queue q) p).2 := by
  have hl0 : (init_queue q).node.length = 32 := by rw [init_queue_length]; exact hlen
  have hU : (32 : Nat) < U64 := by decide
  obtain ⟨h1, h2, h3, h4⟩ := Sim_enq (init_queue q) [] p (Sim_init q) hl0
    (by rw [init_queue_counter]; omega)
  rw [node_buf_new_val p _, Nat.mod_eq_of_lt hp] at h1 h4
  simp only [fifo_enq, RING_LF_SIZE, List.length_nil, Nat.zero_lt_succ, if_true,
    List.nil_append] at h1 h4
  obtain ⟨d1, -, -, -⟩ := Sim_deq _ _ h4 h2 (by rw [h3, init_queue_counter]; omega)
  have hor : p ||| 1 < U64 := by
    simp only [U64] at *
    exact Nat.or_lt_two_pow hp (by decide)
  have heq : queue_lf_enq (init_queue q) (p ||| 1) = queue_lf_enq (init_queue q) p := by
    cases hf : first_empty (init_queue q).node with
    | none => rw [queue_lf_enq_of_none _ _ hf, queue_lf_enq_of_none _ _ hf]
    | some k =>
      rw [queue_lf_enq_of_some _ _ k hf, queue_lf_enq_of_some _ _ k hf,
        enq_new_val_or_one p _ hp]
  refine ⟨h1, ?_, ?_, hor, heq, by rw [heq]⟩
  · rw [d1, and_not_one p hp]
    rfl
  · rw [d1]
    simp only [List.headD_cons]
    omega

theorem low_bit_dropped_witness :
    (queue_lf_enq (init_queue ring0) 0xffffffffffffffff).1 = 0 ∧
    (queue_lf_deq (queue_lf_enq (init_queue ring0) 0xffffffffffffffff).2).1 =
      0xfffffffffffffffe ∧
    queue_lf_enq (init_queue ring0) (0xfffffffffffffffe ||| 1) =
      queue_lf_enq (init_queue ring0) 0xfffffffffffffffe :=
  ⟨(low_bit_dropped ring0 0xffffffffffffffff (by decide) (by decide)).1,
    ((low_bit_dropped ring0 0xffffffffffffffff (by decide) (by decide)).2.2.1).trans
      (by decide),
    (low_bit_dropped ring0 0xfffffffffffffffe (by decide) (by decide)).2.2.2.2.1⟩

/-- Every atomic operation of a `queue_lf_enq` step from a control point that satisfies
the invariant addresses a node index below `RING_LF_SIZE`. -/
theorem enq_step_in_bounds (p : Nat) (pc : enq_pc) (q : queue_lf_t) (h : enq_pc_ok pc) :
    op_in_bounds (enq_step p pc q).2.2 := by
  cases pc with
  | fetch_inc => trivial
  | load j i i_node c =>
    obtain ⟨-, -, hn⟩ := h
    simp only [enq_step]
    split
    · exact next_idx_lt _ hn
    · exact next_idx_lt _ hn
  | cas j i_node v c =>
    obtain ⟨-, hn, -⟩ := h
    simp only [enq_step, atomic_cas_rel_u128]
    by_cases hc : q.node.getD i_node zero_node = v
    · simp only [atomic_load_u128, if_pos hc]
      exact hn
    · simp only [atomic_load_u128, if_neg hc]
      exact hn
  | done r => trivial

/-- Every atomic operation of a `queue_lf_deq` step from a control point that satisfies
the invariant addresses a node index below `RING_LF_SIZE`. -/
theorem deq_step_in_bounds (pc : deq_pc) (q : queue_lf_t) (h : deq_pc_ok pc) :
    op_in_bounds (deq_step pc q).2.2 := by
  cases pc with
  | load j i s =>
    obtain ⟨-, -, hs⟩ := h
    simp only [deq_step]
    split
    · exact next_idx_lt _ hs.1
    · exact next_idx_lt _ hs.1
  | cas j s =>
    obtain ⟨-, hs, hf⟩ := h
    obtain ⟨-, ho⟩ := hs.2 hf
    simp only [deq_step, atomic_cas_acq_u128]
    by_cases hc : q.node.getD s.old zero_node = s.old_val
    · simp only [atomic_load_u128, if_pos hc]
      exact ho
    · simp only [atomic_load_u128, if_neg hc]
      exact ho
  | done r => trivial

/-- C36. Index safety: `next_idx` maps every `idx` in 0..31 to `(idx + 1) mod 32`, which
is again in 0..31; every load and every compare and swap of a `queue_lf_enq` or
`queue_lf_deq` call, whatever other threads do to the ring between its steps, addresses a
node index in 0..31; and from any start in 0..31, 32 successive applications of
`next_idx` visit each of the 32 indices exactly once, visit nothing else, and end at the
start. -/
theorem index_safety :
    (∀ idx, idx < RING_LF_SIZE →
      next_idx idx = (idx + 1) % RING_LF_SIZE ∧ next_idx idx < RING_LF_SIZE) ∧
    (∀ (p : Nat) (env : Nat → queue_lf_t → queue_lf_t) (n : Nat) (q : queue_lf_t),
      ∀ r ∈ (enq_run_env p env n 0 enq_pc.fetch_inc q).2.2, op_in_bounds r.op) ∧
    (∀ (env : Nat → queue_lf_t → queue_lf_t) (n : Nat) (q : queue_lf_t),
      ∀ r ∈ (deq_run_env env n 0 deq_start q).2.2, op_in_bounds r.op) ∧
    (∀ start, start < RING_LF_SIZE →
      (∀ i, i < RING_LF_SIZE → (scan_order RING_LF_SIZE start).count i = 1) ∧
      (scan_order RING_LF_SIZE start).length = RING_LF_SIZE ∧
      (∀ x ∈ scan_order RING_LF_SIZE start, x < RING_LF_SIZE) ∧
      (scan_order RING_LF_SIZE start).getLast? = some start ∧
      next_idx_iter RING_LF_SIZE start = start) := by
  refine ⟨fun idx h => ⟨next_idx_mod idx h, next_idx_lt idx h⟩, ?_, ?_, by decide⟩
  · intro p env n q
    exact enq_run_env_all p env (fun r => op_in_bounds r.op)
      (fun pc q h => enq_step_in_bounds p pc q h) n 0 enq_pc.fetch_inc q trivial
  · intro env n q
    exact deq_run_env_all env (fun r => op_in_bounds r.op)
      (fun pc q h => deq_step_in_bounds pc q h) n 0 deq_start q deq_start_ok

theorem index_safety_witness :
    next_idx 31 = 0 ∧
    (∀ r ∈ (enq_run_env 0x100 env_spoil ENQ_STEPS 0 enq_pc.fetch_inc ring0).2.2,
      op_in_bounds r.op) ∧
    (scan_order RING_LF_SIZE 17).count 5 = 1 ∧
    (scan_order RING_LF_SIZE 17).getLast? = some 17 :=
  ⟨(index_safety.1 31 (by decide)).1, index_safety.2.1 0x100 env_spoil ENQ_STEPS ring0,
    (index_safety.2.2.2 17 (by decide)).1 5 (by decide),
    (index_safety.2.2.2 17 (by decide)).2.2.2.1⟩

end OdpQueueLf
